import Mathlib

/-!
# Classes-For-C: a shallow embedding of `classes.h` and `VehicleExample.c`

The object-model runtime of `src/inc/classes.h` is a family of functions generated
by the macros `CLASSDECL` / `CLASSDEF`, one family per class.  A class is
embedded as the list of its class definitions, most-derived first and root last
(`CLASSDEF(type, base)` is the cons of `type` onto the chain of `base`,
`CLASSDEF(type)` is a one-element chain), and every generated function is a
recursive function over that list: the call of the base class function, which
the macros `_CALL_BASE_FUN_SINGLE_ARG` and `_CALL_BASE_CTOR` omit for a root
class, is the recursive call on the tail.

Within one chain a class is identified by its depth (root = 0).

Memory is a record of stores; addresses are natural numbers and the null
address is `none`.  The instance struct at address `p` is seen
through the class at depth `k` as the fields `pVtable` and `pMembers` of view
`k`; all views of one instance share the address `p`, and the generic delete
reference is the field at offset 0.  The heap hands out fresh addresses and
never fails.  Every call of a generated function, every `calloc` and every
`free` is appended to a trace, so that orders and counts can be stated.
Undefined behaviour (a call through a null function reference, a `NULL`
dereference, a release of a block that is not live) appends `Event.ub`.
-/

namespace ClassesForC

/-! ## Data model -/

/-- A method table: slot name to the name of the function stored in the slot;
`none` is the null function reference of zero-initialised static storage. -/
abbrev Vtable := String → Option String

/-- Contents of one field of a `State` (members) block. -/
inductive Val where
  | int (i : Int)
  | ptr (a : Nat)
  deriving DecidableEq, Repr

/-- The functions that `CLASSDEF` generates for every class, and the three
routines the user supplies per the `CLASSDEF` contract. -/
inductive Routine where
  | Ctor | Init | VtableInit | VtableInitTree | NewInner | NewOuter
  | Dtor | Deinit | DeleteInner | DeleteOuter | Delete
  deriving DecidableEq, Repr

/-- What a `calloc` was made for. -/
inductive Kind where
  | inst | state | buf
  deriving DecidableEq, Repr

inductive Event where
  | call (r : Routine) (cls : Nat)
  | calloc (k : Kind) (a : Nat)
  | free (a : Nat)
  | method (fn : String)
  | printf (fmt : String) (args : List Int)
  | ub
  deriving DecidableEq, Repr

structure World where
  /-- next fresh heap address -/
  next : Nat
  /-- heap blocks that are allocated and not yet released -/
  live : List Nat
  /-- the zero-offset field `__DeleteClass__` / `_Delete`: `some c` is `c_Delete` -/
  del : Nat → Option Nat
  /-- `pVtable` of view `k` of the instance at `p`: `some c` is `&c_VtableDefault` -/
  vt : Nat → Nat → Option Nat
  /-- `pMembers` of view `k` of the instance at `p` -/
  mb : Nat → Nat → Option Nat
  /-- fields of the `State` block at an address -/
  st : Nat → Nat → Val
  /-- bytes of a character buffer at an address -/
  bytes : Nat → List Int
  /-- the static `type_IsVtableInit` of every class -/
  IsVtableInit : Nat → Bool
  /-- the static `type_VtableDefault` of every class -/
  VtableDefault : Nat → Vtable
  trace : List Event

/-- A value written by an `_Init` routine into a field of its `State` block:
a plain value, or the address of a buffer it allocates with the given bytes. -/
inductive Field where
  | val (v : Int)
  | buf (bs : List Int)
  deriving DecidableEq, Repr

/-- A method implementation: `self` address, integer arguments, effect. -/
abbrev Method := Nat → List Int → World → World

/-- One `CLASSDEF`: the user routines of the contract.
* `VtableInit`: the slot assignments of `type_VtableInit`, in program order;
* `Init`: the assignments `pInst->pMembers->field = ...` of `type_Init`, in
  program order, computed from the class's own part of the config;
* `Deinit`: the fields `f` for which `type_Deinit` calls
  `free(pInst->pMembers->f)`, in program order;
* `methods`: the method functions defined with the class. -/
structure ClassDef where
  name : String
  VtableInit : List (String × String)
  Init : List Int → List (Nat × Field)
  Deinit : List Nat
  methods : List (String × Method)

/-- A class: its definition followed by those of its ancestors, root last. -/
abbrev Chain := List ClassDef

/-- A config: the class's own fields, followed by the configs of its ancestors
(`pCfg->Base` is the tail). -/
abbrev Cfg := List (List Int)

/-! ## Primitive steps -/

def World.log (w : World) (e : Event) : World :=
  { w with trace := w.trace ++ [e] }

/-- The `calloc` of the C library: a fresh address, recorded as live. -/
def World.calloc (w : World) (k : Kind) : Nat × World :=
  (w.next, { w with next := w.next + 1, live := w.next :: w.live,
                    trace := w.trace ++ [Event.calloc k w.next] })

/-- The `free` of the C library on a non-null address. -/
def World.free (w : World) (a : Nat) : World :=
  if a ∈ w.live then
    { w with live := w.live.erase a, trace := w.trace ++ [Event.free a] }
  else
    { w with trace := w.trace ++ [Event.free a, Event.ub] }

/-- The `free` of a possibly null address: `free(NULL)` does nothing. -/
def World.freePtr (w : World) : Option Nat → World
  | some a => w.free a
  | none => w

/-- The `free` of the contents of a `State` field: a zero field is the null
address, any other number is not an address. -/
def World.freeVal (w : World) : Val → World
  | Val.ptr b => w.free b
  | Val.int v => if v = 0 then w else w.log Event.ub

/-- The process start: nothing allocated, all static storage zero. -/
def World.init : World :=
  { next := 1, live := [], del := fun _ => none, vt := fun _ _ => none,
    mb := fun _ _ => none, st := fun _ _ => Val.int 0, bytes := fun _ => [],
    IsVtableInit := fun _ => false, VtableDefault := fun _ _ => none, trace := [] }

/-- The store `pInst->pVtable = t` through the static type at depth `k`. -/
def World.setVt (w : World) (p : Nat) (k : Nat) (t : Option Nat) : World :=
  { w with vt := Function.update w.vt p (Function.update (w.vt p) k t) }

/-- The store `pInst->pMembers = a` through the static type at depth `k`. -/
def World.setMb (w : World) (p : Nat) (k : Nat) (a : Option Nat) : World :=
  { w with mb := Function.update w.mb p (Function.update (w.mb p) k a) }

/-- The store of a value into field `i` of the `State` block at `a`. -/
def World.setSt (w : World) (a : Nat) (i : Nat) (v : Val) : World :=
  { w with st := Function.update w.st a (Function.update (w.st a) i v) }

/-- The zero fill of a `State` block that `calloc` returns. -/
def World.zeroSt (w : World) (a : Nat) : World :=
  { w with st := Function.update w.st a (fun _ => Val.int 0) }

/-- The zero fill of an instance struct that `calloc` returns. -/
def World.zeroInst (w : World) (p : Nat) : World :=
  { w with del := Function.update w.del p none,
           vt := Function.update w.vt p (fun _ => none),
           mb := Function.update w.mb p (fun _ => none) }

/-- The store of the generic delete reference at offset 0. -/
def World.setDel (w : World) (p : Nat) (c : Option Nat) : World :=
  { w with del := Function.update w.del p c }

/-- The store `type_IsVtableInit = 1` of the class at depth `c`. -/
def World.setFlag (w : World) (c : Nat) : World :=
  { w with IsVtableInit := Function.update w.IsVtableInit c true }

/-- The fill of a character buffer. -/
def World.setBytes (w : World) (b : Nat) (bs : List Int) : World :=
  { w with bytes := Function.update w.bytes b bs }

/-! ## `classes.h`: the method table -/

/-- Run the slot assignments of one `type_VtableInit` on a table. -/
def assignSlots : List (String × String) → Vtable → Vtable
  | [], t => t
  | (s, f) :: r, t => assignSlots r (Function.update t s (some f))

/-- The user routine `type_VtableInit(pVtable)`, on the table of class `t`. -/
def VtableInit (d : ClassDef) (cls t : Nat) (w : World) : World :=
  let w := w.log (Event.call Routine.VtableInit cls)
  { w with VtableDefault :=
      Function.update w.VtableDefault t (assignSlots d.VtableInit (w.VtableDefault t)) }

/-- The generated `type_VtableInitTree(pVtable)`: the base class's tree first
(nothing for a root class), then the class's own `type_VtableInit`. -/
def VtableInitTree : Chain → Nat → World → World
  | [], _, w => w
  | d :: bases, t, w =>
    let w := w.log (Event.call Routine.VtableInitTree bases.length)
    let w := VtableInitTree bases t w
    VtableInit d bases.length t w

/-! ## `classes.h`: construction -/

/-- Write the listed fields of the `State` block at `a`; a `Field.buf` is a
`calloc` of a buffer whose address is stored in the field. -/
def runInit (a : Nat) : List (Nat × Field) → World → World
  | [], w => w
  | (i, Field.val v) :: r, w => runInit a r (w.setSt a i (Val.int v))
  | (i, Field.buf bs) :: r, w =>
    runInit a r ((((w.calloc Kind.buf).2).setBytes w.next bs).setSt a i (Val.ptr w.next))

/-- The user routine `type_Init(pInst, pCfg)` of the class at depth `cls`. -/
def Init (d : ClassDef) (cls : Nat) (p : Nat) (own : List Int) (w : World) : World :=
  let w := w.log (Event.call Routine.Init cls)
  match w.mb p cls with
  | none => w.log Event.ub
  | some a => runInit a (d.Init own) w

/-- The generated `type_Ctor(pInst, pVtable, pCfg)`: the base class's
constructor on the same instance, the same table and `&pCfg->Base` (nothing for
a root class), then `pInst->pVtable = pVtable`, the zero-filled `State` block,
and `type_Init`. -/
def Ctor : Chain → Nat → Nat → Cfg → World → World
  | [], _, _, _, w => w
  | d :: bases, p, t, cfg, w =>
    let w := w.log (Event.call Routine.Ctor bases.length)
    let w := Ctor bases p t cfg.tail w
    let w := w.setVt p bases.length (some t)
    let a := w.next
    let w := (((w.calloc Kind.state).2).zeroSt a).setMb p bases.length (some a)
    Init d bases.length p (cfg.headD []) w

/-- Depth of the class a chain stands for (root = 0). -/
def depth (ch : Chain) : Nat := ch.length - 1

/-- The generated `type_NewInner(pInst, pCfg)`. -/
def NewInner (ch : Chain) (p : Nat) (cfg : Cfg) (w : World) : World :=
  let w := w.log (Event.call Routine.NewInner (depth ch))
  let w :=
    if w.IsVtableInit (depth ch) then w
    else
      (VtableInitTree ch (depth ch) w).setFlag (depth ch)
  Ctor ch p (depth ch) cfg w

/-- The generated `type_NewOuter(pCfg)`, which `NEW(type, pCfg)` expands to. -/
def NewOuter (ch : Chain) (cfg : Cfg) (w : World) : Nat × World :=
  let w := w.log (Event.call Routine.NewOuter (depth ch))
  let p := w.next
  let w := ((w.calloc Kind.inst).2).zeroInst p
  let w := NewInner ch p cfg w
  (p, w.setDel p (some (depth ch)))

/-- The macro `NEW(type, pCfg)`. -/
def NEW (ch : Chain) (cfg : Cfg) (w : World) : Nat × World := NewOuter ch cfg w

/-! ## `classes.h`: destruction -/

/-- The calls `free(pInst->pMembers->f)` of a `type_Deinit`, in order. -/
def runDeinit (p : Nat) (cls : Nat) : List Nat → World → World
  | [], w => w
  | i :: r, w =>
    match w.mb p cls with
    | none => runDeinit p cls r (w.log Event.ub)
    | some a => runDeinit p cls r (w.freeVal (w.st a i))

/-- The user routine `type_Deinit(pInst)` of the class at depth `cls`. -/
def Deinit (d : ClassDef) (cls : Nat) (p : Nat) (w : World) : World :=
  runDeinit p cls d.Deinit (w.log (Event.call Routine.Deinit cls))

/-- The generated `type_Dtor(pInst)`: the base class's destructor (nothing for
a root class), then `type_Deinit`, `free(pInst->pMembers)` and
`pInst->pMembers = 0`. -/
def Dtor : Chain → Nat → World → World
  | [], _, w => w
  | d :: bases, p, w =>
    let w := w.log (Event.call Routine.Dtor bases.length)
    let w := Dtor bases p w
    let w := Deinit d bases.length p w
    let w := w.freePtr (w.mb p bases.length)
    w.setMb p bases.length none

/-- The generated `type_DeleteInner(pInst)`. -/
def DeleteInner (ch : Chain) (p : Nat) (w : World) : World :=
  Dtor ch p (w.log (Event.call Routine.DeleteInner (depth ch)))

/-- The generated `type_DeleteOuter(pInst)`. -/
def DeleteOuter (ch : Chain) (p : Nat) (w : World) : World :=
  (DeleteInner ch p (w.log (Event.call Routine.DeleteOuter (depth ch)))).free p

/-- The generated `type_Delete(pInst)`. -/
def Delete (ch : Chain) (p : Nat) (w : World) : World :=
  DeleteOuter ch p (w.log (Event.call Routine.Delete (depth ch)))

/-- The class of depth `c` of a program whose most-derived class is `prog`. -/
def classOf (prog : Chain) (c : Nat) : Chain := prog.drop (prog.length - (c + 1))

/-- The macro `DELETE(pInst)`: the call through the zero-offset function
reference, whatever the static type of `pInst`. -/
def DELETE (prog : Chain) (p : Nat) (w : World) : World :=
  match w.del p with
  | some c => Delete (classOf prog c) p w
  | none => w.log Event.ub

/-! ## `classes.h`: dispatch -/

/-- The function a name stands for: the first definition of that name among
the method functions of the program's classes. -/
def resolve : Chain → String → Option Method
  | [], _ => none
  | d :: bases, f =>
    match d.methods.lookup f with
    | some m => some m
    | none => resolve bases f

/-- The function reference that `(pObj)->pVtable->func` reads, for `pObj` of
the static type at depth `k`. -/
def slotOf (w : World) (p : Nat) (k : Nat) (func : String) : Option String :=
  match w.vt p k with
  | some t => w.VtableDefault t func
  | none => none

/-- The macro `VCALL(pObj, func, ...)` for `pObj` of the static type at depth
`k`: call the function in slot `func` of `pObj->pVtable` on `pObj`. -/
def VCALL (prog : Chain) (p : Nat) (k : Nat) (func : String) (args : List Int)
    (w : World) : World :=
  match slotOf w p k func with
  | none => w.log Event.ub
  | some f =>
    match resolve prog f with
    | none => (w.log (Event.method f)).log Event.ub
    | some m => m p args (w.log (Event.method f))

/-! ## `classes.h`: layout of the class structs and casts -/

/-- A struct member: its name and its size in bytes. -/
structure Member where
  name : String
  size : Nat
  deriving DecidableEq, Repr

def sizeofMembers (ms : List Member) : Nat := (ms.map Member.size).sum

/-- The `offsetof` of a member: the sizes of the members declared before it
(all members of a class struct are pointer-sized or structs of such, so there
is no padding). -/
def offsetof : List Member → String → Nat
  | [], _ => 0
  | m :: r, x => if m.name = x then 0 else m.size + offsetof r x

/-- The struct of the class at a depth, for pointers of `P` bytes:
`_DEFINE_CLASS_STRUCT_ROOT` for depth 0, `_DEFINE_CLASS_STRUCT_DERIVED`
otherwise. -/
def classStruct (P : Nat) : Nat → List Member
  | 0 => [⟨"_Delete", P⟩, ⟨"pVtable", P⟩, ⟨"pMembers", P⟩]
  | n + 1 => [⟨"Base", sizeofMembers (classStruct P n)⟩, ⟨"pVtable", P⟩, ⟨"pMembers", P⟩]

/-- The `offsetof(type, Base.Base...Base)` with `n` times `Base`, for the
class `type` at depth `dep`. -/
def offsetofBase (P : Nat) : Nat → Nat → Nat
  | _, 0 => 0
  | dep, n + 1 => offsetof (classStruct P dep) "Base" + offsetofBase P (dep - 1) n

/-- The up-cast `&(p->Base.Base...Base)` with `n` times `Base`. -/
def upcast (P : Nat) (dep n : Nat) (p : Nat) : Nat := p + offsetofBase P dep n

/-- The macro `GET_CHILDCLASS(ptr, type, Base.Base...Base)`. -/
def GET_CHILDCLASS (P : Nat) (ptr : Int) (dep n : Nat) : Int :=
  ptr - (offsetofBase P dep n : Int)

/-- Size of a pointer on the platform of the example. -/
def sizeofPtr : Nat := 8

/-! ## `VehicleExample.c` -/

def Val.toInt : Val → Int
  | Val.int i => i
  | Val.ptr a => (a : Int)

/-- The characters of a buffer up to its terminating zero (the `%s` of `printf`). -/
def cstring (bs : List Int) : List Int := bs.takeWhile (fun c => c ≠ 0)

/-- `Vehicle_Members`: field 0 is `TopSpeed`, field 1 is `CurrentSpeed`. -/
def Vehicle_Accelerate : Method := fun p args w =>
  let speed := args.headD 0
  match w.mb p 0 with
  | none => w.log Event.ub
  | some a =>
    if speed > (w.st a 1).toInt ∧ speed ≤ (w.st a 0).toInt then
      let w := w.log (Event.printf "The vehicle accelerates to %d km/h.\n" [speed])
      w.setSt a 1 (Val.int speed)
    else w

def Vehicle_Brake : Method := fun p _ w =>
  let w := w.log (Event.printf "The vehicle brakes to a halt.\n" [])
  match w.mb p 0 with
  | none => w.log Event.ub
  | some a => w.setSt a 1 (Val.int 0)

/-- `Vehicle_Init`: `TopSpeed = pCfg->TopSpeed`, `CurrentSpeed = 0`. -/
def Vehicle_Init : List Int → List (Nat × Field) :=
  fun cfg => [(0, Field.val (cfg.getD 0 0)), (1, Field.val 0)]

/-- `Vehicle_Deinit`: nothing to release. -/
def Vehicle_Deinit : List Nat := []

def Vehicle_VtableInit : List (String × String) :=
  [("Accelerate", "Vehicle_Accelerate"), ("Brake", "Vehicle_Brake")]

/-- `CLASSDEF(Vehicle)`. -/
def Vehicle : ClassDef :=
  { name := "Vehicle"
    VtableInit := Vehicle_VtableInit
    Init := Vehicle_Init
    Deinit := Vehicle_Deinit
    methods := [("Vehicle_Accelerate", Vehicle_Accelerate), ("Vehicle_Brake", Vehicle_Brake)] }

/-- `Car_Members`: field 0 is `Seats`.  The instance argument is a `Vehicle*`. -/
def Car_Accelerate : Method := fun p args w =>
  let speed := args.headD 0
  let pCar := (GET_CHILDCLASS sizeofPtr p 1 1).toNat
  match w.mb p 0 with
  | none => w.log Event.ub
  | some a =>
    if speed > (w.st a 1).toInt ∧ speed ≤ (w.st a 0).toInt then
      match w.mb pCar 1 with
      | none => w.log Event.ub
      | some c =>
        let w := w.log (Event.printf "The car with %d seats accelerates to %d km/h.\n"
                          [(w.st c 0).toInt, speed])
        w.setSt a 1 (Val.int speed)
    else w

def Car_Fuel : Method := fun _ _ w =>
  w.log (Event.printf "The car was refueled.\n" [])

/-- `Car_Init`: `Seats = pCfg->Seats`. -/
def Car_Init : List Int → List (Nat × Field) :=
  fun cfg => [(0, Field.val (cfg.getD 0 0))]

/-- `Car_Deinit`: nothing to release. -/
def Car_Deinit : List Nat := []

/-- `Car_VtableInit`: `Base.Accelerate` is overridden, `Fuel` is new, `Brake`
is left as inherited. -/
def Car_VtableInit : List (String × String) :=
  [("Accelerate", "Car_Accelerate"), ("Fuel", "Car_Fuel")]

/-- `CLASSDEF(Car, Vehicle)`. -/
def Car : ClassDef :=
  { name := "Car"
    VtableInit := Car_VtableInit
    Init := Car_Init
    Deinit := Car_Deinit
    methods := [("Car_Accelerate", Car_Accelerate), ("Car_Fuel", Car_Fuel)] }

/-- `Racecar_Members`: field 0 is `pDriver`.  The instance argument is a
`Vehicle*`. -/
def Racecar_Accelerate : Method := fun p args w =>
  let speed := args.headD 0
  let pCar := (GET_CHILDCLASS sizeofPtr p 2 2).toNat
  match w.mb p 0 with
  | none => w.log Event.ub
  | some a =>
    if speed > (w.st a 1).toInt ∧ speed ≤ (w.st a 0).toInt then
      match w.mb pCar 2 with
      | none => w.log Event.ub
      | some c =>
        match w.st c 0 with
        | Val.int _ => w.log Event.ub
        | Val.ptr b =>
          let w := w.log (Event.printf "The racecar of %s accelerates to %d km/h.\n"
                            (cstring (w.bytes b) ++ [speed]))
          w.setSt a 1 (Val.int speed)
    else w

/-- `Racecar_Init` allocates 32 zeroed characters, copies the first 31
characters at `pCfg->pDriver` into them (the own part of the config is the
character array) and stores the buffer in `pDriver`. -/
def Racecar_Init : List Int → List (Nat × Field) :=
  fun cfg => [(0, Field.buf ((List.range 31).map (fun i => cfg.getD i 0) ++ [0]))]

/-- `Racecar_Deinit`: `free(pInst->pMembers->pDriver)`. -/
def Racecar_Deinit : List Nat := [0]

/-- `Racecar_VtableInit`: `Base.Base.Accelerate` is overridden. -/
def Racecar_VtableInit : List (String × String) :=
  [("Accelerate", "Racecar_Accelerate")]

/-- `CLASSDEF(Racecar, Car)`. -/
def Racecar : ClassDef :=
  { name := "Racecar"
    VtableInit := Racecar_VtableInit
    Init := Racecar_Init
    Deinit := Racecar_Deinit
    methods := [("Racecar_Accelerate", Racecar_Accelerate)] }

/-- The three classes of the example, each with its ancestors. -/
def VehicleClass : Chain := [Vehicle]
def CarClass : Chain := [Car, Vehicle]
def RacecarClass : Chain := [Racecar, Car, Vehicle]

/-- `Vehicle_Cfg`, `Car_Cfg` and `Racecar_Cfg` values. -/
def VehicleCfg (top : Int) : Cfg := [[top]]
def CarCfg (top seats : Int) : Cfg := [[seats], [top]]
def RacecarCfg (top seats : Int) (driver : List Int) : Cfg := [driver, [seats], [top]]

/-! ## Vocabulary of the statements -/

/-- The function a `type_VtableInit` leaves in a slot: its last assignment to
the slot, `none` when the routine does not assign the slot. -/
def assigned : List (String × String) → String → Option String
  | [], _ => none
  | (s, f) :: r, x =>
    match assigned r x with
    | some g => some g
    | none => if s = x then some f else none

/-- The events a step appended to the trace. -/
def newEvents (before after : World) : List Event :=
  after.trace.drop before.trace.length

/-- The table that the tree build of a class produces from zero-initialised
static storage. -/
def builtTable (ch : Chain) : Vtable :=
  (VtableInitTree ch (depth ch) World.init).VtableDefault (depth ch)

/-- A class's statics are consistent: when its flag is set, its singleton table
is the one its tree build produces. -/
def World.TableOk (w : World) (ch : Chain) : Prop :=
  w.IsVtableInit (depth ch) = true → w.VtableDefault (depth ch) = builtTable ch

/-- The world in which the `_Init` of the class at depth `k` starts, from the
world `w` in which the base class's constructor returned: `pVtable` stored,
the zero-filled `State` block allocated at `w.next` and stored in `pMembers`. -/
def stateReady (w : World) (p k t : Nat) : World :=
  ((((w.setVt p k (some t)).calloc Kind.state).2.zeroSt w.next).setMb p k
    (some w.next)).log (Event.call Routine.Init k)

/-- The `State` blocks of the first `n` levels of the instance at `p`: each
level has one, at an address from `lo` on, no two levels share one, and no
address stored in a field of one of them is one of them. -/
def Owned (n p lo : Nat) (w : World) : Prop :=
  (∀ j, j < n → ∃ a, w.mb p j = some a ∧ lo ≤ a ∧ a < w.next) ∧
  (∀ i j a, i < n → j < n → w.mb p i = some a → w.mb p j = some a → i = j) ∧
  (∀ j, j < n → ∀ s, w.mb p j = some s → ∀ i b, w.st s i = Val.ptr b →
      b < w.next ∧ ∀ k, k < n → w.mb p k ≠ some b)

/-- The blocks the events allocate, in order, with what each was made for. -/
def allocated : List Event → List (Kind × Nat)
  | [] => []
  | Event.calloc k a :: r => (k, a) :: allocated r
  | _ :: r => allocated r

/-- The addresses the events call `free` on, in order. -/
def released : List Event → List Nat
  | [] => []
  | Event.free a :: r => a :: released r
  | _ :: r => released r

/-- One instantiation of a class: `NEW`, or `NewInner` on storage the caller
provides. -/
inductive Instantiation where
  | outer (cfg : Cfg)
  | inner (p : Nat) (cfg : Cfg)

/-- Run one instantiation; the instance and the world after it. -/
def instantiate (ch : Chain) : Instantiation → World → Nat × World
  | Instantiation.outer cfg, w => NEW ch cfg w
  | Instantiation.inner p cfg, w => (p, NewInner ch p cfg w)

/-- Run instantiations one after the other; the instances, in order, and the
world after the last. -/
def instantiateAll (ch : Chain) : List Instantiation → World → List Nat × World
  | [], w => ([], w)
  | i :: r, w =>
    ((instantiate ch i w).1 :: (instantiateAll ch r (instantiate ch i w).2).1,
     (instantiateAll ch r (instantiate ch i w).2).2)

/-- The value a `type_Init` leaves in a field: its last assignment to the
field, `none` when the routine does not assign the field. -/
def written : List (Nat × Field) → Nat → Option Field
  | [], _ => none
  | (j, f) :: r, i =>
    match written r i with
    | some g => some g
    | none => if j = i then some f else none

/-- The `State` block at `a` holds what the assignments `l` leave in a
zero-filled block: zero in a field they do not assign, the value in a field
they assign a value to, and the address of a buffer with the given bytes in a
field they assign a new buffer to. -/
def Populated (w : World) (a : Nat) (l : List (Nat × Field)) : Prop :=
  ∀ i, match written l i with
    | none => w.st a i = Val.int 0
    | some (Field.val v) => w.st a i = Val.int v
    | some (Field.buf bs) => ∃ b, w.st a i = Val.ptr b ∧ w.bytes b = bs

/-- The assignments of the `_Init` of the class at depth `j` of a chain, run on
the config embedded for that class: the chain and the config are both listed
from the most-derived class, so the class at depth `j` and its config are
`length - 1 - j` steps of `Base` in. -/
def levelInit (ch : Chain) (cfg : Cfg) (j : Nat) : List (Nat × Field) :=
  match ch.get? (ch.length - 1 - j) with
  | some d => d.Init (cfg.getD (ch.length - 1 - j) [])
  | none => []

/-- Two worlds differ at most in their traces. -/
def SameState (w v : World) : Prop :=
  w.next = v.next ∧ w.live = v.live ∧ w.del = v.del ∧ w.vt = v.vt ∧ w.mb = v.mb ∧
  w.st = v.st ∧ w.bytes = v.bytes ∧ w.IsVtableInit = v.IsVtableInit ∧
  w.VtableDefault = v.VtableDefault

/-- A call of `Accelerate` or of `Brake` through a reference typed at depth
`k`. -/
inductive MethodCall where
  | accelerate (k : Nat) (speed : Int)
  | brake (k : Nat)

/-- Dispatch one call on the instance at `p` with `VCALL`. -/
def dispatch (prog : Chain) (p : Nat) : MethodCall → World → World
  | MethodCall.accelerate k speed, w => VCALL prog p k "Accelerate" [speed] w
  | MethodCall.brake k, w => VCALL prog p k "Brake" [] w

/-- Dispatch calls on the instance at `p`, one after the other. -/
def dispatchAll (prog : Chain) (p : Nat) : List MethodCall → World → World
  | [], w => w
  | c :: r, w => dispatchAll prog p r (dispatch prog p c w)

/-- The Vehicle-level state of the instance at `p` is the block `a`, with the
given `TopSpeed` and a `CurrentSpeed` that is not negative and is 0 or at most
`TopSpeed`. -/
def VehicleInv (p a : Nat) (top : Int) (w : World) : Prop :=
  w.mb p 0 = some a ∧ w.st a 0 = Val.int top ∧
  ∃ cur, w.st a 1 = Val.int cur ∧ 0 ≤ cur ∧ (cur = 0 ∨ cur ≤ top)

/-- What a method call on the instance at `p` may change from `w` to `v`: the
trace, and field 1 (`CurrentSpeed`) of the Vehicle-level `State` block of `p`,
which stays a number. -/
def MethodFrame (p : Nat) (w v : World) : Prop :=
  v.next = w.next ∧ v.live = w.live ∧ v.del = w.del ∧ v.vt = w.vt ∧ v.mb = w.mb ∧
  v.bytes = w.bytes ∧ v.IsVtableInit = w.IsVtableInit ∧ v.VtableDefault = w.VtableDefault ∧
  (∀ s, w.mb p 0 ≠ some s → v.st s = w.st s) ∧
  (∀ s i, i ≠ 1 → v.st s i = w.st s i) ∧
  (∀ s i b, v.st s i = Val.ptr b → w.st s i = Val.ptr b)

/-- An operation of a client program: `NEW` of the class at depth `c` of the
program, `DELETE` of an instance, or a `VCALL` on an instance. -/
inductive Op where
  | new (c : Nat) (cfg : Cfg)
  | delete (p : Nat)
  | call (p k : Nat) (func : String) (args : List Int)

/-- A running program: the world, and the instances created and not yet
deleted, each with the depth of its class. -/
structure Sys where
  world : World
  insts : List (Nat × Nat)

/-- Run one operation.  `DELETE` and `VCALL` are run on instances that are
alive (anything else is outside the contract of `classes.h`). -/
def step (prog : Chain) : Op → Sys → Sys
  | Op.new c cfg, s =>
    if c < prog.length then
      { world := (NEW (classOf prog c) cfg s.world).2,
        insts := ((NEW (classOf prog c) cfg s.world).1, c) :: s.insts }
    else s
  | Op.delete p, s =>
    if p ∈ s.insts.map Prod.fst then
      { world := DELETE prog p s.world, insts := s.insts.filter (fun x => x.1 ≠ p) }
    else s
  | Op.call p k func args, s =>
    if p ∈ s.insts.map Prod.fst then
      { world := VCALL prog p k func args s.world, insts := s.insts }
    else s

/-- Run operations one after the other. -/
def run (prog : Chain) : List Op → Sys → Sys
  | [], s => s
  | o :: r, s => run prog r (step prog o s)

/-- The process start of a program. -/
def Sys.init : Sys := { world := World.init, insts := [] }

/-- The invariant of a running program with classes of depth below `n`: every
live instance lies below the next fresh address, carries its class's delete
reference and table reference, and has at every level a live `State` block;
no `State` block is shared by two levels or two instances; no address stored in
a `State` block is a `State` block; no instance address is a `State` block;
and the singleton of a class whose flag is set is the class's built table. -/
def Inv (prog : Chain) (s : Sys) : Prop :=
  (∀ p c, (p, c) ∈ s.insts → p < s.world.next ∧ c < prog.length ∧
    s.world.del p = some c ∧ s.world.IsVtableInit c = true) ∧
  (∀ p c j, (p, c) ∈ s.insts → j ≤ c → s.world.vt p j = some c ∧
    ∃ a, s.world.mb p j = some a ∧ a < s.world.next ∧ a ∈ s.world.live) ∧
  (∀ p c q d j k a, (p, c) ∈ s.insts → (q, d) ∈ s.insts → j ≤ c → k ≤ d →
    s.world.mb p j = some a → s.world.mb q k = some a → p = q ∧ j = k) ∧
  (∀ p c j a i b, (p, c) ∈ s.insts → j ≤ c → s.world.mb p j = some a →
    s.world.st a i = Val.ptr b →
    b < s.world.next ∧ ∀ q d k, (q, d) ∈ s.insts → k ≤ d → s.world.mb q k ≠ some b) ∧
  (∀ p c q d j, (p, c) ∈ s.insts → (q, d) ∈ s.insts → j ≤ d → s.world.mb q j ≠ some p) ∧
  (∀ c, c < prog.length →
    (s.world.IsVtableInit c = true → s.world.VtableDefault c = builtTable (classOf prog c)) ∧
    (s.world.IsVtableInit c = false → s.world.VtableDefault c = fun _ => none))

/-! ## Lemmas: the primitive steps -/

@[simp] theorem log_next (w : World) (e : Event) : (w.log e).next = w.next := rfl

@[simp] theorem log_live (w : World) (e : Event) : (w.log e).live = w.live := rfl

@[simp] theorem log_del (w : World) (e : Event) : (w.log e).del = w.del := rfl

@[simp] theorem log_vt (w : World) (e : Event) : (w.log e).vt = w.vt := rfl

@[simp] theorem log_mb (w : World) (e : Event) : (w.log e).mb = w.mb := rfl

@[simp] theorem log_st (w : World) (e : Event) : (w.log e).st = w.st := rfl

@[simp] theorem log_bytes (w : World) (e : Event) : (w.log e).bytes = w.bytes := rfl

@[simp] theorem log_IsVtableInit (w : World) (e : Event) : (w.log e).IsVtableInit = w.IsVtableInit := rfl

@[simp] theorem log_VtableDefault (w : World) (e : Event) : (w.log e).VtableDefault = w.VtableDefault := rfl

@[simp] theorem log_trace (w : World) (e : Event) : (w.log e).trace = w.trace ++ [e] := rfl

@[simp] theorem calloc_next (w : World) (k : Kind) : (w.calloc k).2.next = w.next + 1 := rfl

@[simp] theorem calloc_live (w : World) (k : Kind) : (w.calloc k).2.live = w.next :: w.live := rfl

@[simp] theorem calloc_del (w : World) (k : Kind) : (w.calloc k).2.del = w.del := rfl

@[simp] theorem calloc_vt (w : World) (k : Kind) : (w.calloc k).2.vt = w.vt := rfl

@[simp] theorem calloc_mb (w : World) (k : Kind) : (w.calloc k).2.mb = w.mb := rfl

@[simp] theorem calloc_st (w : World) (k : Kind) : (w.calloc k).2.st = w.st := rfl

@[simp] theorem calloc_bytes (w : World) (k : Kind) : (w.calloc k).2.bytes = w.bytes := rfl

@[simp] theorem calloc_IsVtableInit (w : World) (k : Kind) : (w.calloc k).2.IsVtableInit = w.IsVtableInit := rfl

@[simp] theorem calloc_VtableDefault (w : World) (k : Kind) : (w.calloc k).2.VtableDefault = w.VtableDefault := rfl

@[simp] theorem calloc_trace (w : World) (k : Kind) : (w.calloc k).2.trace = w.trace ++ [Event.calloc k w.next] := rfl

@[simp] theorem calloc_fst (w : World) (k : Kind) : (w.calloc k).1 = w.next := rfl

@[simp] theorem free_next (w : World) (a : Nat) : (w.free a).next = w.next := by
  unfold World.free; split <;> rfl

@[simp] theorem free_del (w : World) (a : Nat) : (w.free a).del = w.del := by
  unfold World.free; split <;> rfl

@[simp] theorem free_vt (w : World) (a : Nat) : (w.free a).vt = w.vt := by
  unfold World.free; split <;> rfl

@[simp] theorem free_mb (w : World) (a : Nat) : (w.free a).mb = w.mb := by
  unfold World.free; split <;> rfl

@[simp] theorem free_st (w : World) (a : Nat) : (w.free a).st = w.st := by
  unfold World.free; split <;> rfl

@[simp] theorem free_bytes (w : World) (a : Nat) : (w.free a).bytes = w.bytes := by
  unfold World.free; split <;> rfl

@[simp] theorem free_IsVtableInit (w : World) (a : Nat) : (w.free a).IsVtableInit = w.IsVtableInit := by
  unfold World.free; split <;> rfl

@[simp] theorem free_VtableDefault (w : World) (a : Nat) : (w.free a).VtableDefault = w.VtableDefault := by
  unfold World.free; split <;> rfl

@[simp] theorem setVt_next (w : World) (p : Nat) (k : Nat) (t : Option Nat) :
    (w.setVt p k t).next = w.next := rfl

@[simp] theorem setVt_live (w : World) (p : Nat) (k : Nat) (t : Option Nat) :
    (w.setVt p k t).live = w.live := rfl

@[simp] theorem setVt_del (w : World) (p : Nat) (k : Nat) (t : Option Nat) :
    (w.setVt p k t).del = w.del := rfl

@[simp] theorem setVt_vt (w : World) (p : Nat) (k : Nat) (t : Option Nat) :
    (w.setVt p k t).vt = Function.update w.vt p (Function.update (w.vt p) k t) := rfl

@[simp] theorem setVt_mb (w : World) (p : Nat) (k : Nat) (t : Option Nat) :
    (w.setVt p k t).mb = w.mb := rfl

@[simp] theorem setVt_st (w : World) (p : Nat) (k : Nat) (t : Option Nat) :
    (w.setVt p k t).st = w.st := rfl

@[simp] theorem setVt_bytes (w : World) (p : Nat) (k : Nat) (t : Option Nat) :
    (w.setVt p k t).bytes = w.bytes := rfl

@[simp] theorem setVt_IsVtableInit (w : World) (p : Nat) (k : Nat) (t : Option Nat) :
    (w.setVt p k t).IsVtableInit = w.IsVtableInit := rfl

@[simp] theorem setVt_VtableDefault (w : World) (p : Nat) (k : Nat) (t : Option Nat) :
    (w.setVt p k t).VtableDefault = w.VtableDefault := rfl

@[simp] theorem setVt_trace (w : World) (p : Nat) (k : Nat) (t : Option Nat) :
    (w.setVt p k t).trace = w.trace := rfl

@[simp] theorem setMb_next (w : World) (p : Nat) (k : Nat) (a : Option Nat) :
    (w.setMb p k a).next = w.next := rfl

@[simp] theorem setMb_live (w : World) (p : Nat) (k : Nat) (a : Option Nat) :
    (w.setMb p k a).live = w.live := rfl

@[simp] theorem setMb_del (w : World) (p : Nat) (k : Nat) (a : Option Nat) :
    (w.setMb p k a).del = w.del := rfl

@[simp] theorem setMb_vt (w : World) (p : Nat) (k : Nat) (a : Option Nat) :
    (w.setMb p k a).vt = w.vt := rfl

@[simp] theorem setMb_mb (w : World) (p : Nat) (k : Nat) (a : Option Nat) :
    (w.setMb p k a).mb = Function.update w.mb p (Function.update (w.mb p) k a) := rfl

@[simp] theorem setMb_st (w : World) (p : Nat) (k : Nat) (a : Option Nat) :
    (w.setMb p k a).st = w.st := rfl

@[simp] theorem setMb_bytes (w : World) (p : Nat) (k : Nat) (a : Option Nat) :
    (w.setMb p k a).bytes = w.bytes := rfl

@[simp] theorem setMb_IsVtableInit (w : World) (p : Nat) (k : Nat) (a : Option Nat) :
    (w.setMb p k a).IsVtableInit = w.IsVtableInit := rfl

@[simp] theorem setMb_VtableDefault (w : World) (p : Nat) (k : Nat) (a : Option Nat) :
    (w.setMb p k a).VtableDefault = w.VtableDefault := rfl

@[simp] theorem setMb_trace (w : World) (p : Nat) (k : Nat) (a : Option Nat) :
    (w.setMb p k a).trace = w.trace := rfl

@[simp] theorem setSt_next (w : World) (a : Nat) (i : Nat) (v : Val) :
    (w.setSt a i v).next = w.next := rfl

@[simp] theorem setSt_live (w : World) (a : Nat) (i : Nat) (v : Val) :
    (w.setSt a i v).live = w.live := rfl

@[simp] theorem setSt_del (w : World) (a : Nat) (i : Nat) (v : Val) :
    (w.setSt a i v).del = w.del := rfl

@[simp] theorem setSt_vt (w : World) (a : Nat) (i : Nat) (v : Val) :
    (w.setSt a i v).vt = w.vt := rfl

@[simp] theorem setSt_mb (w : World) (a : Nat) (i : Nat) (v : Val) :
    (w.setSt a i v).mb = w.mb := rfl

@[simp] theorem setSt_st (w : World) (a : Nat) (i : Nat) (v : Val) :
    (w.setSt a i v).st = Function.update w.st a (Function.update (w.st a) i v) := rfl

@[simp] theorem setSt_bytes (w : World) (a : Nat) (i : Nat) (v : Val) :
    (w.setSt a i v).bytes = w.bytes := rfl

@[simp] theorem setSt_IsVtableInit (w : World) (a : Nat) (i : Nat) (v : Val) :
    (w.setSt a i v).IsVtableInit = w.IsVtableInit := rfl

@[simp] theorem setSt_VtableDefault (w : World) (a : Nat) (i : Nat) (v : Val) :
    (w.setSt a i v).VtableDefault = w.VtableDefault := rfl

@[simp] theorem setSt_trace (w : World) (a : Nat) (i : Nat) (v : Val) :
    (w.setSt a i v).trace = w.trace := rfl

@[simp] theorem zeroSt_next (w : World) (a : Nat) :
    (w.zeroSt a).next = w.next := rfl

@[simp] theorem zeroSt_live (w : World) (a : Nat) :
    (w.zeroSt a).live = w.live := rfl

@[simp] theorem zeroSt_del (w : World) (a : Nat) :
    (w.zeroSt a).del = w.del := rfl

@[simp] theorem zeroSt_vt (w : World) (a : Nat) :
    (w.zeroSt a).vt = w.vt := rfl

@[simp] theorem zeroSt_mb (w : World) (a : Nat) :
    (w.zeroSt a).mb = w.mb := rfl

@[simp] theorem zeroSt_st (w : World) (a : Nat) :
    (w.zeroSt a).st = Function.update w.st a (fun _ => Val.int 0) := rfl

@[simp] theorem zeroSt_bytes (w : World) (a : Nat) :
    (w.zeroSt a).bytes = w.bytes := rfl

@[simp] theorem zeroSt_IsVtableInit (w : World) (a : Nat) :
    (w.zeroSt a).IsVtableInit = w.IsVtableInit := rfl

@[simp] theorem zeroSt_VtableDefault (w : World) (a : Nat) :
    (w.zeroSt a).VtableDefault = w.VtableDefault := rfl

@[simp] theorem zeroSt_trace (w : World) (a : Nat) :
    (w.zeroSt a).trace = w.trace := rfl

@[simp] theorem zeroInst_next (w : World) (p : Nat) :
    (w.zeroInst p).next = w.next := rfl

@[simp] theorem zeroInst_live (w : World) (p : Nat) :
    (w.zeroInst p).live = w.live := rfl

@[simp] theorem zeroInst_del (w : World) (p : Nat) :
    (w.zeroInst p).del = Function.update w.del p none := rfl

@[simp] theorem zeroInst_vt (w : World) (p : Nat) :
    (w.zeroInst p).vt = Function.update w.vt p (fun _ => none) := rfl

@[simp] theorem zeroInst_mb (w : World) (p : Nat) :
    (w.zeroInst p).mb = Function.update w.mb p (fun _ => none) := rfl

@[simp] theorem zeroInst_st (w : World) (p : Nat) :
    (w.zeroInst p).st = w.st := rfl

@[simp] theorem zeroInst_bytes (w : World) (p : Nat) :
    (w.zeroInst p).bytes = w.bytes := rfl

@[simp] theorem zeroInst_IsVtableInit (w : World) (p : Nat) :
    (w.zeroInst p).IsVtableInit = w.IsVtableInit := rfl

@[simp] theorem zeroInst_VtableDefault (w : World) (p : Nat) :
    (w.zeroInst p).VtableDefault = w.VtableDefault := rfl

@[simp] theorem zeroInst_trace (w : World) (p : Nat) :
    (w.zeroInst p).trace = w.trace := rfl

@[simp] theorem setDel_next (w : World) (p : Nat) (c : Option Nat) :
    (w.setDel p c).next = w.next := rfl

@[simp] theorem setDel_live (w : World) (p : Nat) (c : Option Nat) :
    (w.setDel p c).live = w.live := rfl

@[simp] theorem setDel_del (w : World) (p : Nat) (c : Option Nat) :
    (w.setDel p c).del = Function.update w.del p c := rfl

@[simp] theorem setDel_vt (w : World) (p : Nat) (c : Option Nat) :
    (w.setDel p c).vt = w.vt := rfl

@[simp] theorem setDel_mb (w : World) (p : Nat) (c : Option Nat) :
    (w.setDel p c).mb = w.mb := rfl

@[simp] theorem setDel_st (w : World) (p : Nat) (c : Option Nat) :
    (w.setDel p c).st = w.st := rfl

@[simp] theorem setDel_bytes (w : World) (p : Nat) (c : Option Nat) :
    (w.setDel p c).bytes = w.bytes := rfl

@[simp] theorem setDel_IsVtableInit (w : World) (p : Nat) (c : Option Nat) :
    (w.setDel p c).IsVtableInit = w.IsVtableInit := rfl

@[simp] theorem setDel_VtableDefault (w : World) (p : Nat) (c : Option Nat) :
    (w.setDel p c).VtableDefault = w.VtableDefault := rfl

@[simp] theorem setDel_trace (w : World) (p : Nat) (c : Option Nat) :
    (w.setDel p c).trace = w.trace := rfl

@[simp] theorem setBytes_next (w : World) (b : Nat) (bs : List Int) :
    (w.setBytes b bs).next = w.next := rfl

@[simp] theorem setBytes_live (w : World) (b : Nat) (bs : List Int) :
    (w.setBytes b bs).live = w.live := rfl

@[simp] theorem setBytes_del (w : World) (b : Nat) (bs : List Int) :
    (w.setBytes b bs).del = w.del := rfl

@[simp] theorem setBytes_vt (w : World) (b : Nat) (bs : List Int) :
    (w.setBytes b bs).vt = w.vt := rfl

@[simp] theorem setBytes_mb (w : World) (b : Nat) (bs : List Int) :
    (w.setBytes b bs).mb = w.mb := rfl

@[simp] theorem setBytes_st (w : World) (b : Nat) (bs : List Int) :
    (w.setBytes b bs).st = w.st := rfl

@[simp] theorem setBytes_bytes (w : World) (b : Nat) (bs : List Int) :
    (w.setBytes b bs).bytes = Function.update w.bytes b bs := rfl

@[simp] theorem setBytes_IsVtableInit (w : World) (b : Nat) (bs : List Int) :
    (w.setBytes b bs).IsVtableInit = w.IsVtableInit := rfl

@[simp] theorem setBytes_VtableDefault (w : World) (b : Nat) (bs : List Int) :
    (w.setBytes b bs).VtableDefault = w.VtableDefault := rfl

@[simp] theorem setBytes_trace (w : World) (b : Nat) (bs : List Int) :
    (w.setBytes b bs).trace = w.trace := rfl

@[simp] theorem freePtr_next (w : World) (a : Option Nat) : (w.freePtr a).next = w.next := by
  cases a <;> simp [World.freePtr]

@[simp] theorem freePtr_del (w : World) (a : Option Nat) : (w.freePtr a).del = w.del := by
  cases a <;> simp [World.freePtr]

@[simp] theorem freePtr_vt (w : World) (a : Option Nat) : (w.freePtr a).vt = w.vt := by
  cases a <;> simp [World.freePtr]

@[simp] theorem freePtr_mb (w : World) (a : Option Nat) : (w.freePtr a).mb = w.mb := by
  cases a <;> simp [World.freePtr]

@[simp] theorem freePtr_st (w : World) (a : Option Nat) : (w.freePtr a).st = w.st := by
  cases a <;> simp [World.freePtr]

@[simp] theorem freePtr_bytes (w : World) (a : Option Nat) : (w.freePtr a).bytes = w.bytes := by
  cases a <;> simp [World.freePtr]

@[simp] theorem freePtr_IsVtableInit (w : World) (a : Option Nat) : (w.freePtr a).IsVtableInit = w.IsVtableInit := by
  cases a <;> simp [World.freePtr]

@[simp] theorem freePtr_VtableDefault (w : World) (a : Option Nat) : (w.freePtr a).VtableDefault = w.VtableDefault := by
  cases a <;> simp [World.freePtr]

@[simp] theorem freeVal_next (w : World) (v : Val) : (w.freeVal v).next = w.next := by
  cases v with
  | ptr b => simp [World.freeVal]
  | int i => by_cases h : i = 0 <;> simp [World.freeVal, h]

@[simp] theorem freeVal_del (w : World) (v : Val) : (w.freeVal v).del = w.del := by
  cases v with
  | ptr b => simp [World.freeVal]
  | int i => by_cases h : i = 0 <;> simp [World.freeVal, h]

@[simp] theorem freeVal_vt (w : World) (v : Val) : (w.freeVal v).vt = w.vt := by
  cases v with
  | ptr b => simp [World.freeVal]
  | int i => by_cases h : i = 0 <;> simp [World.freeVal, h]

@[simp] theorem freeVal_mb (w : World) (v : Val) : (w.freeVal v).mb = w.mb := by
  cases v with
  | ptr b => simp [World.freeVal]
  | int i => by_cases h : i = 0 <;> simp [World.freeVal, h]

@[simp] theorem freeVal_st (w : World) (v : Val) : (w.freeVal v).st = w.st := by
  cases v with
  | ptr b => simp [World.freeVal]
  | int i => by_cases h : i = 0 <;> simp [World.freeVal, h]

@[simp] theorem freeVal_bytes (w : World) (v : Val) : (w.freeVal v).bytes = w.bytes := by
  cases v with
  | ptr b => simp [World.freeVal]
  | int i => by_cases h : i = 0 <;> simp [World.freeVal, h]

@[simp] theorem freeVal_IsVtableInit (w : World) (v : Val) : (w.freeVal v).IsVtableInit = w.IsVtableInit := by
  cases v with
  | ptr b => simp [World.freeVal]
  | int i => by_cases h : i = 0 <;> simp [World.freeVal, h]

@[simp] theorem freeVal_VtableDefault (w : World) (v : Val) : (w.freeVal v).VtableDefault = w.VtableDefault := by
  cases v with
  | ptr b => simp [World.freeVal]
  | int i => by_cases h : i = 0 <;> simp [World.freeVal, h]

@[simp] theorem setFlag_next (w : World) (c : Nat) :
    (w.setFlag c).next = w.next := rfl

@[simp] theorem setFlag_live (w : World) (c : Nat) :
    (w.setFlag c).live = w.live := rfl

@[simp] theorem setFlag_del (w : World) (c : Nat) :
    (w.setFlag c).del = w.del := rfl

@[simp] theorem setFlag_vt (w : World) (c : Nat) :
    (w.setFlag c).vt = w.vt := rfl

@[simp] theorem setFlag_mb (w : World) (c : Nat) :
    (w.setFlag c).mb = w.mb := rfl

@[simp] theorem setFlag_st (w : World) (c : Nat) :
    (w.setFlag c).st = w.st := rfl

@[simp] theorem setFlag_bytes (w : World) (c : Nat) :
    (w.setFlag c).bytes = w.bytes := rfl

@[simp] theorem setFlag_IsVtableInit (w : World) (c : Nat) :
    (w.setFlag c).IsVtableInit = Function.update w.IsVtableInit c true := rfl

@[simp] theorem setFlag_VtableDefault (w : World) (c : Nat) :
    (w.setFlag c).VtableDefault = w.VtableDefault := rfl

@[simp] theorem setFlag_trace (w : World) (c : Nat) :
    (w.setFlag c).trace = w.trace := rfl

/-! ## Lemmas: the method table build -/

theorem assignSlots_apply (l : List (String × String)) (t : Vtable) (x : String) :
    assignSlots l t x = match assigned l x with
      | some g => some g
      | none => t x := by
  induction l generalizing t with
  | nil => rfl
  | cons a r ih =>
    obtain ⟨s, f⟩ := a
    simp only [assignSlots, assigned, ih]
    cases h : assigned r x with
    | some g => rfl
    | none =>
      by_cases hs : s = x
      · subst hs; simp
      · simp [hs, Function.update_noteq (Ne.symm hs)]

theorem VtableInitTree_other (ch : Chain) (t u : Nat) (w : World) (h : u ≠ t) :
    (VtableInitTree ch t w).VtableDefault u = w.VtableDefault u := by
  induction ch generalizing w with
  | nil => rfl
  | cons d bases ih =>
    simp only [VtableInitTree, VtableInit, World.log]
    rw [Function.update_noteq h, ih]

theorem VtableInitTree_frame (ch : Chain) (t : Nat) (w : World) :
    (VtableInitTree ch t w).next = w.next ∧ (VtableInitTree ch t w).live = w.live ∧
    (VtableInitTree ch t w).del = w.del ∧ (VtableInitTree ch t w).vt = w.vt ∧
    (VtableInitTree ch t w).mb = w.mb ∧ (VtableInitTree ch t w).st = w.st ∧
    (VtableInitTree ch t w).bytes = w.bytes ∧
    (VtableInitTree ch t w).IsVtableInit = w.IsVtableInit := by
  induction ch generalizing w with
  | nil => simp [VtableInitTree]
  | cons d bases ih =>
    simp only [VtableInitTree, VtableInit, World.log]
    have h := ih { w with trace := w.trace ++ [Event.call Routine.VtableInitTree bases.length] }
    simpa using h

/-- The slot a chain's tree build leaves: the assignment of the first class,
from the most-derived one, that assigns the slot. -/
theorem VtableInitTree_slot (ch : Chain) (t : Nat) (w : World) (x : String) :
    (VtableInitTree ch t w).VtableDefault t x =
      match ch.find? (fun d => (assigned d.VtableInit x).isSome) with
      | some d => assigned d.VtableInit x
      | none => w.VtableDefault t x := by
  induction ch generalizing w with
  | nil => rfl
  | cons d bases ih =>
    simp only [VtableInitTree, VtableInit, World.log, Function.update_same,
      assignSlots_apply, List.find?_cons]
    cases h : assigned d.VtableInit x with
    | some g => simp [h]
    | none => simp [ih]

theorem find_assigning_none (pre : Chain) (x : String)
    (h : ∀ e ∈ pre, assigned e.VtableInit x = none) :
    pre.find? (fun d => (assigned d.VtableInit x).isSome) = none := by
  rw [List.find?_eq_none]
  intro e he
  simp [h e he]

theorem VtableInitTree_slot_of_first (pre post : Chain) (d : ClassDef) (t : Nat) (w : World)
    (x f : String) (hpre : ∀ e ∈ pre, assigned e.VtableInit x = none)
    (hd : assigned d.VtableInit x = some f) :
    (VtableInitTree (pre ++ d :: post) t w).VtableDefault t x = some f := by
  rw [VtableInitTree_slot, List.find?_append, find_assigning_none pre x hpre]
  simp [List.find?_cons, hd]

theorem VtableInitTree_slot_of_none (ch : Chain) (t : Nat) (w : World) (x : String)
    (h : ∀ e ∈ ch, assigned e.VtableInit x = none) :
    (VtableInitTree ch t w).VtableDefault t x = w.VtableDefault t x := by
  rw [VtableInitTree_slot, find_assigning_none ch x h]

@[simp] theorem VtableInitTree_next (ch : Chain) (t : Nat) (w : World) :
    (VtableInitTree ch t w).next = w.next := (VtableInitTree_frame ch t w).1

@[simp] theorem VtableInitTree_live (ch : Chain) (t : Nat) (w : World) :
    (VtableInitTree ch t w).live = w.live := (VtableInitTree_frame ch t w).2.1

@[simp] theorem VtableInitTree_del (ch : Chain) (t : Nat) (w : World) :
    (VtableInitTree ch t w).del = w.del := (VtableInitTree_frame ch t w).2.2.1

@[simp] theorem VtableInitTree_vt (ch : Chain) (t : Nat) (w : World) :
    (VtableInitTree ch t w).vt = w.vt := (VtableInitTree_frame ch t w).2.2.2.1

@[simp] theorem VtableInitTree_mb (ch : Chain) (t : Nat) (w : World) :
    (VtableInitTree ch t w).mb = w.mb := (VtableInitTree_frame ch t w).2.2.2.2.1

@[simp] theorem VtableInitTree_st (ch : Chain) (t : Nat) (w : World) :
    (VtableInitTree ch t w).st = w.st := (VtableInitTree_frame ch t w).2.2.2.2.2.1

@[simp] theorem VtableInitTree_bytes (ch : Chain) (t : Nat) (w : World) :
    (VtableInitTree ch t w).bytes = w.bytes := (VtableInitTree_frame ch t w).2.2.2.2.2.2.1

@[simp] theorem VtableInitTree_IsVtableInit (ch : Chain) (t : Nat) (w : World) :
    (VtableInitTree ch t w).IsVtableInit = w.IsVtableInit := (VtableInitTree_frame ch t w).2.2.2.2.2.2.2

/-! ## Lemmas: construction -/

theorem runInit_frame (a : Nat) (l : List (Nat × Field)) (w : World) :
    (runInit a l w).del = w.del ∧ (runInit a l w).vt = w.vt ∧ (runInit a l w).mb = w.mb ∧
    (runInit a l w).IsVtableInit = w.IsVtableInit ∧
    (runInit a l w).VtableDefault = w.VtableDefault := by
  induction l generalizing w with
  | nil => simp [runInit]
  | cons x r ih =>
    obtain ⟨i, fld⟩ := x
    cases fld with
    | val v => simpa [runInit] using ih _
    | buf bs => simpa [runInit, World.calloc] using ih _

theorem Init_frame (d : ClassDef) (cls : Nat) (p : Nat) (own : List Int) (w : World) :
    (Init d cls p own w).del = w.del ∧ (Init d cls p own w).vt = w.vt ∧
    (Init d cls p own w).mb = w.mb ∧
    (Init d cls p own w).IsVtableInit = w.IsVtableInit ∧
    (Init d cls p own w).VtableDefault = w.VtableDefault := by
  unfold Init
  simp only [World.log]
  split
  · simp
  · simpa using runInit_frame _ _ _

@[simp] theorem Init_del (d : ClassDef) (cls : Nat) (p : Nat) (own : List Int) (w : World) :
    (Init d cls p own w).del = w.del := (Init_frame d cls p own w).1

@[simp] theorem Init_vt (d : ClassDef) (cls : Nat) (p : Nat) (own : List Int) (w : World) :
    (Init d cls p own w).vt = w.vt := (Init_frame d cls p own w).2.1

@[simp] theorem Init_mb (d : ClassDef) (cls : Nat) (p : Nat) (own : List Int) (w : World) :
    (Init d cls p own w).mb = w.mb := (Init_frame d cls p own w).2.2.1

@[simp] theorem Init_IsVtableInit (d : ClassDef) (cls : Nat) (p : Nat) (own : List Int)
    (w : World) : (Init d cls p own w).IsVtableInit = w.IsVtableInit :=
  (Init_frame d cls p own w).2.2.2.1

@[simp] theorem Init_VtableDefault (d : ClassDef) (cls : Nat) (p : Nat) (own : List Int)
    (w : World) : (Init d cls p own w).VtableDefault = w.VtableDefault :=
  (Init_frame d cls p own w).2.2.2.2

theorem Ctor_statics (ch : Chain) (p : Nat) (t : Nat) (cfg : Cfg) (w : World) :
    (Ctor ch p t cfg w).del = w.del ∧
    (Ctor ch p t cfg w).IsVtableInit = w.IsVtableInit ∧
    (Ctor ch p t cfg w).VtableDefault = w.VtableDefault := by
  induction ch generalizing w cfg with
  | nil => simp [Ctor]
  | cons d bases ih =>
    obtain ⟨g1, g2, g3⟩ := ih cfg.tail (w.log (Event.call Routine.Ctor bases.length))
    simp [Ctor, g1, g2, g3]

/-- After the constructor of a chain, every view of the instance up to the
chain's class refers to the table the constructor was given. -/
theorem Ctor_vt (ch : Chain) (p : Nat) (t : Nat) (cfg : Cfg) (w : World) (q : Nat) (j : Nat) :
    (Ctor ch p t cfg w).vt q j = if q = p ∧ j < ch.length then some t else w.vt q j := by
  induction ch generalizing w cfg with
  | nil => simp [Ctor]
  | cons d bases ih =>
    simp only [Ctor, Init_vt, calloc_vt, List.length_cons]
    by_cases hq : q = p
    · subst hq
      by_cases hj : j = bases.length
      · subst hj; simp
      · have : j < bases.length + 1 ↔ j < bases.length := by omega
        simp [Function.update_noteq hj, ih, this]
    · simp [Function.update_noteq hq, ih, hq]

theorem NewInner_of_flag (ch : Chain) (p : Nat) (cfg : Cfg) (w : World)
    (h : w.IsVtableInit (depth ch) = true) :
    NewInner ch p cfg w = Ctor ch p (depth ch) cfg (w.log (Event.call Routine.NewInner (depth ch))) := by
  simp [NewInner, h]

theorem NewInner_of_not_flag (ch : Chain) (p : Nat) (cfg : Cfg) (w : World)
    (h : ¬ w.IsVtableInit (depth ch) = true) :
    NewInner ch p cfg w = Ctor ch p (depth ch) cfg
      ((VtableInitTree ch (depth ch) (w.log (Event.call Routine.NewInner (depth ch)))).setFlag
        (depth ch)) := by
  simp [NewInner, h]

theorem NewInner_del (ch : Chain) (p : Nat) (cfg : Cfg) (w : World) :
    (NewInner ch p cfg w).del = w.del := by
  unfold NewInner
  rw [(Ctor_statics _ _ _ _ _).1]
  by_cases h : w.IsVtableInit (depth ch) = true <;> simp [h]

theorem NewInner_vt (ch : Chain) (p : Nat) (cfg : Cfg) (w : World) (q : Nat) (j : Nat) :
    (NewInner ch p cfg w).vt q j =
      if q = p ∧ j < ch.length then some (depth ch) else w.vt q j := by
  unfold NewInner
  rw [Ctor_vt]
  by_cases h : w.IsVtableInit (depth ch) = true <;> simp [h]

theorem NewInner_flag (ch : Chain) (p : Nat) (cfg : Cfg) (w : World) :
    (NewInner ch p cfg w).IsVtableInit (depth ch) = true := by
  unfold NewInner
  rw [(Ctor_statics _ _ _ _ _).2.1]
  by_cases h : w.IsVtableInit (depth ch) = true
  · simp [h]
  · simp [h]

theorem NewInner_table (ch : Chain) (p : Nat) (cfg : Cfg) (w : World) :
    (NewInner ch p cfg w).VtableDefault (depth ch) =
      if w.IsVtableInit (depth ch) = true then w.VtableDefault (depth ch)
      else (VtableInitTree ch (depth ch)
              (w.log (Event.call Routine.NewInner (depth ch)))).VtableDefault (depth ch) := by
  unfold NewInner
  rw [(Ctor_statics _ _ _ _ _).2.2]
  by_cases h : w.IsVtableInit (depth ch) = true
  · simp [h]
  · simp [h]

/-- After an instantiation, a slot of the class's singleton holds the
assignment of the most-derived class that assigns it. -/
theorem NewInner_slot (pre post : Chain) (d : ClassDef) (p : Nat) (cfg : Cfg) (w : World)
    (x f : String) (hw : w.TableOk (pre ++ d :: post))
    (hpre : ∀ e ∈ pre, assigned e.VtableInit x = none)
    (hd : assigned d.VtableInit x = some f) :
    (NewInner (pre ++ d :: post) p cfg w).VtableDefault (depth (pre ++ d :: post)) x
      = some f := by
  rw [NewInner_table]
  by_cases h : w.IsVtableInit (depth (pre ++ d :: post)) = true
  · rw [if_pos h, hw h, builtTable]
    exact VtableInitTree_slot_of_first pre post d _ _ x f hpre hd
  · rw [if_neg h]
    exact VtableInitTree_slot_of_first pre post d _ _ x f hpre hd

theorem NEW_fst (ch : Chain) (cfg : Cfg) (w : World) : (NEW ch cfg w).1 = w.next := rfl

theorem NEW_del (ch : Chain) (cfg : Cfg) (w : World) :
    (NEW ch cfg w).2.del w.next = some (depth ch) := by
  simp [NEW, NewOuter]

theorem NEW_vt (ch : Chain) (cfg : Cfg) (w : World) (j : Nat) :
    (NEW ch cfg w).2.vt w.next j = if j < ch.length then some (depth ch) else none := by
  simp [NEW, NewOuter, NewInner_vt]

theorem NEW_slot (pre post : Chain) (d : ClassDef) (cfg : Cfg) (w : World)
    (x f : String) (hw : w.TableOk (pre ++ d :: post))
    (hpre : ∀ e ∈ pre, assigned e.VtableInit x = none)
    (hd : assigned d.VtableInit x = some f) :
    (NEW (pre ++ d :: post) cfg w).2.VtableDefault (depth (pre ++ d :: post)) x = some f := by
  simp only [NEW, NewOuter]
  exact NewInner_slot pre post d _ cfg _ x f hw hpre hd

/-! ## Lemmas: the blocks a constructor allocates -/

theorem runInit_val (a : Nat) (i : Nat) (v : Int) (r : List (Nat × Field)) (w : World) :
    runInit a ((i, Field.val v) :: r) w = runInit a r (w.setSt a i (Val.int v)) := rfl

theorem runInit_buf (a : Nat) (i : Nat) (bs : List Int) (r : List (Nat × Field)) (w : World) :
    runInit a ((i, Field.buf bs) :: r) w =
      runInit a r ((((w.calloc Kind.buf).2).setBytes w.next bs).setSt a i (Val.ptr w.next)) :=
  rfl

theorem runInit_next_le (a : Nat) (l : List (Nat × Field)) (w : World) :
    w.next ≤ (runInit a l w).next := by
  induction l generalizing w with
  | nil => simp [runInit]
  | cons x r ih =>
    obtain ⟨i, fld⟩ := x
    cases fld with
    | val v =>
      rw [runInit_val]
      have := ih (w.setSt a i (Val.int v))
      simpa using this
    | buf bs =>
      rw [runInit_buf]
      have := ih ((((w.calloc Kind.buf).2).setBytes w.next bs).setSt a i (Val.ptr w.next))
      simp only [setSt_next, setBytes_next, calloc_next] at this
      omega

theorem runInit_st_other (a : Nat) (l : List (Nat × Field)) (w : World) (c : Nat)
    (h : c ≠ a) : (runInit a l w).st c = w.st c := by
  induction l generalizing w with
  | nil => simp [runInit]
  | cons x r ih =>
    obtain ⟨i, fld⟩ := x
    cases fld with
    | val v => rw [runInit_val, ih]; simp [Function.update_noteq h]
    | buf bs => rw [runInit_buf, ih]; simp [Function.update_noteq h]

/-- Every address stored in the block an `_Init` fills is one of the buffers
the routine allocated. -/
theorem runInit_ptr (a : Nat) (l : List (Nat × Field)) (w : World) (lo : Nat)
    (hlo : lo ≤ w.next) (h : ∀ i b, w.st a i = Val.ptr b → lo ≤ b ∧ b < w.next) :
    ∀ i b, (runInit a l w).st a i = Val.ptr b → lo ≤ b ∧ b < (runInit a l w).next := by
  induction l generalizing w with
  | nil => simpa [runInit] using h
  | cons x r ih =>
    obtain ⟨j, fld⟩ := x
    cases fld with
    | val v =>
      rw [runInit_val]
      apply ih
      · exact hlo
      · intro i b hb
        simp only [setSt_st, setSt_next, Function.update_same] at hb ⊢
        by_cases hij : i = j
        · subst hij; simp at hb
        · rw [Function.update_noteq hij] at hb
          exact h i b hb
    | buf bs =>
      rw [runInit_buf]
      apply ih
      · simp only [setSt_next, setBytes_next, calloc_next]; omega
      · intro i b hb
        simp only [setSt_st, setSt_next, setBytes_st, setBytes_next, calloc_st, calloc_next,
          Function.update_same] at hb ⊢
        by_cases hij : i = j
        · subst hij
          simp only [Function.update_same, Val.ptr.injEq] at hb
          omega
        · rw [Function.update_noteq hij] at hb
          have := h i b hb
          omega

theorem runInit_trace (a : Nat) (l : List (Nat × Field)) (w : World) :
    ∃ E, (runInit a l w).trace = w.trace ++ E ∧ ∀ e ∈ E, ∃ b, e = Event.calloc Kind.buf b := by
  induction l generalizing w with
  | nil => exact ⟨[], by simp [runInit]⟩
  | cons x r ih =>
    obtain ⟨j, fld⟩ := x
    cases fld with
    | val v =>
      obtain ⟨E, hE, hb⟩ := ih (w.setSt a j (Val.int v))
      exact ⟨E, by rw [runInit_val, hE]; simp, hb⟩
    | buf bs =>
      obtain ⟨E, hE, hb⟩ :=
        ih ((((w.calloc Kind.buf).2).setBytes w.next bs).setSt a j (Val.ptr w.next))
      refine ⟨Event.calloc Kind.buf w.next :: E, ?_, ?_⟩
      · rw [runInit_buf, hE]; simp
      · intro e he
        rcases List.mem_cons.mp he with h | h
        · exact ⟨_, h⟩
        · exact hb e h

theorem Init_eq (d : ClassDef) (cls p : Nat) (own : List Int) (w : World) (a : Nat)
    (h : w.mb p cls = some a) :
    Init d cls p own w = runInit a (d.Init own) (w.log (Event.call Routine.Init cls)) := by
  simp [Init, h]

theorem Ctor_cons (d : ClassDef) (bases : Chain) (p t : Nat) (cfg : Cfg) (w : World) :
    Ctor (d :: bases) p t cfg w =
      runInit (Ctor bases p t cfg.tail (w.log (Event.call Routine.Ctor bases.length))).next
        (d.Init (cfg.headD []))
        (stateReady (Ctor bases p t cfg.tail (w.log (Event.call Routine.Ctor bases.length)))
          p bases.length t) := by
  simp only [Ctor]
  rw [Init_eq _ _ _ _ _
    (Ctor bases p t cfg.tail (w.log (Event.call Routine.Ctor bases.length))).next]
  · rfl
  · simp

@[simp] theorem stateReady_next (w : World) (p k t : Nat) :
    (stateReady w p k t).next = w.next + 1 := rfl

@[simp] theorem stateReady_mb (w : World) (p k t : Nat) :
    (stateReady w p k t).mb = Function.update w.mb p (Function.update (w.mb p) k (some w.next)) :=
  rfl

@[simp] theorem stateReady_st (w : World) (p k t : Nat) :
    (stateReady w p k t).st = Function.update w.st w.next (fun _ => Val.int 0) := rfl

@[simp] theorem stateReady_trace (w : World) (p k t : Nat) :
    (stateReady w p k t).trace =
      w.trace ++ [Event.calloc Kind.state w.next] ++ [Event.call Routine.Init k] := rfl

@[simp] theorem stateReady_live (w : World) (p k t : Nat) :
    (stateReady w p k t).live = w.next :: w.live := rfl

theorem runInit_mb (a : Nat) (l : List (Nat × Field)) (w : World) :
    (runInit a l w).mb = w.mb := (runInit_frame a l w).2.2.1

theorem Ctor_next_le (ch : Chain) (p t : Nat) (cfg : Cfg) (w : World) :
    w.next ≤ (Ctor ch p t cfg w).next := by
  induction ch generalizing w cfg with
  | nil => simp [Ctor]
  | cons d bases ih =>
    rw [Ctor_cons]
    have h1 := ih cfg.tail (w.log (Event.call Routine.Ctor bases.length))
    have h2 := runInit_next_le
      (Ctor bases p t cfg.tail (w.log (Event.call Routine.Ctor bases.length))).next
      (d.Init (cfg.headD []))
      (stateReady (Ctor bases p t cfg.tail (w.log (Event.call Routine.Ctor bases.length)))
        p bases.length t)
    simp only [stateReady_next, log_next] at h1 h2
    omega

theorem Owned_step (k p lo t : Nat) (w : World) (l : List (Nat × Field))
    (h : Owned k p lo w) (hlo : lo ≤ w.next) :
    Owned (k + 1) p lo (runInit w.next l (stateReady w p k t)) := by
  obtain ⟨h1, h2, h3⟩ := h
  have hmb : ∀ j, (runInit w.next l (stateReady w p k t)).mb p j
      = if j = k then some w.next else w.mb p j := by
    intro j
    rw [runInit_mb, stateReady_mb, Function.update_same]
    by_cases hj : j = k
    · subst hj; simp
    · simp [Function.update_noteq hj, hj]
  have hnext : w.next + 1 ≤ (runInit w.next l (stateReady w p k t)).next := by
    have := runInit_next_le w.next l (stateReady w p k t)
    simpa using this
  have hst : ∀ c, c ≠ w.next → (runInit w.next l (stateReady w p k t)).st c = w.st c := by
    intro c hc
    rw [runInit_st_other _ _ _ _ hc, stateReady_st, Function.update_noteq hc]
  have hown : ∀ i b, (runInit w.next l (stateReady w p k t)).st w.next i = Val.ptr b →
      w.next + 1 ≤ b ∧ b < (runInit w.next l (stateReady w p k t)).next := by
    apply runInit_ptr
    · simp
    · intro i b hb
      simp at hb
  have hlt : ∀ j a, j < k → w.mb p j = some a → a < w.next := by
    intro j a hj ha
    obtain ⟨a2, ha2, _, hlt⟩ := h1 j hj
    rw [ha] at ha2
    cases ha2
    exact hlt
  refine ⟨?_, ?_, ?_⟩
  · intro j hj
    by_cases hjk : j = k
    · exact ⟨w.next, by rw [hmb, if_pos hjk], hlo, by omega⟩
    · obtain ⟨a, ha, hla, hlt⟩ := h1 j (by omega)
      exact ⟨a, by rw [hmb, if_neg hjk, ha], hla, by omega⟩
  · intro i j a hi hj hia hja
    rw [hmb] at hia hja
    by_cases hik : i = k
    · by_cases hjk : j = k
      · omega
      · rw [if_pos hik] at hia
        rw [if_neg hjk] at hja
        cases hia
        have := hlt j _ (by omega) hja
        omega
    · by_cases hjk : j = k
      · rw [if_neg hik] at hia
        rw [if_pos hjk] at hja
        cases hja
        have := hlt i _ (by omega) hia
        omega
      · rw [if_neg hik] at hia
        rw [if_neg hjk] at hja
        exact h2 i j a (by omega) (by omega) hia hja
  · intro j hj s hs i b hb
    rw [hmb] at hs
    by_cases hjk : j = k
    · rw [if_pos hjk] at hs
      cases hs
      obtain ⟨hb1, hb2⟩ := hown i b hb
      refine ⟨hb2, ?_⟩
      intro m hm hmm
      rw [hmb] at hmm
      by_cases hmk : m = k
      · rw [if_pos hmk] at hmm
        cases hmm
        omega
      · rw [if_neg hmk] at hmm
        have := hlt m _ (by omega) hmm
        omega
    · rw [if_neg hjk] at hs
      have hsl := hlt j s (by omega) hs
      rw [hst s (by omega)] at hb
      obtain ⟨hb1, hb2⟩ := h3 j (by omega) s hs i b hb
      refine ⟨by omega, ?_⟩
      intro m hm hmm
      rw [hmb] at hmm
      by_cases hmk : m = k
      · rw [if_pos hmk] at hmm
        cases hmm
        omega
      · rw [if_neg hmk] at hmm
        exact hb2 m (by omega) hmm

/-- The constructor of a chain leaves every level of the instance with its own
`State` block. -/
theorem Ctor_owned (ch : Chain) (p t lo : Nat) (cfg : Cfg) (w : World) (hlo : lo ≤ w.next) :
    Owned ch.length p lo (Ctor ch p t cfg w) := by
  induction ch generalizing w cfg with
  | nil =>
    refine ⟨?_, ?_, ?_⟩
    · intro j hj; simp at hj
    · intro i j a hi; simp at hi
    · intro j hj; simp at hj
  | cons d bases ih =>
    rw [Ctor_cons]
    apply Owned_step
    · exact ih cfg.tail (w.log (Event.call Routine.Ctor bases.length)) hlo
    · have := Ctor_next_le bases p t cfg.tail (w.log (Event.call Routine.Ctor bases.length))
      simp only [log_next] at this
      omega

theorem newEvents_of_append (w v : World) (E : List Event) (h : v.trace = w.trace ++ E) :
    newEvents w v = E := by
  simp [newEvents, h]

theorem step_mb (k p t : Nat) (w : World) (l : List (Nat × Field)) (j : Nat) :
    (runInit w.next l (stateReady w p k t)).mb p j
      = if j = k then some w.next else w.mb p j := by
  rw [runInit_mb, stateReady_mb, Function.update_same]
  by_cases hj : j = k
  · subst hj; simp
  · simp [Function.update_noteq hj, hj]

/-- The events of a constructor: the `State` blocks it allocates are exactly
the blocks of the levels of the instance, and it releases nothing. -/
theorem Ctor_trace (ch : Chain) (p t : Nat) (cfg : Cfg) (w : World) :
    ∃ E, (Ctor ch p t cfg w).trace = w.trace ++ E ∧
      (∀ a, Event.calloc Kind.state a ∈ E ↔
        ∃ j, j < ch.length ∧ (Ctor ch p t cfg w).mb p j = some a) ∧
      (∀ a, Event.free a ∉ E) ∧ (∀ a, Event.calloc Kind.inst a ∉ E) := by
  induction ch generalizing w cfg with
  | nil => exact ⟨[], by simp [Ctor]⟩
  | cons d bases ih =>
    obtain ⟨E1, hE1, hst1, hfr1, hin1⟩ :=
      ih cfg.tail (w.log (Event.call Routine.Ctor bases.length))
    obtain ⟨E3, hE3, hb3⟩ := runInit_trace
      (Ctor bases p t cfg.tail (w.log (Event.call Routine.Ctor bases.length))).next
      (d.Init (cfg.headD []))
      (stateReady (Ctor bases p t cfg.tail (w.log (Event.call Routine.Ctor bases.length)))
        p bases.length t)
    have hno3 : ∀ e, e ∈ E3 → ∀ k a, k ≠ Kind.buf → e ≠ Event.calloc k a := by
      intro e he k a hk hea
      obtain ⟨b, hb⟩ := hb3 e he
      rw [hb] at hea
      cases hea
      exact hk rfl
    have hnf3 : ∀ a, Event.free a ∉ E3 := by
      intro a ha
      obtain ⟨b, hb⟩ := hb3 _ ha
      cases hb
    refine ⟨Event.call Routine.Ctor bases.length :: E1 ++
      [Event.calloc Kind.state
          (Ctor bases p t cfg.tail (w.log (Event.call Routine.Ctor bases.length))).next,
        Event.call Routine.Init bases.length] ++ E3, ?_, ?_, ?_, ?_⟩
    · rw [Ctor_cons, hE3, stateReady_trace, hE1]
      simp
    · intro a
      rw [Ctor_cons]
      simp only [step_mb, List.length_cons, List.mem_append, List.mem_cons, List.mem_singleton,
        reduceCtorEq, false_or, or_false, List.not_mem_nil, Event.calloc.injEq, true_and]
      constructor
      · rintro ((h | h) | h)
        · obtain ⟨j, hj, hja⟩ := (hst1 a).mp h
          exact ⟨j, by omega, by rw [if_neg (by omega)]; exact hja⟩
        · exact ⟨bases.length, by omega, by rw [if_pos rfl, h]⟩
        · exact absurd rfl (hno3 _ h Kind.state a (by decide))
      · rintro ⟨j, hj, hja⟩
        by_cases hjk : j = bases.length
        · rw [if_pos hjk] at hja
          exact Or.inl (Or.inr (Option.some.inj hja).symm)
        · rw [if_neg hjk] at hja
          exact Or.inl (Or.inl ((hst1 a).mpr ⟨j, by omega, hja⟩))
    · intro a ha
      simp only [List.mem_append, List.mem_cons, List.mem_singleton, reduceCtorEq, false_or,
        or_false, List.not_mem_nil] at ha
      rcases ha with h | h
      · exact hfr1 a h
      · exact hnf3 a h
    · intro a ha
      simp only [List.mem_append, List.mem_cons, List.mem_singleton, reduceCtorEq, false_or,
        or_false, List.not_mem_nil, Event.calloc.injEq, false_and] at ha
      rcases ha with h | h
      · exact hin1 a h
      · exact absurd rfl (hno3 _ h Kind.inst a (by decide))

/-! ## Lemmas: destruction -/

theorem free_events (w : World) (a : Nat) :
    ∃ E, (w.free a).trace = w.trace ++ E ∧
      ∀ x, E.count (Event.free x) = if x = a then 1 else 0 := by
  unfold World.free
  by_cases h : a ∈ w.live
  · refine ⟨[Event.free a], by simp [h], ?_⟩
    intro x
    by_cases hx : x = a
    · subst hx; simp
    · simp [hx, Ne.symm hx]
  · refine ⟨[Event.free a, Event.ub], by simp [h], ?_⟩
    intro x
    by_cases hx : x = a
    · subst hx; simp
    · simp [hx, Ne.symm hx]

theorem runDeinit_frame (p cls : Nat) (l : List Nat) (w : World) :
    (runDeinit p cls l w).mb = w.mb ∧ (runDeinit p cls l w).st = w.st ∧
    (runDeinit p cls l w).del = w.del ∧ (runDeinit p cls l w).vt = w.vt ∧
    (runDeinit p cls l w).next = w.next ∧
    (runDeinit p cls l w).IsVtableInit = w.IsVtableInit ∧
    (runDeinit p cls l w).VtableDefault = w.VtableDefault := by
  induction l generalizing w with
  | nil => simp [runDeinit]
  | cons i r ih =>
    cases h : w.mb p cls with
    | none => simp [runDeinit, h, ih]
    | some a => simp [runDeinit, h, ih]

theorem Dtor_frame (ch : Chain) (p : Nat) (w : World) :
    (Dtor ch p w).st = w.st ∧ (Dtor ch p w).del = w.del ∧ (Dtor ch p w).vt = w.vt ∧
    (Dtor ch p w).next = w.next ∧ (Dtor ch p w).IsVtableInit = w.IsVtableInit ∧
    (Dtor ch p w).VtableDefault = w.VtableDefault := by
  induction ch generalizing w with
  | nil => simp [Dtor]
  | cons d bases ih =>
    simp [Dtor, Deinit, runDeinit_frame, ih]

/-- A destructor nulls the `State` references of the levels of its chain and
leaves every other one. -/
theorem Dtor_mb (ch : Chain) (p : Nat) (w : World) (q j : Nat) :
    (Dtor ch p w).mb q j = if q = p ∧ j < ch.length then none else w.mb q j := by
  induction ch generalizing w with
  | nil => simp [Dtor]
  | cons d bases ih =>
    simp only [Dtor, Deinit, setMb_mb, freePtr_mb, (runDeinit_frame _ _ _ _).1, log_mb,
      List.length_cons]
    by_cases hq : q = p
    · subst hq
      by_cases hj : j = bases.length
      · subst hj; simp
      · have : j < bases.length + 1 ↔ j < bases.length := by omega
        simp [Function.update_noteq hj, ih, this]
    · simp [Function.update_noteq hq, ih, hq]

theorem freePtr_events (w : World) (a : Option Nat) :
    ∃ E, (w.freePtr a).trace = w.trace ++ E ∧
      ∀ x, E.count (Event.free x) = if a = some x then 1 else 0 := by
  cases a with
  | none => exact ⟨[], by simp [World.freePtr]⟩
  | some a =>
    obtain ⟨E, hE, hc⟩ := free_events w a
    refine ⟨E, hE, ?_⟩
    intro x
    rw [hc x]
    by_cases hx : x = a
    · subst hx; simp
    · simp [hx, Ne.symm hx]

theorem freeVal_events (w : World) (v : Val) :
    ∃ E, (w.freeVal v).trace = w.trace ++ E ∧
      ∀ x, v ≠ Val.ptr x → E.count (Event.free x) = 0 := by
  cases v with
  | ptr b =>
    obtain ⟨E, hE, hc⟩ := free_events w b
    refine ⟨E, hE, ?_⟩
    intro x hx
    rw [hc x, if_neg]
    intro h
    exact hx (by rw [h])
  | int i =>
    by_cases h : i = 0
    · exact ⟨[], by simp [World.freeVal, h]⟩
    · exact ⟨[Event.ub], by simp [World.freeVal, h]⟩

/-- A `_Deinit` releases only addresses stored in its own `State` block. -/
theorem runDeinit_count (p cls : Nat) (l : List Nat) (w : World) (x : Nat)
    (h : ∀ s, w.mb p cls = some s → ∀ i, w.st s i ≠ Val.ptr x) :
    ∃ E, (runDeinit p cls l w).trace = w.trace ++ E ∧ E.count (Event.free x) = 0 := by
  induction l generalizing w with
  | nil => exact ⟨[], by simp [runDeinit]⟩
  | cons i r ih =>
    cases hm : w.mb p cls with
    | none =>
      obtain ⟨E, hE, hc⟩ := ih (w.log Event.ub) (by simpa using h)
      refine ⟨Event.ub :: E, ?_, ?_⟩
      · simp [runDeinit, hm, hE]
      · simp [hc]
    | some a =>
      obtain ⟨E1, hE1, hc1⟩ := freeVal_events w (w.st a i)
      obtain ⟨E, hE, hc⟩ := ih (w.freeVal (w.st a i)) (by simpa using h)
      refine ⟨E1 ++ E, ?_, ?_⟩
      · simp [runDeinit, hm, hE, hE1]
      · rw [List.count_append, hc, hc1 x (h a hm i)]

/-- The releases of a destructor: an address that no `State` block of
the instance stores is released once per level whose `State` block it is. -/
theorem Dtor_count (ch : Chain) (p : Nat) (w : World) (x : Nat)
    (hptr : ∀ j, j < ch.length → ∀ s, w.mb p j = some s → ∀ i, w.st s i ≠ Val.ptr x) :
    ∃ E, (Dtor ch p w).trace = w.trace ++ E ∧
      ((∀ j, j < ch.length → w.mb p j ≠ some x) → E.count (Event.free x) = 0) ∧
      (∀ j0, j0 < ch.length → w.mb p j0 = some x →
        (∀ j, j < ch.length → j ≠ j0 → w.mb p j ≠ some x) → E.count (Event.free x) = 1) := by
  induction ch generalizing w with
  | nil => exact ⟨[], by simp [Dtor]⟩
  | cons d bases ih =>
    obtain ⟨E1, hE1, hz1, ho1⟩ := ih (w.log (Event.call Routine.Dtor bases.length))
      (fun j hj s hs i => hptr j (by simp; omega) s hs i)
    have hmbk : (Dtor bases p (w.log (Event.call Routine.Dtor bases.length))).mb p bases.length
        = w.mb p bases.length := by
      rw [Dtor_mb]; simp
    obtain ⟨E2, hE2, hc2⟩ := runDeinit_count p bases.length d.Deinit
      ((Dtor bases p (w.log (Event.call Routine.Dtor bases.length))).log
        (Event.call Routine.Deinit bases.length)) x
      (by
        intro s hs i
        rw [log_mb, hmbk] at hs
        rw [log_st, (Dtor_frame _ _ _).1, log_st]
        exact hptr bases.length (by simp) s hs i)
    obtain ⟨E3, hE3, hc3⟩ := freePtr_events
      (runDeinit p bases.length d.Deinit
        ((Dtor bases p (w.log (Event.call Routine.Dtor bases.length))).log
          (Event.call Routine.Deinit bases.length)))
      (w.mb p bases.length)
    have hcount : ∀ n, E1.count (Event.free x) = n →
        (Event.call Routine.Dtor bases.length :: E1 ++
          Event.call Routine.Deinit bases.length :: E2 ++ E3).count (Event.free x)
          = n + if w.mb p bases.length = some x then 1 else 0 := by
      intro n hn
      simp [List.count_append, List.count_cons, hn, hc2, hc3 x]
    refine ⟨Event.call Routine.Dtor bases.length :: E1 ++
      Event.call Routine.Deinit bases.length :: E2 ++ E3, ?_, ?_, ?_⟩
    · simp only [Dtor, Deinit, setMb_trace, (runDeinit_frame _ _ _ _).1, log_mb, hmbk]
      rw [hE3, hE2, log_trace, hE1, log_trace]
      simp
    · intro hno
      rw [hcount 0 (hz1 (fun j hj => hno j (by simp; omega))),
        if_neg (hno bases.length (by simp))]
    · intro j0 hj0 hx hothers
      by_cases hjk : j0 = bases.length
      · subst hjk
        rw [hcount 0 (hz1 (fun j hj => hothers j (by simp; omega) (by omega))), if_pos hx]
      · rw [hcount 1 (ho1 j0 (by simp at hj0; omega) hx
            (fun j hj hne => hothers j (by simp; omega) hne)),
          if_neg (hothers bases.length (by simp) (fun h => hjk h.symm))]

/-! ## Lemmas: `NEW` and `DELETE` as a whole -/

theorem VtableInitTree_trace (ch : Chain) (t : Nat) (w : World) :
    ∃ E, (VtableInitTree ch t w).trace = w.trace ++ E ∧
      ∀ e, e ∈ E → ∃ r c, e = Event.call r c := by
  induction ch generalizing w with
  | nil => exact ⟨[], by simp [VtableInitTree]⟩
  | cons d bases ih =>
    obtain ⟨E, hE, hc⟩ := ih (w.log (Event.call Routine.VtableInitTree bases.length))
    refine ⟨Event.call Routine.VtableInitTree bases.length :: E ++
      [Event.call Routine.VtableInit bases.length], ?_, ?_⟩
    · simp [VtableInitTree, VtableInit, hE]
    · intro e he
      simp only [List.mem_append, List.mem_cons, List.mem_singleton, List.not_mem_nil,
        or_false] at he
      rcases he with (h | h) | h
      · exact ⟨_, _, h⟩
      · exact hc e h
      · exact ⟨_, _, h⟩

/-- `NewInner` is the constructor run in a world that differs from the given
one in the class's statics and by calls in the trace. -/
theorem NewInner_eq (ch : Chain) (p : Nat) (cfg : Cfg) (w : World) :
    ∃ v, NewInner ch p cfg w = Ctor ch p (depth ch) cfg v ∧ v.next = w.next ∧
      v.mb = w.mb ∧ v.st = w.st ∧ v.live = w.live ∧
      ∃ E, v.trace = w.trace ++ E ∧ ∀ e, e ∈ E → ∃ r c, e = Event.call r c := by
  by_cases h : w.IsVtableInit (depth ch) = true
  · refine ⟨w.log (Event.call Routine.NewInner (depth ch)), by simp [NewInner, h], rfl, rfl,
      rfl, rfl, [Event.call Routine.NewInner (depth ch)], rfl, ?_⟩
    intro e he
    exact ⟨_, _, List.mem_singleton.mp he⟩
  · obtain ⟨E, hE, hc⟩ := VtableInitTree_trace ch (depth ch)
      (w.log (Event.call Routine.NewInner (depth ch)))
    refine ⟨_, by simp only [NewInner, log_IsVtableInit, h]; rfl, by simp, by simp, by simp,
      by simp, Event.call Routine.NewInner (depth ch) :: E, by simp [hE], ?_⟩
    intro e he
    rcases List.mem_cons.mp he with h1 | h1
    · exact ⟨_, _, h1⟩
    · exact hc e h1

theorem classOf_append (pre ch : Chain) (h : ch ≠ []) : classOf (pre ++ ch) (depth ch) = ch := by
  have hl : 0 < ch.length := List.length_pos.mpr h
  have : (pre ++ ch).length - (depth ch + 1) = pre.length := by
    simp only [depth, List.length_append]
    omega
  rw [classOf, this, List.drop_left]

theorem Owned_congr (n p lo : Nat) (w v : World) (h1 : v.mb = w.mb) (h2 : v.st = w.st)
    (h3 : v.next = w.next) (h : Owned n p lo w) : Owned n p lo v := by
  unfold Owned at h ⊢
  rw [h1, h2, h3]
  exact h

/-- A fresh instance has, at every level of its class, its own `State` block,
allocated after the instance itself. -/
theorem NEW_owned (ch : Chain) (cfg : Cfg) (w : World) :
    Owned ch.length w.next (w.next + 1) (NEW ch cfg w).2 := by
  obtain ⟨v, hv, hn, _, _, _, _⟩ := NewInner_eq ch w.next cfg
    (((w.log (Event.call Routine.NewOuter (depth ch))).calloc Kind.inst).2.zeroInst w.next)
  have h := Ctor_owned ch w.next (depth ch) (w.next + 1) cfg v (by rw [hn]; simp)
  apply Owned_congr _ _ _ _ _ _ _ _ h
  · simp only [NEW, NewOuter, log_next, setDel_mb]; rw [hv]
  · simp only [NEW, NewOuter, log_next, setDel_st]; rw [hv]
  · simp only [NEW, NewOuter, log_next, setDel_next]; rw [hv]

/-- The events of `NEW`: its `State` allocations are exactly the blocks of the
levels of the new instance, and it releases nothing. -/
theorem NEW_events (ch : Chain) (cfg : Cfg) (w : World) :
    ∃ E, (NEW ch cfg w).2.trace = w.trace ++ E ∧
      (∀ a, Event.calloc Kind.state a ∈ E ↔
        ∃ j, j < ch.length ∧ (NEW ch cfg w).2.mb w.next j = some a) ∧
      (∀ a, Event.free a ∉ E) := by
  obtain ⟨v, hv, _, _, _, _, E1, hE1, hc1⟩ := NewInner_eq ch w.next cfg
    (((w.log (Event.call Routine.NewOuter (depth ch))).calloc Kind.inst).2.zeroInst w.next)
  obtain ⟨E2, hE2, hst, hfr, _⟩ := Ctor_trace ch w.next (depth ch) cfg v
  have hmb : (NEW ch cfg w).2.mb = (Ctor ch w.next (depth ch) cfg v).mb := by
    simp only [NEW, NewOuter, log_next, setDel_mb]; rw [hv]
  have hno : ∀ e, e ∈ E1 → ∀ k a, e ≠ Event.calloc k a ∧ e ≠ Event.free a := by
    intro e he k a
    obtain ⟨r, c, hrc⟩ := hc1 e he
    rw [hrc]
    exact ⟨by simp, by simp⟩
  refine ⟨Event.call Routine.NewOuter (depth ch) :: Event.calloc Kind.inst w.next :: E1 ++ E2,
    ?_, ?_, ?_⟩
  · simp only [NEW, NewOuter, log_next, setDel_trace]
    rw [hv, hE2, hE1]
    simp
  · intro a
    rw [hmb, ← hst a]
    simp only [List.mem_append, List.mem_cons, reduceCtorEq, Event.calloc.injEq, false_and,
      false_or]
    constructor
    · rintro (h | h)
      · exact absurd rfl ((hno _ h Kind.state a).1)
      · exact h
    · exact Or.inr
  · intro a ha
    simp only [List.mem_append, List.mem_cons, reduceCtorEq, false_or] at ha
    rcases ha with h | h
    · exact absurd rfl ((hno _ h Kind.state a).2)
    · exact hfr a h

theorem DELETE_eq (pre ch : Chain) (p : Nat) (w : World) (hch : ch ≠ [])
    (hdel : w.del p = some (depth ch)) :
    DELETE (pre ++ ch) p w =
      (Dtor ch p (((w.log (Event.call Routine.Delete (depth ch))).log
        (Event.call Routine.DeleteOuter (depth ch))).log
        (Event.call Routine.DeleteInner (depth ch)))).free p := by
  simp [DELETE, hdel, classOf_append pre ch hch, Delete, DeleteOuter, DeleteInner]

/-- `DELETE` of a fresh instance calls `free` exactly once on the `State` block
of each level. -/
theorem DELETE_releases_state (pre ch : Chain) (cfg : Cfg) (w : World) (hch : ch ≠ [])
    (j a : Nat) (hj : j < ch.length) (ha : (NEW ch cfg w).2.mb w.next j = some a) :
    ∃ E, (DELETE (pre ++ ch) w.next (NEW ch cfg w).2).trace = (NEW ch cfg w).2.trace ++ E ∧
      E.count (Event.free a) = 1 := by
  obtain ⟨o1, o2, o3⟩ := NEW_owned ch cfg w
  obtain ⟨E1, hE1, _, hone⟩ := Dtor_count ch w.next
    ((((NEW ch cfg w).2.log (Event.call Routine.Delete (depth ch))).log
      (Event.call Routine.DeleteOuter (depth ch))).log
      (Event.call Routine.DeleteInner (depth ch))) a
    (by
      intro m hm s hs i hsi
      exact (o3 m hm s hs i a hsi).2 j hj ha)
  obtain ⟨E2, hE2, hc2⟩ := free_events
    (Dtor ch w.next ((((NEW ch cfg w).2.log (Event.call Routine.Delete (depth ch))).log
      (Event.call Routine.DeleteOuter (depth ch))).log
      (Event.call Routine.DeleteInner (depth ch)))) w.next
  have hne : a ≠ w.next := by
    obtain ⟨a2, ha2, hlo, _⟩ := o1 j hj
    rw [ha] at ha2
    cases ha2
    omega
  refine ⟨Event.call Routine.Delete (depth ch) :: Event.call Routine.DeleteOuter (depth ch) ::
    Event.call Routine.DeleteInner (depth ch) :: E1 ++ E2, ?_, ?_⟩
  · rw [DELETE_eq pre ch _ _ hch (NEW_del ch cfg w), hE2, hE1]
    simp
  · have h1 := hone j hj ha (fun m hm hmj hma => hmj (o2 m j a hm hj hma ha))
    simp [List.count_append, List.count_cons, h1, hc2 a, hne]

/-! ## Lemmas: the build flag -/

theorem Ctor_calls (ch : Chain) (p t : Nat) (cfg : Cfg) (w : World) :
    ∃ E, (Ctor ch p t cfg w).trace = w.trace ++ E ∧
      ∀ r c, r ≠ Routine.Ctor → r ≠ Routine.Init → Event.call r c ∉ E := by
  induction ch generalizing w cfg with
  | nil => exact ⟨[], by simp [Ctor]⟩
  | cons d bases ih =>
    obtain ⟨E1, hE1, h1⟩ := ih cfg.tail (w.log (Event.call Routine.Ctor bases.length))
    obtain ⟨E3, hE3, hb3⟩ := runInit_trace
      (Ctor bases p t cfg.tail (w.log (Event.call Routine.Ctor bases.length))).next
      (d.Init (cfg.headD []))
      (stateReady (Ctor bases p t cfg.tail (w.log (Event.call Routine.Ctor bases.length)))
        p bases.length t)
    refine ⟨Event.call Routine.Ctor bases.length :: E1 ++
      [Event.calloc Kind.state
          (Ctor bases p t cfg.tail (w.log (Event.call Routine.Ctor bases.length))).next,
        Event.call Routine.Init bases.length] ++ E3, ?_, ?_⟩
    · rw [Ctor_cons, hE3, stateReady_trace, hE1]
      simp
    · intro r c hr1 hr2 hmem
      simp only [List.mem_append, List.mem_cons, List.mem_singleton, reduceCtorEq, false_or,
        or_false, List.not_mem_nil, Event.call.injEq] at hmem
      rcases hmem with ((h | h) | h) | h
      · exact hr1 h.1
      · exact h1 r c hr1 hr2 h
      · exact hr2 h.1
      · obtain ⟨b, hb⟩ := hb3 _ h
        cases hb

/-- One tree build calls the `VtableInitTree` of each class of the chain once. -/
theorem VtableInitTree_count (ch : Chain) (t c : Nat) (w : World) :
    ∃ E, (VtableInitTree ch t w).trace = w.trace ++ E ∧
      E.count (Event.call Routine.VtableInitTree c) = if c < ch.length then 1 else 0 := by
  induction ch generalizing w with
  | nil => exact ⟨[], by simp [VtableInitTree]⟩
  | cons d bases ih =>
    obtain ⟨E, hE, hc⟩ := ih (w.log (Event.call Routine.VtableInitTree bases.length))
    refine ⟨Event.call Routine.VtableInitTree bases.length :: E ++
      [Event.call Routine.VtableInit bases.length], ?_, ?_⟩
    · simp [VtableInitTree, VtableInit, hE]
    · simp only [List.count_append, List.count_cons, hc, List.count_nil, List.length_cons]
      by_cases h1 : c = bases.length
      · subst h1; simp
      · by_cases h2 : c < bases.length
        · have : c < bases.length + 1 := by omega
          simp [h2, this, Ne.symm h1]
        · have : ¬ c < bases.length + 1 := by omega
          simp [h2, this, Ne.symm h1]

/-- An instantiation runs the class's tree build once when the class's flag is
unset and not at all when it is set. -/
theorem NewInner_count (ch : Chain) (p : Nat) (cfg : Cfg) (w : World) (hch : ch ≠ []) :
    ∃ E, (NewInner ch p cfg w).trace = w.trace ++ E ∧
      E.count (Event.call Routine.VtableInitTree (depth ch))
        = if w.IsVtableInit (depth ch) = true then 0 else 1 := by
  have hl : 0 < ch.length := List.length_pos.mpr hch
  by_cases h : w.IsVtableInit (depth ch) = true
  · obtain ⟨E, hE, hc⟩ := Ctor_calls ch p (depth ch) cfg
      (w.log (Event.call Routine.NewInner (depth ch)))
    refine ⟨Event.call Routine.NewInner (depth ch) :: E, by simp [NewInner, h, hE], ?_⟩
    rw [if_pos h, List.count_cons, List.count_eq_zero.mpr (hc _ _ (by decide) (by decide))]
    simp
  · obtain ⟨E1, hE1, hc1⟩ := VtableInitTree_count ch (depth ch) (depth ch)
      (w.log (Event.call Routine.NewInner (depth ch)))
    obtain ⟨E, hE, hc⟩ := Ctor_calls ch p (depth ch) cfg
      ((VtableInitTree ch (depth ch) (w.log (Event.call Routine.NewInner (depth ch)))).setFlag
        (depth ch))
    refine ⟨Event.call Routine.NewInner (depth ch) :: E1 ++ E, ?_, ?_⟩
    · rw [NewInner_of_not_flag ch p cfg w h, hE]
      simp [hE1]
    · rw [if_neg h, List.count_append, List.count_cons, hc1,
        List.count_eq_zero.mpr (hc _ _ (by decide) (by decide)), if_pos (by simp [depth]; omega)]
      simp

theorem instantiate_count (ch : Chain) (i : Instantiation) (w : World) (hch : ch ≠ []) :
    ∃ E, (instantiate ch i w).2.trace = w.trace ++ E ∧
      E.count (Event.call Routine.VtableInitTree (depth ch))
        = if w.IsVtableInit (depth ch) = true then 0 else 1 := by
  cases i with
  | inner p cfg => exact NewInner_count ch p cfg w hch
  | outer cfg =>
    obtain ⟨E, hE, hc⟩ := NewInner_count ch w.next cfg
      (((w.log (Event.call Routine.NewOuter (depth ch))).calloc Kind.inst).2.zeroInst w.next) hch
    refine ⟨Event.call Routine.NewOuter (depth ch) :: Event.calloc Kind.inst w.next :: E, ?_, ?_⟩
    · simp only [instantiate, NEW, NewOuter, log_next, setDel_trace]
      rw [hE]
      simp
    · simp only [List.count_cons, hc, zeroInst_IsVtableInit, calloc_IsVtableInit,
        log_IsVtableInit]
      simp

theorem instantiate_flag (ch : Chain) (i : Instantiation) (w : World) :
    (instantiate ch i w).2.IsVtableInit (depth ch) = true := by
  cases i with
  | inner p cfg => exact NewInner_flag ch p cfg w
  | outer cfg =>
    simp only [instantiate, NEW, NewOuter, setDel_IsVtableInit]
    exact NewInner_flag ch _ cfg _

theorem instantiate_table (ch : Chain) (i : Instantiation) (w : World)
    (h : w.IsVtableInit (depth ch) = true) :
    (instantiate ch i w).2.VtableDefault (depth ch) = w.VtableDefault (depth ch) := by
  cases i with
  | inner p cfg =>
    simp only [instantiate]
    rw [NewInner_table, if_pos h]
  | outer cfg =>
    simp only [instantiate, NEW, NewOuter, setDel_VtableDefault]
    rw [NewInner_table, if_pos (by simpa using h)]
    simp

/-- After an instantiation, the new instance and every instance that referred
to the class's singleton before refer to it at every level. -/
theorem instantiate_vt (ch : Chain) (i : Instantiation) (w : World) (q : Nat)
    (h : q = (instantiate ch i w).1 ∨ ∀ j, j < ch.length → w.vt q j = some (depth ch)) :
    ∀ j, j < ch.length → (instantiate ch i w).2.vt q j = some (depth ch) := by
  intro j hj
  cases i with
  | inner p cfg =>
    simp only [instantiate] at h ⊢
    rw [NewInner_vt]
    by_cases hq : q = p
    · rw [if_pos ⟨hq, hj⟩]
    · rw [if_neg (fun hc => hq hc.1)]
      rcases h with h | h
      · exact absurd h hq
      · exact h j hj
  | outer cfg =>
    simp only [instantiate, NEW, NewOuter, log_next, setDel_vt] at h ⊢
    rw [NewInner_vt]
    by_cases hq : q = w.next
    · rw [if_pos ⟨hq, hj⟩]
    · rw [if_neg (fun hc => hq hc.1)]
      rcases h with h | h
      · exact absurd h hq
      · simp only [zeroInst_vt, calloc_vt, log_vt, Function.update_noteq hq]
        exact h j hj

/-- Once the class's flag is set, no further instantiation runs the tree build
or changes the singleton, and all instances refer to the singleton. -/
theorem instantiateAll_built (ch : Chain) (l : List Instantiation) (w : World) (hch : ch ≠ [])
    (h : w.IsVtableInit (depth ch) = true) :
    (∃ E, (instantiateAll ch l w).2.trace = w.trace ++ E ∧
      E.count (Event.call Routine.VtableInitTree (depth ch)) = 0) ∧
    (instantiateAll ch l w).2.VtableDefault (depth ch) = w.VtableDefault (depth ch) ∧
    (∀ q, (q ∈ (instantiateAll ch l w).1 ∨ ∀ j, j < ch.length → w.vt q j = some (depth ch)) →
      ∀ j, j < ch.length → (instantiateAll ch l w).2.vt q j = some (depth ch)) := by
  induction l generalizing w with
  | nil =>
    refine ⟨⟨[], by simp [instantiateAll]⟩, rfl, ?_⟩
    intro q hq j hj
    rcases hq with hq | hq
    · simp [instantiateAll] at hq
    · exact hq j hj
  | cons i r ih =>
    obtain ⟨⟨E2, hE2, hc2⟩, ht2, hv2⟩ := ih (instantiate ch i w).2 (instantiate_flag ch i w)
    obtain ⟨E1, hE1, hc1⟩ := instantiate_count ch i w hch
    rw [if_pos h] at hc1
    refine ⟨⟨E1 ++ E2, ?_, ?_⟩, ?_, ?_⟩
    · simp only [instantiateAll]
      rw [hE2, hE1, List.append_assoc]
    · rw [List.count_append, hc1, hc2]
    · simp only [instantiateAll]
      rw [ht2, instantiate_table ch i w h]
    · intro q hq j hj
      simp only [instantiateAll, List.mem_cons] at hq ⊢
      apply hv2 q _ j hj
      rcases hq with (hq | hq) | hq
      · exact Or.inr (instantiate_vt ch i w q (Or.inl hq))
      · exact Or.inl hq
      · exact Or.inr (instantiate_vt ch i w q (Or.inr hq))

/-! ## Lemmas: the calls of a destruction -/

theorem runDeinit_trace (p cls : Nat) (l : List Nat) (w : World) :
    ∃ E, (runDeinit p cls l w).trace = w.trace ++ E := by
  induction l generalizing w with
  | nil => exact ⟨[], by simp [runDeinit]⟩
  | cons i r ih =>
    cases hm : w.mb p cls with
    | none =>
      obtain ⟨E, hE⟩ := ih (w.log Event.ub)
      exact ⟨Event.ub :: E, by simp [runDeinit, hm, hE]⟩
    | some a =>
      obtain ⟨E1, hE1, _⟩ := freeVal_events w (w.st a i)
      obtain ⟨E, hE⟩ := ih (w.freeVal (w.st a i))
      exact ⟨E1 ++ E, by simp [runDeinit, hm, hE, hE1]⟩

/-- A destructor starts with the class's own `Dtor` and runs the `Dtor` and
the `Deinit` of every level of the chain. -/
theorem Dtor_covers (ch : Chain) (p : Nat) (w : World) :
    ∃ E, (Dtor ch p w).trace = w.trace ++ E ∧
      (ch ≠ [] → ∃ T, E = Event.call Routine.Dtor (depth ch) :: T) ∧
      ∀ j, j < ch.length →
        Event.call Routine.Dtor j ∈ E ∧ Event.call Routine.Deinit j ∈ E := by
  induction ch generalizing w with
  | nil => exact ⟨[], by simp [Dtor]⟩
  | cons d bases ih =>
    obtain ⟨E1, hE1, _, hall⟩ := ih (w.log (Event.call Routine.Dtor bases.length))
    obtain ⟨E2, hE2⟩ := runDeinit_trace p bases.length d.Deinit
      ((Dtor bases p (w.log (Event.call Routine.Dtor bases.length))).log
        (Event.call Routine.Deinit bases.length))
    obtain ⟨E3, hE3, _⟩ := freePtr_events
      (runDeinit p bases.length d.Deinit
        ((Dtor bases p (w.log (Event.call Routine.Dtor bases.length))).log
          (Event.call Routine.Deinit bases.length)))
      ((Deinit d bases.length p
        (Dtor bases p (w.log (Event.call Routine.Dtor bases.length)))).mb p bases.length)
    refine ⟨Event.call Routine.Dtor bases.length :: E1 ++
      Event.call Routine.Deinit bases.length :: E2 ++ E3, ?_, ?_, ?_⟩
    · simp only [Dtor, setMb_trace]
      simp only [Deinit] at hE3 ⊢
      rw [hE3, hE2, log_trace, hE1, log_trace]
      simp
    · intro _
      exact ⟨E1 ++ Event.call Routine.Deinit bases.length :: E2 ++ E3, by simp [depth]⟩
    · intro j hj
      by_cases hjk : j = bases.length
      · subst hjk
        simp
      · obtain ⟨h1, h2⟩ := hall j (by simp at hj; omega)
        simp [h1, h2]

/-! ## Lemmas: the statics of other classes -/

theorem VtableInitTree_table_congr (ch : Chain) (t : Nat) (w v : World)
    (h : w.VtableDefault = v.VtableDefault) :
    (VtableInitTree ch t w).VtableDefault = (VtableInitTree ch t v).VtableDefault := by
  induction ch generalizing w v with
  | nil => simpa [VtableInitTree] using h
  | cons d bases ih =>
    simp only [VtableInitTree, VtableInit, log_VtableDefault]
    rw [ih (w.log (Event.call Routine.VtableInitTree bases.length))
      (v.log (Event.call Routine.VtableInitTree bases.length)) (by simpa using h)]

theorem NewInner_flag_other (ch : Chain) (p : Nat) (cfg : Cfg) (w : World) (u : Nat)
    (h : u ≠ depth ch) : (NewInner ch p cfg w).IsVtableInit u = w.IsVtableInit u := by
  by_cases hf : w.IsVtableInit (depth ch) = true
  · rw [NewInner_of_flag ch p cfg w hf, (Ctor_statics _ _ _ _ _).2.1]; simp
  · rw [NewInner_of_not_flag ch p cfg w hf, (Ctor_statics _ _ _ _ _).2.1]
    simp [Function.update_noteq h]

theorem NewInner_table_other (ch : Chain) (p : Nat) (cfg : Cfg) (w : World) (u : Nat)
    (h : u ≠ depth ch) : (NewInner ch p cfg w).VtableDefault u = w.VtableDefault u := by
  by_cases hf : w.IsVtableInit (depth ch) = true
  · rw [NewInner_of_flag ch p cfg w hf, (Ctor_statics _ _ _ _ _).2.2]; simp
  · rw [NewInner_of_not_flag ch p cfg w hf, (Ctor_statics _ _ _ _ _).2.2]
    simp [VtableInitTree_other _ _ _ _ h]

theorem NewInner_table_first (ch : Chain) (p : Nat) (cfg : Cfg) (w : World)
    (hf : w.IsVtableInit (depth ch) = false) :
    (NewInner ch p cfg w).VtableDefault (depth ch)
      = (VtableInitTree ch (depth ch) w).VtableDefault (depth ch) := by
  rw [NewInner_table, if_neg (by simp [hf]),
    VtableInitTree_table_congr ch (depth ch) _ w (by simp)]

theorem NEW_flag (ch : Chain) (cfg : Cfg) (w : World) :
    (NEW ch cfg w).2.IsVtableInit (depth ch) = true := by
  simp only [NEW, NewOuter, setDel_IsVtableInit]
  exact NewInner_flag _ _ _ _

theorem NEW_table_first (ch : Chain) (cfg : Cfg) (w : World)
    (hf : w.IsVtableInit (depth ch) = false) :
    (NEW ch cfg w).2.VtableDefault (depth ch)
      = (VtableInitTree ch (depth ch) w).VtableDefault (depth ch) := by
  simp only [NEW, NewOuter, setDel_VtableDefault]
  rw [NewInner_table_first _ _ _ _ (by simpa using hf)]
  rw [VtableInitTree_table_congr _ _ _ w (by simp)]

theorem classOf_depth (prog : Chain) (a : Nat) (h : a < prog.length) :
    depth (classOf prog a) = a ∧ classOf prog a ≠ [] := by
  have hlen : (classOf prog a).length = a + 1 := by
    simp only [classOf, List.length_drop]
    omega
  refine ⟨by simp only [depth, hlen]; omega, ?_⟩
  intro hnil
  rw [hnil] at hlen
  simp at hlen

/-! ## Lemmas: what a constructor leaves in the `State` blocks -/

theorem runInit_bytes_lt (a : Nat) (l : List (Nat × Field)) (w : World) (b : Nat)
    (h : b < w.next) : (runInit a l w).bytes b = w.bytes b := by
  induction l generalizing w with
  | nil => simp [runInit]
  | cons x r ih =>
    obtain ⟨i, fld⟩ := x
    cases fld with
    | val v => rw [runInit_val, ih _ (by simpa using h)]; simp
    | buf bs =>
      rw [runInit_buf, ih _ (by simp; omega)]
      simp [Function.update_noteq (Nat.ne_of_lt h)]

/-- The fields of the block an `_Init` fills, in terms of its last assignments. -/
theorem runInit_written (a : Nat) (l : List (Nat × Field)) (w : World) (i : Nat) :
    match written l i with
    | none => (runInit a l w).st a i = w.st a i
    | some (Field.val v) => (runInit a l w).st a i = Val.int v
    | some (Field.buf bs) =>
      ∃ b, (runInit a l w).st a i = Val.ptr b ∧ (runInit a l w).bytes b = bs ∧
        w.next ≤ b ∧ b < (runInit a l w).next := by
  induction l generalizing w with
  | nil => simp [written, runInit]
  | cons x r ih =>
    obtain ⟨j, fld⟩ := x
    cases fld with
    | val v =>
      have h := ih (w.setSt a j (Val.int v))
      rw [runInit_val]
      simp only [written]
      cases hw : written r i with
      | some g =>
        rw [hw] at h
        cases g with
        | val u => exact h
        | buf bs => simpa using h
      | none =>
        rw [hw] at h
        simp only at h ⊢
        by_cases hj : j = i
        · subst hj
          simp only [if_pos rfl]
          rw [h]; simp
        · simp only [if_neg hj]
          rw [h]; simp [Function.update_noteq (Ne.symm hj)]
    | buf bs =>
      have h := ih ((((w.calloc Kind.buf).2).setBytes w.next bs).setSt a j (Val.ptr w.next))
      rw [runInit_buf]
      simp only [written]
      cases hw : written r i with
      | some g =>
        rw [hw] at h
        cases g with
        | val u => exact h
        | buf cs =>
          obtain ⟨b, h1, h2, h3, h4⟩ := h
          simp only [setSt_next, setBytes_next, calloc_next] at h3
          exact ⟨b, h1, h2, by omega, h4⟩
      | none =>
        rw [hw] at h
        simp only at h ⊢
        by_cases hj : j = i
        · subst hj
          simp only [if_pos rfl]
          refine ⟨w.next, ?_, ?_, Nat.le_refl _, ?_⟩
          · rw [h]; simp
          · rw [runInit_bytes_lt _ _ _ _ (by simp)]; simp
          · have := runInit_next_le a r
              ((((w.calloc Kind.buf).2).setBytes w.next bs).setSt a j (Val.ptr w.next))
            simp only [setSt_next, setBytes_next, calloc_next] at this
            omega
        · simp only [if_neg hj]
          rw [h]; simp [Function.update_noteq (Ne.symm hj)]

theorem Ctor_st_lt (ch : Chain) (p t : Nat) (cfg : Cfg) (w : World) (a : Nat)
    (h : a < w.next) : (Ctor ch p t cfg w).st a = w.st a := by
  induction ch generalizing w cfg with
  | nil => simp [Ctor]
  | cons d bases ih =>
    have hle := Ctor_next_le bases p t cfg.tail (w.log (Event.call Routine.Ctor bases.length))
    simp only [log_next] at hle
    have hne : a ≠ (Ctor bases p t cfg.tail
        (w.log (Event.call Routine.Ctor bases.length))).next := by omega
    rw [Ctor_cons, runInit_st_other _ _ _ _ hne, stateReady_st, Function.update_noteq hne,
      ih cfg.tail (w.log (Event.call Routine.Ctor bases.length)) (by simpa using h)]
    simp

theorem Ctor_bytes_lt (ch : Chain) (p t : Nat) (cfg : Cfg) (w : World) (b : Nat)
    (h : b < w.next) : (Ctor ch p t cfg w).bytes b = w.bytes b := by
  induction ch generalizing w cfg with
  | nil => simp [Ctor]
  | cons d bases ih =>
    have hle := Ctor_next_le bases p t cfg.tail (w.log (Event.call Routine.Ctor bases.length))
    simp only [log_next] at hle
    rw [Ctor_cons, runInit_bytes_lt _ _ _ _ (by simp; omega)]
    have : (stateReady (Ctor bases p t cfg.tail
        (w.log (Event.call Routine.Ctor bases.length))) p bases.length t).bytes
        = (Ctor bases p t cfg.tail (w.log (Event.call Routine.Ctor bases.length))).bytes := rfl
    rw [this, ih cfg.tail (w.log (Event.call Routine.Ctor bases.length)) (by simpa using h)]
    simp

theorem levelInit_top (d : ClassDef) (bases : Chain) (cfg : Cfg) :
    levelInit (d :: bases) cfg bases.length = d.Init (cfg.headD []) := by
  cases cfg <;> simp [levelInit]

theorem levelInit_below (d : ClassDef) (bases : Chain) (cfg : Cfg) (j : Nat)
    (h : j < bases.length) : levelInit (d :: bases) cfg j = levelInit bases cfg.tail j := by
  obtain ⟨m, hm⟩ : ∃ m, bases.length - j = m + 1 := ⟨bases.length - j - 1, by omega⟩
  have h1 : (d :: bases).length - 1 - j = m + 1 := by simp only [List.length_cons]; omega
  have h2 : bases.length - 1 - j = m := by omega
  unfold levelInit
  rw [h1, h2]
  cases cfg <;> simp

/-- After the constructor of a chain, every level of the instance has a `State`
block that holds what the level's `_Init` writes, from the config embedded for
that level, into a zero-filled block. -/
theorem Ctor_populated (ch : Chain) (p t : Nat) (cfg : Cfg) (w : World) (j : Nat)
    (hj : j < ch.length) :
    ∃ a, (Ctor ch p t cfg w).mb p j = some a ∧
      Populated (Ctor ch p t cfg w) a (levelInit ch cfg j) := by
  induction ch generalizing w cfg with
  | nil => simp at hj
  | cons d bases ih =>
    rw [Ctor_cons]
    by_cases hjk : j = bases.length
    · subst hjk
      refine ⟨_, by rw [step_mb, if_pos rfl], ?_⟩
      intro i
      rw [levelInit_top]
      have h := runInit_written
        (Ctor bases p t cfg.tail (w.log (Event.call Routine.Ctor bases.length))).next
        (d.Init (cfg.headD []))
        (stateReady (Ctor bases p t cfg.tail (w.log (Event.call Routine.Ctor bases.length)))
          p bases.length t) i
      cases hw : written (d.Init (cfg.headD [])) i with
      | none =>
        rw [hw] at h
        simp only at h ⊢
        rw [h]; simp
      | some g =>
        rw [hw] at h
        cases g with
        | val v => exact h
        | buf bs =>
          obtain ⟨b, h1, h2, _, _⟩ := h
          exact ⟨b, h1, h2⟩
    · have hlt : j < bases.length := by simp only [List.length_cons] at hj; omega
      obtain ⟨a, ha, hP⟩ := ih cfg.tail (w.log (Event.call Routine.Ctor bases.length)) hlt
      obtain ⟨o1, _, o3⟩ := Ctor_owned bases p t 0 cfg.tail
        (w.log (Event.call Routine.Ctor bases.length)) (Nat.zero_le _)
      obtain ⟨a2, ha2, _, halt⟩ := o1 j hlt
      rw [ha] at ha2
      cases ha2
      have hst : (runInit
          (Ctor bases p t cfg.tail (w.log (Event.call Routine.Ctor bases.length))).next
          (d.Init (cfg.headD []))
          (stateReady (Ctor bases p t cfg.tail (w.log (Event.call Routine.Ctor bases.length)))
            p bases.length t)).st a
          = (Ctor bases p t cfg.tail (w.log (Event.call Routine.Ctor bases.length))).st a := by
        rw [runInit_st_other _ _ _ _ (Nat.ne_of_lt halt), stateReady_st,
          Function.update_noteq (Nat.ne_of_lt halt)]
      have hby : ∀ b, b < (Ctor bases p t cfg.tail
          (w.log (Event.call Routine.Ctor bases.length))).next →
          (runInit
            (Ctor bases p t cfg.tail (w.log (Event.call Routine.Ctor bases.length))).next
            (d.Init (cfg.headD []))
            (stateReady (Ctor bases p t cfg.tail (w.log (Event.call Routine.Ctor bases.length)))
              p bases.length t)).bytes b
          = (Ctor bases p t cfg.tail (w.log (Event.call Routine.Ctor bases.length))).bytes b := by
        intro b hb
        rw [runInit_bytes_lt _ _ _ _ (by simp; omega)]
        rfl
      refine ⟨a, by rw [step_mb, if_neg hjk]; exact ha, ?_⟩
      intro i
      rw [levelInit_below d bases cfg j hlt, hst]
      have h := hP i
      cases hw : written (levelInit bases cfg.tail j) i with
      | none => rw [hw] at h; exact h
      | some g =>
        rw [hw] at h
        cases g with
        | val v => exact h
        | buf bs =>
          obtain ⟨b, h1, h2⟩ := h
          exact ⟨b, h1, by rw [hby b (o3 j hlt a ha i b h1).1]; exact h2⟩

/-- The blocks of a fresh instance are live. -/
theorem runInit_live (a : Nat) (l : List (Nat × Field)) (w : World) (x : Nat)
    (h : x ∈ w.live) : x ∈ (runInit a l w).live := by
  induction l generalizing w with
  | nil => simpa [runInit] using h
  | cons y r ih =>
    obtain ⟨i, fld⟩ := y
    cases fld with
    | val v => rw [runInit_val]; exact ih _ (by simpa using h)
    | buf bs => rw [runInit_buf]; exact ih _ (by simp [h])

theorem Ctor_live (ch : Chain) (p t : Nat) (cfg : Cfg) (w : World) (x : Nat)
    (h : x ∈ w.live) : x ∈ (Ctor ch p t cfg w).live := by
  induction ch generalizing w cfg with
  | nil => simpa [Ctor] using h
  | cons d bases ih =>
    rw [Ctor_cons]
    apply runInit_live
    rw [stateReady_live]
    exact List.mem_cons_of_mem _ (ih cfg.tail _ (by simpa using h))

theorem Ctor_block_live (ch : Chain) (p t : Nat) (cfg : Cfg) (w : World) (j a : Nat)
    (hj : j < ch.length) (ha : (Ctor ch p t cfg w).mb p j = some a) :
    a ∈ (Ctor ch p t cfg w).live := by
  induction ch generalizing w cfg with
  | nil => simp at hj
  | cons d bases ih =>
    rw [Ctor_cons] at ha ⊢
    rw [step_mb] at ha
    apply runInit_live
    rw [stateReady_live]
    by_cases hjk : j = bases.length
    · rw [if_pos hjk] at ha
      cases ha
      exact List.mem_cons_self _ _
    · rw [if_neg hjk] at ha
      exact List.mem_cons_of_mem _
        (ih cfg.tail _ (by simp only [List.length_cons] at hj; omega) ha)

/-- A fresh instance has, at every level, a live `State` block that holds what
the level's `_Init` writes from the config embedded for that level. -/
theorem NEW_populated (ch : Chain) (cfg : Cfg) (w : World) (j : Nat) (hj : j < ch.length) :
    ∃ a, (NEW ch cfg w).2.mb w.next j = some a ∧ a ∈ (NEW ch cfg w).2.live ∧
      Populated (NEW ch cfg w).2 a (levelInit ch cfg j) := by
  obtain ⟨v, hv, _, _, _, _, _⟩ := NewInner_eq ch w.next cfg
    (((w.log (Event.call Routine.NewOuter (depth ch))).calloc Kind.inst).2.zeroInst w.next)
  obtain ⟨a, ha, hP⟩ := Ctor_populated ch w.next (depth ch) cfg v j hj
  have hlive := Ctor_block_live ch w.next (depth ch) cfg v j a hj ha
  have hmb : (NEW ch cfg w).2.mb = (Ctor ch w.next (depth ch) cfg v).mb := by
    simp only [NEW, NewOuter, log_next, setDel_mb]; rw [hv]
  have hst : (NEW ch cfg w).2.st = (Ctor ch w.next (depth ch) cfg v).st := by
    simp only [NEW, NewOuter, log_next, setDel_st]; rw [hv]
  have hby : (NEW ch cfg w).2.bytes = (Ctor ch w.next (depth ch) cfg v).bytes := by
    simp only [NEW, NewOuter, log_next, setDel_bytes]; rw [hv]
  have hlv : (NEW ch cfg w).2.live = (Ctor ch w.next (depth ch) cfg v).live := by
    simp only [NEW, NewOuter, log_next, setDel_live]; rw [hv]
  refine ⟨a, by rw [hmb]; exact ha, by rw [hlv]; exact hlive, ?_⟩
  unfold Populated at hP ⊢
  rw [hst, hby]
  exact hP

/-! ## Lemmas: the order of a construction -/

theorem Ctor_mb_ge (ch : Chain) (p t : Nat) (cfg : Cfg) (w : World) (j : Nat)
    (hj : ch.length ≤ j) : (Ctor ch p t cfg w).mb p j = w.mb p j := by
  induction ch generalizing w cfg with
  | nil => simp [Ctor]
  | cons d bases ih =>
    simp only [List.length_cons] at hj
    rw [Ctor_cons, step_mb, if_neg (by omega),
      ih cfg.tail (w.log (Event.call Routine.Ctor bases.length)) (by omega)]
    simp

/-- The trace of a constructor: the constructors are entered from the class
down to the root, then each level, from the root up to the class, allocates its
`State` block, calls its `_Init`, and that `_Init` allocates its buffers. -/
theorem Ctor_segments (ch : Chain) (p t : Nat) (cfg : Cfg) (w : World) :
    ∃ segs : List (List Event), segs.length = ch.length ∧
      (Ctor ch p t cfg w).trace = w.trace ++
        (List.range ch.length).reverse.map (Event.call Routine.Ctor) ++ segs.flatten ∧
      ∀ j, j < ch.length → ∃ a B, (Ctor ch p t cfg w).mb p j = some a ∧
        segs[j]? = some (Event.calloc Kind.state a :: Event.call Routine.Init j :: B) ∧
        ∀ e, e ∈ B → ∃ b, e = Event.calloc Kind.buf b := by
  induction ch generalizing w cfg with
  | nil => exact ⟨[], rfl, by simp [Ctor], by intro j hj; simp at hj⟩
  | cons d bases ih =>
    obtain ⟨segs, hlen, htr, hseg⟩ := ih cfg.tail (w.log (Event.call Routine.Ctor bases.length))
    obtain ⟨E3, hE3, hb3⟩ := runInit_trace
      (Ctor bases p t cfg.tail (w.log (Event.call Routine.Ctor bases.length))).next
      (d.Init (cfg.headD []))
      (stateReady (Ctor bases p t cfg.tail (w.log (Event.call Routine.Ctor bases.length)))
        p bases.length t)
    refine ⟨segs ++ [Event.calloc Kind.state
        (Ctor bases p t cfg.tail (w.log (Event.call Routine.Ctor bases.length))).next ::
      Event.call Routine.Init bases.length :: E3], by simp [hlen], ?_, ?_⟩
    · rw [Ctor_cons, hE3, stateReady_trace, htr]
      simp [List.range_succ]
    · intro j hj
      rw [Ctor_cons, step_mb]
      by_cases hjk : j = bases.length
      · subst hjk
        refine ⟨_, E3, by rw [if_pos rfl], ?_, hb3⟩
        rw [← hlen]
        simp
      · have hlt : j < bases.length := by simp only [List.length_cons] at hj; omega
        obtain ⟨a, B, ha, hs, hB⟩ := hseg j hlt
        refine ⟨a, B, by rw [if_neg hjk]; exact ha, ?_, hB⟩
        rw [List.getElem?_append_left (by rw [hlen]; exact hlt)]
        exact hs

theorem VtableInitTree_calls (ch : Chain) (t : Nat) (w : World) :
    ∃ E, (VtableInitTree ch t w).trace = w.trace ++ E ∧
      ∀ e, e ∈ E → ∃ c, e = Event.call Routine.VtableInitTree c ∨
        e = Event.call Routine.VtableInit c := by
  induction ch generalizing w with
  | nil => exact ⟨[], by simp [VtableInitTree]⟩
  | cons d bases ih =>
    obtain ⟨E, hE, hc⟩ := ih (w.log (Event.call Routine.VtableInitTree bases.length))
    refine ⟨Event.call Routine.VtableInitTree bases.length :: E ++
      [Event.call Routine.VtableInit bases.length], ?_, ?_⟩
    · simp [VtableInitTree, VtableInit, hE]
    · intro e he
      simp only [List.mem_append, List.mem_cons, List.mem_singleton, List.not_mem_nil,
        or_false] at he
      rcases he with (h | h) | h
      · exact ⟨_, Or.inl h⟩
      · exact hc e h
      · exact ⟨_, Or.inr h⟩

/-- `NEW` is the constructor of the class, run after the allocation of
the instance and the table build, followed by the store of the delete reference. -/
theorem NEW_as_Ctor (ch : Chain) (cfg : Cfg) (w : World) :
    ∃ v pre, (NEW ch cfg w).2 = (Ctor ch w.next (depth ch) cfg v).setDel w.next
        (some (depth ch)) ∧
      v.next = w.next + 1 ∧ v.live = w.next :: w.live ∧ v.st = w.st ∧
      v.trace = w.trace ++ pre ∧
      ∀ e, e ∈ pre → e = Event.calloc Kind.inst w.next ∨
        ∃ c, e = Event.call Routine.NewOuter c ∨ e = Event.call Routine.NewInner c ∨
          e = Event.call Routine.VtableInitTree c ∨ e = Event.call Routine.VtableInit c := by
  by_cases h : w.IsVtableInit (depth ch) = true
  · refine ⟨((((w.log (Event.call Routine.NewOuter (depth ch))).calloc Kind.inst).2.zeroInst
        w.next).log (Event.call Routine.NewInner (depth ch))),
      [Event.call Routine.NewOuter (depth ch), Event.calloc Kind.inst w.next,
        Event.call Routine.NewInner (depth ch)], ?_, rfl, rfl, rfl, by simp, ?_⟩
    · simp only [NEW, NewOuter, log_next]
      rw [NewInner_of_flag _ _ _ _ (by simpa using h)]
    · intro e he
      simp only [List.mem_cons, List.mem_singleton, List.not_mem_nil, or_false] at he
      rcases he with h1 | h1 | h1
      · exact Or.inr ⟨_, Or.inl h1⟩
      · exact Or.inl h1
      · exact Or.inr ⟨_, Or.inr (Or.inl h1)⟩
  · obtain ⟨E, hE, hc⟩ := VtableInitTree_calls ch (depth ch)
      ((((w.log (Event.call Routine.NewOuter (depth ch))).calloc Kind.inst).2.zeroInst
        w.next).log (Event.call Routine.NewInner (depth ch)))
    refine ⟨(VtableInitTree ch (depth ch)
        ((((w.log (Event.call Routine.NewOuter (depth ch))).calloc Kind.inst).2.zeroInst
          w.next).log (Event.call Routine.NewInner (depth ch)))).setFlag (depth ch),
      Event.call Routine.NewOuter (depth ch) :: Event.calloc Kind.inst w.next ::
        Event.call Routine.NewInner (depth ch) :: E, ?_, by simp, by simp, by simp,
      by simp [hE], ?_⟩
    · simp only [NEW, NewOuter, log_next]
      rw [NewInner_of_not_flag _ _ _ _ (by simpa using h)]
    · intro e he
      simp only [List.mem_cons] at he
      rcases he with h1 | h1 | h1 | h1
      · exact Or.inr ⟨_, Or.inl h1⟩
      · exact Or.inl h1
      · exact Or.inr ⟨_, Or.inr (Or.inl h1)⟩
      · obtain ⟨c, hc1⟩ := hc e h1
        exact Or.inr ⟨c, Or.inr (Or.inr hc1)⟩

/-! ## Lemmas: layout -/

theorem offsetofBase_zero (P : Nat) (dep n : Nat) (h : n ≤ dep) : offsetofBase P dep n = 0 := by
  induction n generalizing dep with
  | zero => rfl
  | succ n ih =>
    obtain ⟨e, rfl⟩ : ∃ e, dep = e + 1 := ⟨dep - 1, by omega⟩
    simp [offsetofBase, classStruct, offsetof, ih e (by omega)]

theorem upcast_eq (P : Nat) (dep n : Nat) (p : Nat) (h : n ≤ dep) : upcast P dep n p = p := by
  simp [upcast, offsetofBase_zero P dep n h]

/-- The slot read through the view at depth `k` of a fresh instance of the
class `pre ++ d :: post`, when `d` is the most-derived class assigning it. -/
theorem NEW_slotOf (pre post : Chain) (d : ClassDef) (cfg : Cfg) (w : World)
    (x f : String) (k : Nat) (hk : k < (pre ++ d :: post).length)
    (hw : w.TableOk (pre ++ d :: post))
    (hpre : ∀ e ∈ pre, assigned e.VtableInit x = none)
    (hd : assigned d.VtableInit x = some f) :
    slotOf (NEW (pre ++ d :: post) cfg w).2 (NEW (pre ++ d :: post) cfg w).1 k x = some f := by
  rw [NEW_fst]
  unfold slotOf
  rw [NEW_vt, if_pos hk]
  exact NEW_slot pre post d cfg w x f hw hpre hd

/-! ## Lemmas: the methods of the example -/

theorem childOf_self (p dep n : Nat) (h : n ≤ dep) :
    (GET_CHILDCLASS sizeofPtr (p : Int) dep n).toNat = p := by
  simp [GET_CHILDCLASS, offsetofBase_zero sizeofPtr dep n h]

theorem Vehicle_Accelerate_eq (p a : Nat) (speed : Int) (w : World) (ha : w.mb p 0 = some a) :
    Vehicle_Accelerate p [speed] w =
      if (w.st a 1).toInt < speed ∧ speed ≤ (w.st a 0).toInt then
        (w.log (Event.printf "The vehicle accelerates to %d km/h.\n" [speed])).setSt a 1
          (Val.int speed)
      else w := by
  simp [Vehicle_Accelerate, ha]

theorem Car_Accelerate_eq (p a c : Nat) (speed : Int) (w : World) (ha : w.mb p 0 = some a)
    (hc : w.mb p 1 = some c) :
    Car_Accelerate p [speed] w =
      if (w.st a 1).toInt < speed ∧ speed ≤ (w.st a 0).toInt then
        (w.log (Event.printf "The car with %d seats accelerates to %d km/h.\n"
          [(w.st c 0).toInt, speed])).setSt a 1 (Val.int speed)
      else w := by
  simp [Car_Accelerate, ha, hc, childOf_self p 1 1 (Nat.le_refl _)]

theorem Racecar_Accelerate_eq (p a c b : Nat) (speed : Int) (w : World)
    (ha : w.mb p 0 = some a) (hc : w.mb p 2 = some c) (hb : w.st c 0 = Val.ptr b) :
    Racecar_Accelerate p [speed] w =
      if (w.st a 1).toInt < speed ∧ speed ≤ (w.st a 0).toInt then
        (w.log (Event.printf "The racecar of %s accelerates to %d km/h.\n"
          (cstring (w.bytes b) ++ [speed]))).setSt a 1 (Val.int speed)
      else w := by
  simp [Racecar_Accelerate, ha, hc, hb, childOf_self p 2 2 (Nat.le_refl _)]

theorem lookup_mem (l : List (String × Method)) (f : String) (m : Method)
    (h : l.lookup f = some m) : (f, m) ∈ l := by
  induction l with
  | nil => simp [List.lookup] at h
  | cons x r ih =>
    obtain ⟨g, n⟩ := x
    simp only [List.lookup] at h
    by_cases hfg : f = g
    · subst hfg
      simp at h
      simp [h]
    · have : (f == g) = false := by simpa using hfg
      rw [this] at h
      exact List.mem_cons_of_mem _ (ih h)

theorem resolve_mem (prog : Chain) (f : String) (m : Method) (h : resolve prog f = some m) :
    ∃ d, d ∈ prog ∧ (f, m) ∈ d.methods := by
  induction prog with
  | nil => simp [resolve] at h
  | cons d bases ih =>
    simp only [resolve] at h
    cases hl : d.methods.lookup f with
    | some n =>
      rw [hl] at h
      cases h
      exact ⟨d, List.mem_cons_self _ _, lookup_mem _ _ _ hl⟩
    | none =>
      rw [hl] at h
      obtain ⟨e, he, hm⟩ := ih h
      exact ⟨e, List.mem_cons_of_mem _ he, hm⟩

/-- The functions the names of the example stand for. -/
theorem resolve_example (f : String) (m : Method) (h : resolve RacecarClass f = some m) :
    m = Racecar_Accelerate ∨ m = Car_Accelerate ∨ m = Car_Fuel ∨ m = Vehicle_Accelerate ∨
      m = Vehicle_Brake := by
  obtain ⟨d, hd, hm⟩ := resolve_mem _ _ _ h
  simp only [RacecarClass, List.mem_cons, List.mem_singleton, List.not_mem_nil, or_false] at hd
  rcases hd with rfl | rfl | rfl
  · simp only [Racecar, List.mem_singleton, Prod.mk.injEq] at hm
    exact Or.inl hm.2
  · simp only [Car, List.mem_cons, List.mem_singleton, Prod.mk.injEq, List.not_mem_nil,
      or_false] at hm
    rcases hm with hm | hm
    · exact Or.inr (Or.inl hm.2)
    · exact Or.inr (Or.inr (Or.inl hm.2))
  · simp only [Vehicle, List.mem_cons, List.mem_singleton, Prod.mk.injEq, List.not_mem_nil,
      or_false] at hm
    rcases hm with hm | hm
    · exact Or.inr (Or.inr (Or.inr (Or.inl hm.2)))
    · exact Or.inr (Or.inr (Or.inr (Or.inr hm.2)))

theorem MethodFrame_refl (p : Nat) (w : World) : MethodFrame p w w :=
  ⟨rfl, rfl, rfl, rfl, rfl, rfl, rfl, rfl, fun _ _ => rfl, fun _ _ _ => rfl, fun _ _ _ h => h⟩

theorem MethodFrame_log (p : Nat) (w : World) (e : Event) : MethodFrame p w (w.log e) :=
  ⟨rfl, rfl, rfl, rfl, rfl, rfl, rfl, rfl, fun _ _ => rfl, fun _ _ _ => rfl, fun _ _ _ h => h⟩

theorem MethodFrame_setSpeed (p a : Nat) (w : World) (e : Event) (x : Int)
    (ha : w.mb p 0 = some a) : MethodFrame p w ((w.log e).setSt a 1 (Val.int x)) := by
  refine ⟨rfl, rfl, rfl, rfl, rfl, rfl, rfl, rfl, ?_, ?_, ?_⟩
  · intro s hs
    have : s ≠ a := fun h => hs (by rw [h]; exact ha)
    simp [Function.update_noteq this]
  · intro s i hi
    by_cases hs : s = a
    · subst hs; simp [Function.update_noteq hi]
    · simp [Function.update_noteq hs]
  · intro s i b hb
    by_cases hs : s = a
    · subst hs
      by_cases hi : i = 1
      · subst hi; simp at hb
      · simpa [Function.update_noteq hi] using hb
    · simpa [Function.update_noteq hs] using hb

theorem MethodFrame_trans (p : Nat) (w v u : World) (h1 : MethodFrame p w v)
    (h2 : MethodFrame p v u) : MethodFrame p w u := by
  obtain ⟨a1, a2, a3, a4, a5, a6, a7, a8, a9, a10, a11⟩ := h1
  obtain ⟨b1, b2, b3, b4, b5, b6, b7, b8, b9, b10, b11⟩ := h2
  refine ⟨by rw [b1, a1], by rw [b2, a2], by rw [b3, a3], by rw [b4, a4], by rw [b5, a5],
    by rw [b6, a6], by rw [b7, a7], by rw [b8, a8], ?_, ?_, ?_⟩
  · intro s hs
    rw [b9 s (by rw [a5]; exact hs), a9 s hs]
  · intro s i hi
    rw [b10 s i hi, a10 s i hi]
  · intro s i b hb
    exact a11 s i b (b11 s i b hb)

/-- Every method of the example only logs and sets `CurrentSpeed` of
the instance it is called on. -/
theorem example_method_frame (m : Method) (p : Nat) (args : List Int) (w : World)
    (hm : m = Racecar_Accelerate ∨ m = Car_Accelerate ∨ m = Car_Fuel ∨ m = Vehicle_Accelerate ∨
      m = Vehicle_Brake) : MethodFrame p w (m p args w) := by
  rcases hm with rfl | rfl | rfl | rfl | rfl
  · simp only [Racecar_Accelerate]
    cases ha : w.mb p 0 with
    | none => exact MethodFrame_log _ _ _
    | some a =>
      simp only
      split
      · split
        · exact MethodFrame_log _ _ _
        · split
          · exact MethodFrame_log _ _ _
          · exact MethodFrame_setSpeed p a w _ _ ha
      · exact MethodFrame_refl _ _
  · simp only [Car_Accelerate]
    cases ha : w.mb p 0 with
    | none => exact MethodFrame_log _ _ _
    | some a =>
      simp only
      split
      · split
        · exact MethodFrame_log _ _ _
        · exact MethodFrame_setSpeed p a w _ _ ha
      · exact MethodFrame_refl _ _
  · exact MethodFrame_log _ _ _
  · simp only [Vehicle_Accelerate]
    cases ha : w.mb p 0 with
    | none => exact MethodFrame_log _ _ _
    | some a =>
      simp only
      split
      · exact MethodFrame_setSpeed p a w _ _ ha
      · exact MethodFrame_refl _ _
  · simp only [Vehicle_Brake, log_mb]
    cases ha : w.mb p 0 with
    | none => exact MethodFrame_trans _ _ _ _ (MethodFrame_log _ _ _) (MethodFrame_log _ _ _)
    | some a => exact MethodFrame_setSpeed p a w _ _ ha

/-- `VCALL` in the example program, on any reference and slot, only logs and
sets `CurrentSpeed` of the instance it is called on. -/
theorem VCALL_frame (p k : Nat) (func : String) (args : List Int) (w : World) :
    MethodFrame p w (VCALL RacecarClass p k func args w) := by
  unfold VCALL
  split
  · exact MethodFrame_log _ _ _
  · split
    · exact MethodFrame_trans _ _ _ _ (MethodFrame_log _ _ _) (MethodFrame_log _ _ _)
    · rename_i m hm
      exact MethodFrame_trans _ _ _ _ (MethodFrame_log _ _ _)
        (example_method_frame m p args _ (resolve_example _ m hm))

theorem VehicleInv_log (p a : Nat) (top : Int) (w : World) (e : Event)
    (h : VehicleInv p a top w) : VehicleInv p a top (w.log e) := h

theorem VehicleInv_set (p a : Nat) (top x : Int) (w : World) (e : Event)
    (h : VehicleInv p a top w) (h0 : 0 ≤ x) (h1 : x = 0 ∨ x ≤ top) :
    VehicleInv p a top ((w.log e).setSt a 1 (Val.int x)) := by
  obtain ⟨hmb, htop, _⟩ := h
  refine ⟨hmb, ?_, x, ?_, h0, h1⟩
  · simp [htop]
  · simp

theorem VehicleInv_guard (p a : Nat) (top x : Int) (w : World) (h : VehicleInv p a top w)
    (hg : x > (w.st a 1).toInt ∧ x ≤ (w.st a 0).toInt) : 0 ≤ x ∧ (x = 0 ∨ x ≤ top) := by
  obtain ⟨_, htop, cur, hcur, h0, _⟩ := h
  rw [htop, hcur] at hg
  have e1 : (Val.int cur).toInt = cur := rfl
  have e2 : (Val.int top).toInt = top := rfl
  rw [e1, e2] at hg
  exact ⟨by omega, Or.inr hg.2⟩

/-- Every method of the example keeps the Vehicle-level invariant of
the instance it is called on. -/
theorem example_method_inv (m : Method) (p a : Nat) (top : Int) (args : List Int) (w : World)
    (hm : m = Racecar_Accelerate ∨ m = Car_Accelerate ∨ m = Car_Fuel ∨ m = Vehicle_Accelerate ∨
      m = Vehicle_Brake) (h : VehicleInv p a top w) : VehicleInv p a top (m p args w) := by
  have ha : w.mb p 0 = some a := h.1
  rcases hm with rfl | rfl | rfl | rfl | rfl
  · simp only [Racecar_Accelerate, ha]
    split
    · rename_i hg
      obtain ⟨g0, g1⟩ := VehicleInv_guard p a top _ w h hg
      split
      · exact VehicleInv_log _ _ _ _ _ h
      · split
        · exact VehicleInv_log _ _ _ _ _ h
        · exact VehicleInv_set _ _ _ _ _ _ h g0 g1
    · exact h
  · simp only [Car_Accelerate, ha]
    split
    · rename_i hg
      obtain ⟨g0, g1⟩ := VehicleInv_guard p a top _ w h hg
      split
      · exact VehicleInv_log _ _ _ _ _ h
      · exact VehicleInv_set _ _ _ _ _ _ h g0 g1
    · exact h
  · exact VehicleInv_log _ _ _ _ _ h
  · simp only [Vehicle_Accelerate, ha]
    split
    · rename_i hg
      obtain ⟨g0, g1⟩ := VehicleInv_guard p a top _ w h hg
      exact VehicleInv_set _ _ _ _ _ _ h g0 g1
    · exact h
  · simp only [Vehicle_Brake, log_mb, ha]
    exact VehicleInv_set _ _ _ _ _ _ h (Int.le_refl 0) (Or.inl rfl)

theorem VCALL_inv (p a k : Nat) (top : Int) (func : String) (args : List Int) (w : World)
    (h : VehicleInv p a top w) : VehicleInv p a top (VCALL RacecarClass p k func args w) := by
  unfold VCALL
  split
  · exact VehicleInv_log _ _ _ _ _ h
  · split
    · exact VehicleInv_log _ _ _ _ _ (VehicleInv_log _ _ _ _ _ h)
    · rename_i m hm
      exact example_method_inv m p a top args _ (resolve_example _ m hm)
        (VehicleInv_log _ _ _ _ _ h)

theorem dispatchAll_inv (p a : Nat) (top : Int) (calls : List MethodCall) (w : World)
    (h : VehicleInv p a top w) : VehicleInv p a top (dispatchAll RacecarClass p calls w) := by
  induction calls generalizing w with
  | nil => exact h
  | cons c r ih =>
    apply ih
    cases c with
    | accelerate k speed => exact VCALL_inv p a k top _ _ w h
    | brake k => exact VCALL_inv p a k top _ _ w h

/-- A fresh instance of a class whose root is Vehicle starts with the
configured `TopSpeed` and `CurrentSpeed` 0. -/
theorem NEW_VehicleInv (pre : Chain) (cfg : Cfg) (w : World) :
    ∃ a, VehicleInv w.next a ((cfg.getD pre.length []).getD 0 0)
      (NEW (pre ++ [Vehicle]) cfg w).2 := by
  obtain ⟨a, ha, _, hP⟩ := NEW_populated (pre ++ [Vehicle]) cfg w 0 (by simp)
  have hl : levelInit (pre ++ [Vehicle]) cfg 0 = Vehicle_Init (cfg.getD pre.length []) := by
    simp [levelInit, Vehicle]
  rw [hl] at hP
  have w0 : written (Vehicle_Init (cfg.getD pre.length [])) 0
      = some (Field.val ((cfg.getD pre.length []).getD 0 0)) := rfl
  have w1 : written (Vehicle_Init (cfg.getD pre.length [])) 1 = some (Field.val 0) := rfl
  have h0 := hP 0
  have h1 := hP 1
  rw [w0] at h0
  rw [w1] at h1
  exact ⟨a, ha, h0, 0, h1, Int.le_refl 0, Or.inl rfl⟩

/-! ## Lemmas: a class derived from Car that does not override `Accelerate` -/

/-- A fresh instance of a class derived from Car: its Vehicle-level and
Car-level `State` blocks. -/
theorem NEW_overCar (leaf : ClassDef) (own : List Int) (seats top : Int) (w : World) :
    ∃ a c, (NEW (leaf :: CarClass) [own, [seats], [top]] w).2.mb w.next 0 = some a ∧
      (NEW (leaf :: CarClass) [own, [seats], [top]] w).2.mb w.next 1 = some c ∧
      (NEW (leaf :: CarClass) [own, [seats], [top]] w).2.st a 0 = Val.int top ∧
      (NEW (leaf :: CarClass) [own, [seats], [top]] w).2.st a 1 = Val.int 0 ∧
      (NEW (leaf :: CarClass) [own, [seats], [top]] w).2.st c 0 = Val.int seats := by
  obtain ⟨a, ha, _, hPa⟩ := NEW_populated (leaf :: CarClass) [own, [seats], [top]] w 0
    (by simp [CarClass])
  obtain ⟨c, hc, _, hPc⟩ := NEW_populated (leaf :: CarClass) [own, [seats], [top]] w 1
    (by simp [CarClass])
  have hl0 : levelInit (leaf :: CarClass) [own, [seats], [top]] 0 = Vehicle_Init [top] := by
    simp [levelInit, CarClass, Vehicle]
  have hl1 : levelInit (leaf :: CarClass) [own, [seats], [top]] 1 = Car_Init [seats] := by
    simp [levelInit, CarClass, Car]
  rw [hl0] at hPa
  rw [hl1] at hPc
  have w0 : written (Vehicle_Init [top]) 0 = some (Field.val top) := rfl
  have w1 : written (Vehicle_Init [top]) 1 = some (Field.val 0) := rfl
  have w2 : written (Car_Init [seats]) 0 = some (Field.val seats) := rfl
  have h0 := hPa 0
  have h1 := hPa 1
  have h2 := hPc 0
  rw [w0] at h0
  rw [w1] at h1
  rw [w2] at h2
  exact ⟨a, c, ha, hc, h0, h1, h2⟩

/-- `VCALL` of `Accelerate` where the slot holds `Car_Accelerate`, on
an instance that has a Vehicle-level and a Car-level `State` block. -/
theorem VCALL_Car_Accelerate (leaf : ClassDef) (p k a c : Nat) (x : Int) (v : World)
    (hname : leaf.methods.lookup "Car_Accelerate" = none)
    (hslot : slotOf v p k "Accelerate" = some "Car_Accelerate")
    (ha : v.mb p 0 = some a) (hc : v.mb p 1 = some c) :
    VCALL (leaf :: CarClass) p k "Accelerate" [x] v =
      if (v.st a 1).toInt < x ∧ x ≤ (v.st a 0).toInt then
        ((v.log (Event.method "Car_Accelerate")).log
          (Event.printf "The car with %d seats accelerates to %d km/h.\n"
            [(v.st c 0).toInt, x])).setSt a 1 (Val.int x)
      else v.log (Event.method "Car_Accelerate") := by
  have hres : resolve (leaf :: CarClass) "Car_Accelerate" = some Car_Accelerate := by
    simp [resolve, hname, CarClass, Car, List.lookup]
  unfold VCALL
  rw [hslot]
  simp only [hres]
  rw [Car_Accelerate_eq p a c x _ (by simpa using ha) (by simpa using hc)]
  simp

/-! ## Lemmas: what stays live during a destruction -/

theorem free_live_of_ne (w : World) (a x : Nat) (hx : x ≠ a) (h : x ∈ w.live) :
    x ∈ (w.free a).live := by
  unfold World.free
  split
  · exact (List.mem_erase_of_ne hx).mpr h
  · exact h

theorem freeVal_live_of_ne (w : World) (v : Val) (x : Nat) (hx : v ≠ Val.ptr x)
    (h : x ∈ w.live) : x ∈ (w.freeVal v).live := by
  cases v with
  | ptr b => exact free_live_of_ne w b x (fun e => hx (by rw [e])) h
  | int i =>
    simp only [World.freeVal]
    split
    · exact h
    · exact h

theorem freePtr_live_of_ne (w : World) (o : Option Nat) (x : Nat) (hx : o ≠ some x)
    (h : x ∈ w.live) : x ∈ (w.freePtr o).live := by
  cases o with
  | none => exact h
  | some a => exact free_live_of_ne w a x (fun e => hx (by rw [e])) h

theorem runDeinit_live_of_ne (p cls : Nat) (l : List Nat) (w : World) (x : Nat)
    (hptr : ∀ s, w.mb p cls = some s → ∀ i, w.st s i ≠ Val.ptr x) (h : x ∈ w.live) :
    x ∈ (runDeinit p cls l w).live := by
  induction l generalizing w with
  | nil => simpa [runDeinit] using h
  | cons i r ih =>
    cases hm : w.mb p cls with
    | none =>
      simp only [runDeinit, hm]
      exact ih _ (by simpa using hptr) (by simpa using h)
    | some a =>
      simp only [runDeinit, hm]
      exact ih _ (by simpa using hptr) (freeVal_live_of_ne w _ x (hptr a hm i) h)

/-- A destructor leaves live every block that is neither a `State` block of
the instance nor stored in one. -/
theorem Dtor_live_of_ne (ch : Chain) (p : Nat) (w : World) (x : Nat)
    (hmb : ∀ j, j < ch.length → w.mb p j ≠ some x)
    (hptr : ∀ j, j < ch.length → ∀ s, w.mb p j = some s → ∀ i, w.st s i ≠ Val.ptr x)
    (h : x ∈ w.live) : x ∈ (Dtor ch p w).live := by
  induction ch generalizing w with
  | nil => simpa [Dtor] using h
  | cons d bases ih =>
    have h1 := ih (w.log (Event.call Routine.Dtor bases.length))
      (fun j hj => hmb j (by simp; omega)) (fun j hj => hptr j (by simp; omega)) h
    have hmbk : (Dtor bases p (w.log (Event.call Routine.Dtor bases.length))).mb p bases.length
        = w.mb p bases.length := by
      rw [Dtor_mb]; simp
    have h2 : x ∈ (Deinit d bases.length p
        (Dtor bases p (w.log (Event.call Routine.Dtor bases.length)))).live := by
      apply runDeinit_live_of_ne
      · intro s hs i
        rw [log_mb, hmbk] at hs
        rw [log_st, (Dtor_frame _ _ _).1, log_st]
        exact hptr bases.length (by simp) s hs i
      · exact h1
    simp only [Dtor, setMb_live]
    apply freePtr_live_of_ne _ _ _ _ h2
    simp only [Deinit, (runDeinit_frame _ _ _ _).1, log_mb, hmbk]
    exact hmb bases.length (by simp)

/-- Every address stored in a `State` block of a constructed instance was
allocated by the constructor. -/
theorem Ctor_ptr_lo (ch : Chain) (p t : Nat) (cfg : Cfg) (w : World) (j s i b : Nat)
    (hj : j < ch.length) (hs : (Ctor ch p t cfg w).mb p j = some s)
    (hb : (Ctor ch p t cfg w).st s i = Val.ptr b) : w.next ≤ b := by
  induction ch generalizing w cfg with
  | nil => simp at hj
  | cons d bases ih =>
    have hle := Ctor_next_le bases p t cfg.tail (w.log (Event.call Routine.Ctor bases.length))
    simp only [log_next] at hle
    rw [Ctor_cons] at hs hb
    rw [step_mb] at hs
    by_cases hjk : j = bases.length
    · rw [if_pos hjk] at hs
      cases hs
      have := runInit_ptr
        (Ctor bases p t cfg.tail (w.log (Event.call Routine.Ctor bases.length))).next
        (d.Init (cfg.headD []))
        (stateReady (Ctor bases p t cfg.tail (w.log (Event.call Routine.Ctor bases.length)))
          p bases.length t)
        ((Ctor bases p t cfg.tail (w.log (Event.call Routine.Ctor bases.length))).next + 1)
        (by simp) (by intro i b hb; simp at hb) i b hb
      omega
    · rw [if_neg hjk] at hs
      have hlt : j < bases.length := by simp only [List.length_cons] at hj; omega
      obtain ⟨o1, _, _⟩ := Ctor_owned bases p t 0 cfg.tail
        (w.log (Event.call Routine.Ctor bases.length)) (Nat.zero_le _)
      obtain ⟨a2, ha2, _, halt⟩ := o1 j hlt
      rw [hs] at ha2
      cases ha2
      rw [runInit_st_other _ _ _ _ (Nat.ne_of_lt halt), stateReady_st,
        Function.update_noteq (Nat.ne_of_lt halt)] at hb
      have := ih cfg.tail (w.log (Event.call Routine.Ctor bases.length)) hlt hs hb
      simpa using this

theorem NEW_inst_live (ch : Chain) (cfg : Cfg) (w : World) :
    w.next ∈ (NEW ch cfg w).2.live := by
  obtain ⟨v, pre, hv, _, hlive, _, _, _⟩ := NEW_as_Ctor ch cfg w
  rw [hv, setDel_live]
  exact Ctor_live ch _ _ cfg v _ (by rw [hlive]; exact List.mem_cons_self _ _)

theorem NEW_ptr_lo (ch : Chain) (cfg : Cfg) (w : World) (j s i b : Nat) (hj : j < ch.length)
    (hs : (NEW ch cfg w).2.mb w.next j = some s) (hb : (NEW ch cfg w).2.st s i = Val.ptr b) :
    w.next + 1 ≤ b := by
  obtain ⟨v, pre, hv, hnext, _, _, _, _⟩ := NEW_as_Ctor ch cfg w
  rw [hv] at hs hb
  have := Ctor_ptr_lo ch w.next (depth ch) cfg v j s i b hj (by simpa using hs)
    (by simpa using hb)
  omega

/-! ## Lemmas: the order of a destruction -/

theorem free_trace_head (w : World) (a : Nat) :
    ∃ T, (w.free a).trace = w.trace ++ Event.free a :: T := by
  unfold World.free
  split
  · exact ⟨[], rfl⟩
  · exact ⟨[Event.ub], rfl⟩

theorem runDeinit_kinds (p cls : Nat) (l : List Nat) (w : World) :
    ∃ E, (runDeinit p cls l w).trace = w.trace ++ E ∧
      ∀ e, e ∈ E → e = Event.ub ∨
        ∃ s i b, w.mb p cls = some s ∧ w.st s i = Val.ptr b ∧ e = Event.free b := by
  induction l generalizing w with
  | nil => exact ⟨[], by simp [runDeinit]⟩
  | cons i r ih =>
    cases hm : w.mb p cls with
    | none =>
      obtain ⟨E, hE, hk⟩ := ih (w.log Event.ub)
      refine ⟨Event.ub :: E, by simp [runDeinit, hm, hE], ?_⟩
      intro e he
      rcases List.mem_cons.mp he with h | h
      · exact Or.inl h
      · rcases hk e h with h1 | ⟨s, i2, b, h1, _, _⟩
        · exact Or.inl h1
        · rw [log_mb, hm] at h1; cases h1
    | some a =>
      obtain ⟨E, hE, hk⟩ := ih (w.freeVal (w.st a i))
      have hfv : ∃ F, (w.freeVal (w.st a i)).trace = w.trace ++ F ∧
          ∀ e, e ∈ F → e = Event.ub ∨ ∃ b, w.st a i = Val.ptr b ∧ e = Event.free b := by
        cases hv : w.st a i with
        | ptr b =>
          simp only [World.freeVal, World.free]
          split
          · exact ⟨[Event.free b], rfl, by
              intro e he; exact Or.inr ⟨b, rfl, List.mem_singleton.mp he⟩⟩
          · refine ⟨[Event.free b, Event.ub], rfl, ?_⟩
            intro e he
            simp only [List.mem_cons, List.mem_singleton, List.not_mem_nil, or_false] at he
            rcases he with h | h
            · exact Or.inr ⟨b, rfl, h⟩
            · exact Or.inl h
        | int x =>
          simp only [World.freeVal]
          split
          · exact ⟨[], by simp, by intro e he; simp at he⟩
          · exact ⟨[Event.ub], rfl, by intro e he; exact Or.inl (List.mem_singleton.mp he)⟩
      obtain ⟨F, hF, hFk⟩ := hfv
      refine ⟨F ++ E, by simp [runDeinit, hm, hE, hF], ?_⟩
      intro e he
      rcases List.mem_append.mp he with h | h
      · rcases hFk e h with h1 | ⟨b, h1, h2⟩
        · exact Or.inl h1
        · exact Or.inr ⟨a, i, b, rfl, h1, h2⟩
      · rcases hk e h with h1 | ⟨s, i2, b, h1, h2, h3⟩
        · exact Or.inl h1
        · exact Or.inr ⟨s, i2, b, by simpa [hm] using h1, by simpa using h2, h3⟩

/-- The trace of the destructor of a class: the base class's destructor, then
the class's `_Deinit` and its releases, then the release of the `State` block. -/
theorem Dtor_cons_trace (d : ClassDef) (bases : Chain) (p : Nat) (w : World) :
    ∃ D F, (Dtor (d :: bases) p w).trace =
        (Dtor bases p (w.log (Event.call Routine.Dtor bases.length))).trace ++
          Event.call Routine.Deinit bases.length :: D ++ F ∧
      (∀ e, e ∈ D → e = Event.ub ∨
        ∃ s i b, w.mb p bases.length = some s ∧ w.st s i = Val.ptr b ∧ e = Event.free b) ∧
      (∀ a, w.mb p bases.length = some a → ∃ T, F = Event.free a :: T) := by
  have hmbk : (Dtor bases p (w.log (Event.call Routine.Dtor bases.length))).mb p bases.length
      = w.mb p bases.length := by
    rw [Dtor_mb]; simp
  obtain ⟨D, hD, hk⟩ := runDeinit_kinds p bases.length d.Deinit
    ((Dtor bases p (w.log (Event.call Routine.Dtor bases.length))).log
      (Event.call Routine.Deinit bases.length))
  have hF : ∃ F, ((runDeinit p bases.length d.Deinit
      ((Dtor bases p (w.log (Event.call Routine.Dtor bases.length))).log
        (Event.call Routine.Deinit bases.length))).freePtr (w.mb p bases.length)).trace
      = (runDeinit p bases.length d.Deinit
      ((Dtor bases p (w.log (Event.call Routine.Dtor bases.length))).log
        (Event.call Routine.Deinit bases.length))).trace ++ F ∧
      ∀ a, w.mb p bases.length = some a → ∃ T, F = Event.free a :: T := by
    cases hm : w.mb p bases.length with
    | none => exact ⟨[], by simp [World.freePtr], by intro a ha; cases ha⟩
    | some a =>
      obtain ⟨T, hT⟩ := free_trace_head (runDeinit p bases.length d.Deinit
        ((Dtor bases p (w.log (Event.call Routine.Dtor bases.length))).log
          (Event.call Routine.Deinit bases.length))) a
      exact ⟨Event.free a :: T, hT, by intro a2 ha2; cases ha2; exact ⟨T, rfl⟩⟩
  obtain ⟨F, hF, hFa⟩ := hF
  refine ⟨D, F, ?_, ?_, hFa⟩
  · simp only [Dtor, Deinit, setMb_trace, (runDeinit_frame _ _ _ _).1, log_mb, hmbk]
    rw [hF, hD]
    simp
  · intro e he
    rcases hk e he with h | ⟨s, i, b, h1, h2, h3⟩
    · exact Or.inl h
    · refine Or.inr ⟨s, i, b, ?_, ?_, h3⟩
      · rw [log_mb, hmbk] at h1; exact h1
      · rw [log_st, (Dtor_frame _ _ _).1, log_st] at h2; exact h2

/-- Within a destructor, the `_Deinit` of a level runs before the level's
`State` block is released, releases only addresses stored in that block, and is
followed at once by the release of the block. -/
theorem Dtor_level (ch : Chain) (p : Nat) (w : World) (k a : Nat) (hk : k < ch.length)
    (ha : w.mb p k = some a)
    (hother : ∀ j, j < ch.length → j ≠ k → w.mb p j ≠ some a)
    (hptr : ∀ j, j < ch.length → ∀ s, w.mb p j = some s → ∀ i, w.st s i ≠ Val.ptr a) :
    ∃ E1 D E2, (Dtor ch p w).trace =
        w.trace ++ E1 ++ Event.call Routine.Deinit k :: D ++ Event.free a :: E2 ∧
      Event.free a ∉ E1 ∧ Event.free a ∉ D ∧
      ∀ e, e ∈ D → e = Event.ub ∨ ∃ b, e = Event.free b := by
  induction ch generalizing w with
  | nil => simp at hk
  | cons d bases ih =>
    obtain ⟨D, F, htr, hD, hF⟩ := Dtor_cons_trace d bases p w
    by_cases hkn : k = bases.length
    · subst hkn
      obtain ⟨Eb, hEb, hz, _⟩ := Dtor_count bases p
        (w.log (Event.call Routine.Dtor bases.length)) a
        (fun j hj s hs i => hptr j (by simp; omega) s hs i)
      have hcount := hz (fun j hj => hother j (by simp; omega) (by omega))
      obtain ⟨T, hT⟩ := hF a ha
      refine ⟨Event.call Routine.Dtor bases.length :: Eb, D, T, ?_, ?_, ?_, ?_⟩
      · rw [htr, hEb, hT]; simp
      · intro hmem
        rcases List.mem_cons.mp hmem with h | h
        · cases h
        · exact absurd h (List.count_eq_zero.mp hcount)
      · intro hmem
        rcases hD _ hmem with h | ⟨s, i, b, h1, h2, h3⟩
        · cases h
        · cases h3
          exact hptr bases.length (by simp) s h1 i h2
      · intro e he
        rcases hD e he with h | ⟨s, i, b, _, _, h3⟩
        · exact Or.inl h
        · exact Or.inr ⟨b, h3⟩
    · have hlt : k < bases.length := by simp only [List.length_cons] at hk; omega
      obtain ⟨E1, D1, E2, h1, h2, h3, h4⟩ := ih (w.log (Event.call Routine.Dtor bases.length))
        hlt ha (fun j hj hne => hother j (by simp; omega) hne)
        (fun j hj s hs i => hptr j (by simp; omega) s hs i)
      refine ⟨Event.call Routine.Dtor bases.length :: E1, D1,
        E2 ++ Event.call Routine.Deinit bases.length :: D ++ F, ?_, ?_, h3, h4⟩
      · rw [htr, h1]; simp
      · intro hmem
        rcases List.mem_cons.mp hmem with h | h
        · cases h
        · exact h2 h

theorem free_trace_of_live (w : World) (a : Nat) (h : a ∈ w.live) :
    (w.free a).trace = w.trace ++ [Event.free a] := by
  simp [World.free, h]

/-- The destructor chain of a fresh instance: it runs every level's `_Deinit`,
releases every level's `State` block, does not release the instance, and leaves
the instance live. -/
theorem Dtor_of_NEW (ch : Chain) (cfg : Cfg) (w v : World)
    (hmb : v.mb = (NEW ch cfg w).2.mb) (hst : v.st = (NEW ch cfg w).2.st)
    (hlive : v.live = (NEW ch cfg w).2.live) :
    ∃ E, (Dtor ch w.next v).trace = v.trace ++ E ∧ Event.free w.next ∉ E ∧
      w.next ∈ (Dtor ch w.next v).live ∧
      ∀ j, j < ch.length → Event.call Routine.Deinit j ∈ E ∧
        ∃ a, (NEW ch cfg w).2.mb w.next j = some a ∧ Event.free a ∈ E := by
  obtain ⟨o1, o2, o3⟩ := NEW_owned ch cfg w
  have hno : ∀ m, m < ch.length → v.mb w.next m ≠ some w.next := by
    intro m hm hmm
    obtain ⟨a, ha, hlo, _⟩ := o1 m hm
    rw [hmb, ha] at hmm
    cases hmm
    omega
  have hptr : ∀ m, m < ch.length → ∀ s, v.mb w.next m = some s → ∀ i,
      v.st s i ≠ Val.ptr w.next := by
    intro m hm s hs i hsi
    rw [hmb] at hs
    rw [hst] at hsi
    have := NEW_ptr_lo ch cfg w m s i w.next hm hs hsi
    omega
  obtain ⟨E, hE, hz, _⟩ := Dtor_count ch w.next v w.next hptr
  obtain ⟨E2, hE2, _, hall⟩ := Dtor_covers ch w.next v
  have hEE : E2 = E := List.append_cancel_left (hE2.symm.trans hE)
  refine ⟨E, hE, List.count_eq_zero.mp (hz hno), ?_, ?_⟩
  · apply Dtor_live_of_ne ch w.next v w.next hno hptr
    rw [hlive]
    exact NEW_inst_live ch cfg w
  · intro j hj
    refine ⟨by rw [← hEE]; exact (hall j hj).2, ?_⟩
    obtain ⟨a, ha, _, _⟩ := o1 j hj
    obtain ⟨E3, hE3, _, hone⟩ := Dtor_count ch w.next v a
      (by
        intro m hm s hs i hsi
        rw [hmb] at hs
        rw [hst] at hsi
        exact (o3 m hm s hs i a hsi).2 j hj ha)
    have hE3E : E3 = E := List.append_cancel_left (hE3.symm.trans hE)
    have hc := hone j hj (by rw [hmb]; exact ha)
      (fun m hm hne hma => hne (o2 m j a hm hj (by rw [← hmb]; exact hma) ha))
    refine ⟨a, ha, ?_⟩
    rw [← hE3E]
    exact List.count_pos_iff.mp (by rw [hc]; exact Nat.one_pos)

/-! ## Lemmas: what `NEW` leaves of the rest of the world -/

theorem Ctor_mb_other (ch : Chain) (p t : Nat) (cfg : Cfg) (w : World) (q : Nat) (h : q ≠ p) :
    (Ctor ch p t cfg w).mb q = w.mb q := by
  induction ch generalizing w cfg with
  | nil => simp [Ctor]
  | cons d bases ih =>
    rw [Ctor_cons, runInit_mb, stateReady_mb, Function.update_noteq h,
      ih cfg.tail (w.log (Event.call Routine.Ctor bases.length))]
    simp

theorem NEW_mb_other (ch : Chain) (cfg : Cfg) (w : World) (q : Nat) (h : q ≠ w.next) :
    (NEW ch cfg w).2.mb q = w.mb q := by
  obtain ⟨v, hv, _, hmb, _, _, _⟩ := NewInner_eq ch w.next cfg
    (((w.log (Event.call Routine.NewOuter (depth ch))).calloc Kind.inst).2.zeroInst w.next)
  simp only [NEW, NewOuter, log_next, setDel_mb]
  rw [hv, Ctor_mb_other _ _ _ _ _ _ h, hmb]
  simp [Function.update_noteq h]

theorem NEW_del_other (ch : Chain) (cfg : Cfg) (w : World) (q : Nat) (h : q ≠ w.next) :
    (NEW ch cfg w).2.del q = w.del q := by
  simp only [NEW, NewOuter, log_next, setDel_del, Function.update_noteq h]
  rw [NewInner_del]
  simp [Function.update_noteq h]

theorem NEW_vt_other (ch : Chain) (cfg : Cfg) (w : World) (q j : Nat) (h : q ≠ w.next) :
    (NEW ch cfg w).2.vt q j = w.vt q j := by
  simp only [NEW, NewOuter, log_next, setDel_vt]
  rw [NewInner_vt, if_neg (fun hc => h hc.1)]
  simp [Function.update_noteq h]

theorem NEW_st_lt (ch : Chain) (cfg : Cfg) (w : World) (s : Nat) (h : s < w.next) :
    (NEW ch cfg w).2.st s = w.st s := by
  obtain ⟨v, pre, hv, hnext, _, hst, _, _⟩ := NEW_as_Ctor ch cfg w
  rw [hv, setDel_st, Ctor_st_lt _ _ _ _ _ _ (by omega), hst]

theorem NEW_live_mono (ch : Chain) (cfg : Cfg) (w : World) (x : Nat) (h : x ∈ w.live) :
    x ∈ (NEW ch cfg w).2.live := by
  obtain ⟨v, pre, hv, _, hlive, _, _, _⟩ := NEW_as_Ctor ch cfg w
  rw [hv, setDel_live]
  exact Ctor_live _ _ _ _ _ _ (by rw [hlive]; exact List.mem_cons_of_mem _ h)

theorem NEW_next_lt (ch : Chain) (cfg : Cfg) (w : World) : w.next < (NEW ch cfg w).2.next := by
  obtain ⟨v, pre, hv, hnext, _, _, _, _⟩ := NEW_as_Ctor ch cfg w
  rw [hv, setDel_next]
  have := Ctor_next_le ch w.next (depth ch) cfg v
  omega

theorem NEW_flag_other (ch : Chain) (cfg : Cfg) (w : World) (c : Nat) (h : c ≠ depth ch) :
    (NEW ch cfg w).2.IsVtableInit c = w.IsVtableInit c := by
  simp only [NEW, NewOuter, setDel_IsVtableInit]
  rw [NewInner_flag_other _ _ _ _ _ h]
  simp

theorem NEW_table_other (ch : Chain) (cfg : Cfg) (w : World) (c : Nat) (h : c ≠ depth ch) :
    (NEW ch cfg w).2.VtableDefault c = w.VtableDefault c := by
  simp only [NEW, NewOuter, setDel_VtableDefault]
  rw [NewInner_table_other _ _ _ _ _ h]
  simp

theorem NEW_table_built (ch : Chain) (cfg : Cfg) (w : World)
    (h : w.IsVtableInit (depth ch) = true) :
    (NEW ch cfg w).2.VtableDefault (depth ch) = w.VtableDefault (depth ch) := by
  simp only [NEW, NewOuter, setDel_VtableDefault]
  rw [NewInner_table, if_pos (by simpa using h)]
  simp

theorem VtableInitTree_table_at (ch : Chain) (t : Nat) (w v : World)
    (h : w.VtableDefault t = v.VtableDefault t) :
    (VtableInitTree ch t w).VtableDefault t = (VtableInitTree ch t v).VtableDefault t := by
  funext x
  rw [VtableInitTree_slot, VtableInitTree_slot, h]

/-! ## Lemmas: the invariant of a running program -/

theorem Inv_new (prog : Chain) (s : Sys) (c : Nat) (cfg : Cfg) (hc : c < prog.length)
    (h : Inv prog s) :
    Inv prog { world := (NEW (classOf prog c) cfg s.world).2,
               insts := ((NEW (classOf prog c) cfg s.world).1, c) :: s.insts } := by
  obtain ⟨i1, i2, i3, i4, i5, i6⟩ := h
  obtain ⟨hdep, hnil⟩ := classOf_depth prog c hc
  have hlen : (classOf prog c).length = c + 1 := by
    have := List.length_pos.mpr hnil
    simp only [depth] at hdep
    omega
  obtain ⟨o1, o2, o3⟩ := NEW_owned (classOf prog c) cfg s.world
  have hnext := NEW_next_lt (classOf prog c) cfg s.world
  rw [hlen] at o1 o2 o3
  rw [NEW_fst]
  -- every block of the new world belongs to the new instance or to an old one
  have hcase : ∀ q d j a, (q, d) ∈ (s.world.next, c) :: s.insts → j ≤ d →
      (NEW (classOf prog c) cfg s.world).2.mb q j = some a →
      (s.world.next = q ∧ c = d ∧ s.world.next + 1 ≤ a ∧
        a < (NEW (classOf prog c) cfg s.world).2.next) ∨
      ((q, d) ∈ s.insts ∧ q < s.world.next ∧ s.world.mb q j = some a ∧ a < s.world.next) := by
    intro q d j a hq hj ha
    rcases List.mem_cons.mp hq with hq | hq
    · cases hq
      obtain ⟨a2, ha2, hlo, hhi⟩ := o1 j (by omega)
      rw [ha] at ha2
      cases ha2
      exact Or.inl ⟨rfl, rfl, hlo, hhi⟩
    · have hqlt := (i1 q d hq).1
      rw [NEW_mb_other _ _ _ _ (Nat.ne_of_lt hqlt)] at ha
      obtain ⟨_, a2, ha2, hlt, _⟩ := i2 q d j hq hj
      rw [ha] at ha2
      cases ha2
      exact Or.inr ⟨hq, hqlt, ha, hlt⟩
  refine ⟨?_, ?_, ?_, ?_, ?_, ?_⟩
  · intro p d hp
    rcases List.mem_cons.mp hp with hp | hp
    · cases hp
      refine ⟨hnext, hc, ?_, ?_⟩
      · have := NEW_del (classOf prog c) cfg s.world
        rw [hdep] at this
        exact this
      · have := NEW_flag (classOf prog c) cfg s.world
        rw [hdep] at this
        exact this
    · obtain ⟨h1, h2, h3, h4⟩ := i1 p d hp
      refine ⟨by show p < (NEW (classOf prog c) cfg s.world).2.next; omega, h2, ?_, ?_⟩
      · show (NEW (classOf prog c) cfg s.world).2.del p = some d
        rw [NEW_del_other _ _ _ _ (Nat.ne_of_lt h1)]; exact h3
      · show (NEW (classOf prog c) cfg s.world).2.IsVtableInit d = true
        by_cases hdc : d = depth (classOf prog c)
        · rw [hdc]; exact NEW_flag _ _ _
        · rw [NEW_flag_other _ _ _ _ hdc]; exact h4
  · intro p d j hp hj
    show (NEW (classOf prog c) cfg s.world).2.vt p j = some d ∧
      ∃ a, (NEW (classOf prog c) cfg s.world).2.mb p j = some a ∧
        a < (NEW (classOf prog c) cfg s.world).2.next ∧
        a ∈ (NEW (classOf prog c) cfg s.world).2.live
    rcases List.mem_cons.mp hp with hp | hp
    · cases hp
      obtain ⟨a, ha, halive, _⟩ := NEW_populated (classOf prog c) cfg s.world j
        (by rw [hlen]; omega)
      obtain ⟨a2, ha2, _, hhi⟩ := o1 j (by omega)
      rw [ha] at ha2
      cases ha2
      refine ⟨?_, a, ha, hhi, halive⟩
      rw [NEW_vt, if_pos (by rw [hlen]; omega), hdep]
    · obtain ⟨h1, _, _, _⟩ := i1 p d hp
      obtain ⟨hvt, a, ha, hlt, halive⟩ := i2 p d j hp hj
      refine ⟨by rw [NEW_vt_other _ _ _ _ _ (Nat.ne_of_lt h1)]; exact hvt, a, ?_, by omega,
        NEW_live_mono _ _ _ _ halive⟩
      rw [NEW_mb_other _ _ _ _ (Nat.ne_of_lt h1)]; exact ha
  · intro p d q e j k a hp hq hj hk hpa hqa
    rcases hcase p d j a hp hj hpa with ⟨rfl, rfl, hlo, _⟩ | ⟨hp2, _, hpa2, hlt⟩
    · rcases hcase q e k a hq hk hqa with ⟨rfl, rfl, _, _⟩ | ⟨_, _, _, hlt2⟩
      · exact ⟨rfl, o2 j k a (by omega) (by omega) hpa hqa⟩
      · omega
    · rcases hcase q e k a hq hk hqa with ⟨rfl, rfl, hlo, _⟩ | ⟨hq2, _, hqa2, _⟩
      · omega
      · exact i3 p d q e j k a hp2 hq2 hj hk hpa2 hqa2
  · intro p d j a i b hp hj hpa hb
    show b < (NEW (classOf prog c) cfg s.world).2.next ∧ ∀ q e k,
      (q, e) ∈ (s.world.next, c) :: s.insts → k ≤ e →
        (NEW (classOf prog c) cfg s.world).2.mb q k ≠ some b
    rcases hcase p d j a hp hj hpa with ⟨rfl, rfl, hlo, _⟩ | ⟨hp2, _, hpa2, hlt⟩
    · obtain ⟨hb1, hb2⟩ := o3 j (by omega) a hpa i b hb
      have hb3 := NEW_ptr_lo (classOf prog c) cfg s.world j a i b (by rw [hlen]; omega) hpa hb
      refine ⟨hb1, ?_⟩
      intro q e k hq hk hqb
      rcases hcase q e k b hq hk hqb with ⟨rfl, rfl, _, _⟩ | ⟨_, _, _, hlt2⟩
      · exact hb2 k (by omega) hqb
      · omega
    · rw [NEW_st_lt _ _ _ _ hlt] at hb
      obtain ⟨hb1, hb2⟩ := i4 p d j a i b hp2 hj hpa2 hb
      refine ⟨by omega, ?_⟩
      intro q e k hq hk hqb
      rcases hcase q e k b hq hk hqb with ⟨rfl, rfl, hlo, _⟩ | ⟨hq2, _, hqb2, _⟩
      · omega
      · exact hb2 q e k hq2 hk hqb2
  · intro p d q e j hp hq hj hqp
    have hplt : p ≤ s.world.next := by
      rcases List.mem_cons.mp hp with hp | hp
      · cases hp; exact Nat.le_refl _
      · exact Nat.le_of_lt (i1 p d hp).1
    rcases hcase q e j p hq hj hqp with ⟨rfl, rfl, hlo, _⟩ | ⟨hq2, _, hqp2, hlt⟩
    · omega
    · rcases List.mem_cons.mp hp with hp | hp
      · cases hp; omega
      · exact i5 p d q e j hp hq2 hj hqp2
  · intro c2 hc2
    show ((NEW (classOf prog c) cfg s.world).2.IsVtableInit c2 = true →
        (NEW (classOf prog c) cfg s.world).2.VtableDefault c2 = builtTable (classOf prog c2)) ∧
      ((NEW (classOf prog c) cfg s.world).2.IsVtableInit c2 = false →
        (NEW (classOf prog c) cfg s.world).2.VtableDefault c2 = fun _ => none)
    obtain ⟨t1, t2⟩ := i6 c2 hc2
    by_cases hcc : c2 = c
    · subst hcc
      constructor
      · intro _
        by_cases hf : s.world.IsVtableInit c2 = true
        · have := NEW_table_built (classOf prog c2) cfg s.world (by rw [hdep]; exact hf)
          rw [hdep] at this
          rw [this]
          exact t1 hf
        · have hff : s.world.IsVtableInit c2 = false := by simpa using hf
          have := NEW_table_first (classOf prog c2) cfg s.world (by rw [hdep]; exact hff)
          rw [hdep] at this
          rw [this, builtTable, hdep]
          apply VtableInitTree_table_at
          rw [t2 hff]
          rfl
      · intro hf
        have := NEW_flag (classOf prog c2) cfg s.world
        rw [hdep, hf] at this
        cases this
    · have hne : c2 ≠ depth (classOf prog c) := by rw [hdep]; exact hcc
      rw [NEW_flag_other _ _ _ _ hne, NEW_table_other _ _ _ _ hne]
      exact ⟨t1, t2⟩

/-- What `DELETE` of an instance of the class at depth `c` changes: it nulls
the instance's `State` references and releases only the instance, its `State`
blocks and addresses stored in them. -/
theorem DELETE_frame (prog : Chain) (p c : Nat) (w : World) (hdel : w.del p = some c)
    (hc : c < prog.length) :
    (DELETE prog p w).next = w.next ∧ (DELETE prog p w).del = w.del ∧
    (DELETE prog p w).vt = w.vt ∧ (DELETE prog p w).st = w.st ∧
    (DELETE prog p w).IsVtableInit = w.IsVtableInit ∧
    (DELETE prog p w).VtableDefault = w.VtableDefault ∧
    (∀ q j, (DELETE prog p w).mb q j = if q = p ∧ j ≤ c then none else w.mb q j) ∧
    (∀ x, x ∈ w.live → x ≠ p → (∀ j, j ≤ c → w.mb p j ≠ some x) →
      (∀ j, j ≤ c → ∀ s, w.mb p j = some s → ∀ i, w.st s i ≠ Val.ptr x) →
      x ∈ (DELETE prog p w).live) := by
  obtain ⟨hdep, hnil⟩ := classOf_depth prog c hc
  have hlen : (classOf prog c).length = c + 1 := by
    have := List.length_pos.mpr hnil
    simp only [depth] at hdep
    omega
  have heq : DELETE prog p w = (Dtor (classOf prog c) p (((w.log (Event.call Routine.Delete
      (depth (classOf prog c)))).log (Event.call Routine.DeleteOuter
      (depth (classOf prog c)))).log (Event.call Routine.DeleteInner
      (depth (classOf prog c))))).free p := by
    simp [DELETE, hdel, Delete, DeleteOuter, DeleteInner]
  rw [heq]
  obtain ⟨f1, f2, f3, f4, f5, f6⟩ := Dtor_frame (classOf prog c) p
    (((w.log (Event.call Routine.Delete (depth (classOf prog c)))).log
      (Event.call Routine.DeleteOuter (depth (classOf prog c)))).log
      (Event.call Routine.DeleteInner (depth (classOf prog c))))
  refine ⟨by simp [f4], by simp [f2], by simp [f3], by simp [f1], by simp [f5], by simp [f6],
    ?_, ?_⟩
  · intro q j
    rw [free_mb, Dtor_mb, hlen]
    have : j < c + 1 ↔ j ≤ c := Nat.lt_succ_iff
    simp [this]
  · intro x hx hxp hmb hptr
    apply free_live_of_ne _ _ _ hxp
    apply Dtor_live_of_ne
    · intro j hj
      exact hmb j (by rw [hlen] at hj; omega)
    · intro j hj s hs i
      exact hptr j (by rw [hlen] at hj; omega) s hs i
    · exact hx

theorem Inv_delete (prog : Chain) (s : Sys) (p : Nat) (hp : p ∈ s.insts.map Prod.fst)
    (h : Inv prog s) :
    Inv prog { world := DELETE prog p s.world,
               insts := s.insts.filter (fun x => x.1 ≠ p) } := by
  obtain ⟨i1, i2, i3, i4, i5, i6⟩ := h
  obtain ⟨⟨p2, c⟩, hpc, hp2⟩ := List.mem_map.mp hp
  simp only at hp2
  subst hp2
  obtain ⟨_, hc, hdel, _⟩ := i1 p2 c hpc
  obtain ⟨d1, d2, d3, d4, d5, d6, d7, d8⟩ := DELETE_frame prog p2 c s.world hdel hc
  have hmem : ∀ q d, (q, d) ∈ s.insts.filter (fun x => x.1 ≠ p2) →
      (q, d) ∈ s.insts ∧ q ≠ p2 := by
    intro q d hq
    have := List.mem_filter.mp hq
    exact ⟨this.1, by simpa using this.2⟩
  have hmb : ∀ q j, q ≠ p2 → (DELETE prog p2 s.world).mb q j = s.world.mb q j := by
    intro q j hq
    rw [d7, if_neg (fun hc => hq hc.1)]
  refine ⟨?_, ?_, ?_, ?_, ?_, ?_⟩
  · intro q d hq
    obtain ⟨hq1, hq2⟩ := hmem q d hq
    obtain ⟨h1, h2, h3, h4⟩ := i1 q d hq1
    exact ⟨by show q < (DELETE prog p2 s.world).next; rw [d1]; exact h1, h2,
      by show (DELETE prog p2 s.world).del q = some d; rw [d2]; exact h3,
      by show (DELETE prog p2 s.world).IsVtableInit d = true; rw [d5]; exact h4⟩
  · intro q d j hq hj
    obtain ⟨hq1, hq2⟩ := hmem q d hq
    obtain ⟨hvt, a, ha, hlt, halive⟩ := i2 q d j hq1 hj
    show (DELETE prog p2 s.world).vt q j = some d ∧
      ∃ a, (DELETE prog p2 s.world).mb q j = some a ∧ a < (DELETE prog p2 s.world).next ∧
        a ∈ (DELETE prog p2 s.world).live
    rw [d3, d1, hmb q j hq2]
    refine ⟨hvt, a, ha, hlt, ?_⟩
    apply d8 a halive
    · intro hap
      exact i5 p2 c q d j hpc hq1 hj (by rw [ha, hap])
    · intro m hm hma
      exact hq2 (i3 p2 c q d m j a hpc hq1 hm hj hma ha).1.symm
    · intro m hm b hb i hbi
      exact (i4 p2 c m b i a hpc hm hb hbi).2 q d j hq1 hj ha
  · intro q d r e j k a hq hr hj hk hqa hra
    obtain ⟨hq1, hq2⟩ := hmem q d hq
    obtain ⟨hr1, hr2⟩ := hmem r e hr
    exact i3 q d r e j k a hq1 hr1 hj hk (by rw [← hmb q j hq2]; exact hqa)
      (by rw [← hmb r k hr2]; exact hra)
  · intro q d j a i b hq hj hqa hb
    obtain ⟨hq1, hq2⟩ := hmem q d hq
    have hqa2 : s.world.mb q j = some a := by rw [← hmb q j hq2]; exact hqa
    have hb2 : s.world.st a i = Val.ptr b := by rw [← d4]; exact hb
    obtain ⟨hb3, hb4⟩ := i4 q d j a i b hq1 hj hqa2 hb2
    refine ⟨by show b < (DELETE prog p2 s.world).next; rw [d1]; exact hb3, ?_⟩
    intro r e k hr hk hrb
    obtain ⟨hr1, hr2⟩ := hmem r e hr
    exact hb4 r e k hr1 hk (by rw [← hmb r k hr2]; exact hrb)
  · intro q d r e j hq hr hj hrq
    obtain ⟨hq1, _⟩ := hmem q d hq
    obtain ⟨hr1, hr2⟩ := hmem r e hr
    exact i5 q d r e j hq1 hr1 hj (by rw [← hmb r j hr2]; exact hrq)
  · intro c2 hc2
    show ((DELETE prog p2 s.world).IsVtableInit c2 = true →
        (DELETE prog p2 s.world).VtableDefault c2 = builtTable (classOf prog c2)) ∧
      ((DELETE prog p2 s.world).IsVtableInit c2 = false →
        (DELETE prog p2 s.world).VtableDefault c2 = fun _ => none)
    rw [d5, d6]
    exact i6 c2 hc2

theorem Inv_frame (prog : Chain) (s : Sys) (p : Nat) (v : World)
    (hf : MethodFrame p s.world v) (h : Inv prog s) :
    Inv prog { world := v, insts := s.insts } := by
  obtain ⟨i1, i2, i3, i4, i5, i6⟩ := h
  obtain ⟨f1, f2, f3, f4, f5, _, f7, f8, _, _, f11⟩ := hf
  refine ⟨?_, ?_, ?_, ?_, ?_, ?_⟩
  · intro q d hq
    show q < v.next ∧ d < prog.length ∧ v.del q = some d ∧ v.IsVtableInit d = true
    rw [f1, f3, f7]
    exact i1 q d hq
  · intro q d j hq hj
    show v.vt q j = some d ∧ ∃ a, v.mb q j = some a ∧ a < v.next ∧ a ∈ v.live
    rw [f1, f2, f4, f5]
    exact i2 q d j hq hj
  · intro q d r e j k a hq hr hj hk hqa hra
    exact i3 q d r e j k a hq hr hj hk (by rw [← f5]; exact hqa) (by rw [← f5]; exact hra)
  · intro q d j a i b hq hj hqa hb
    show b < v.next ∧ ∀ r e k, (r, e) ∈ s.insts → k ≤ e → v.mb r k ≠ some b
    rw [f1, f5]
    exact i4 q d j a i b hq hj (by rw [← f5]; exact hqa) (f11 a i b hb)
  · intro q d r e j hq hr hj hrq
    exact i5 q d r e j hq hr hj (by rw [← f5]; exact hrq)
  · intro c2 hc2
    show (v.IsVtableInit c2 = true → v.VtableDefault c2 = builtTable (classOf prog c2)) ∧
      (v.IsVtableInit c2 = false → v.VtableDefault c2 = fun _ => none)
    rw [f7, f8]
    exact i6 c2 hc2

theorem Inv_init (prog : Chain) : Inv prog Sys.init := by
  refine ⟨?_, ?_, ?_, ?_, ?_, ?_⟩
  · intro p c hp; simp [Sys.init] at hp
  · intro p c j hp; simp [Sys.init] at hp
  · intro p c q d j k a hp; simp [Sys.init] at hp
  · intro p c j a i b hp; simp [Sys.init] at hp
  · intro p c q d j hp; simp [Sys.init] at hp
  · intro c _
    exact ⟨by intro h; simp [Sys.init, World.init] at h, by intro _; rfl⟩

/-- Every operation of the example program keeps the invariant. -/
theorem Inv_step (o : Op) (s : Sys) (h : Inv RacecarClass s) :
    Inv RacecarClass (step RacecarClass o s) := by
  cases o with
  | new c cfg =>
    simp only [step]
    split
    · rename_i hc
      exact Inv_new RacecarClass s c cfg hc h
    · exact h
  | delete p =>
    simp only [step]
    split
    · rename_i hp
      exact Inv_delete RacecarClass s p hp h
    · exact h
  | call p k func args =>
    simp only [step]
    split
    · exact Inv_frame RacecarClass s p _ (VCALL_frame p k func args s.world) h
    · exact h

theorem Inv_run (ops : List Op) (s : Sys) (h : Inv RacecarClass s) :
    Inv RacecarClass (run RacecarClass ops s) := by
  induction ops generalizing s with
  | nil => exact h
  | cons o r ih => exact ih _ (Inv_step o s h)

theorem DELETE_statics (prog : Chain) (p : Nat) (w : World) :
    (DELETE prog p w).VtableDefault = w.VtableDefault ∧
    (DELETE prog p w).IsVtableInit = w.IsVtableInit := by
  unfold DELETE
  split
  · simp [Delete, DeleteOuter, DeleteInner, (Dtor_frame _ _ _).2.2.2.2.2,
      (Dtor_frame _ _ _).2.2.2.2.1]
  · simp

theorem step_table (o : Op) (s : Sys) (c : Nat) (h : s.world.IsVtableInit c = true) :
    (step RacecarClass o s).world.VtableDefault c = s.world.VtableDefault c ∧
    (step RacecarClass o s).world.IsVtableInit c = true := by
  cases o with
  | new d cfg =>
    simp only [step]
    split
    · by_cases hcd : c = depth (classOf RacecarClass d)
      · subst hcd
        exact ⟨NEW_table_built _ _ _ h, NEW_flag _ _ _⟩
      · exact ⟨NEW_table_other _ _ _ _ hcd, by rw [NEW_flag_other _ _ _ _ hcd]; exact h⟩
    · exact ⟨rfl, h⟩
  | delete p =>
    simp only [step]
    split
    · exact ⟨by rw [(DELETE_statics _ _ _).1], by rw [(DELETE_statics _ _ _).2]; exact h⟩
    · exact ⟨rfl, h⟩
  | call p k func args =>
    simp only [step]
    split
    · obtain ⟨_, _, _, _, _, _, f7, f8, _⟩ := VCALL_frame p k func args s.world
      exact ⟨by rw [f8], by rw [f7]; exact h⟩
    · exact ⟨rfl, h⟩

theorem run_table (ops : List Op) (s : Sys) (c : Nat) (h : s.world.IsVtableInit c = true) :
    (run RacecarClass ops s).world.VtableDefault c = s.world.VtableDefault c ∧
    (run RacecarClass ops s).world.IsVtableInit c = true := by
  induction ops generalizing s with
  | nil => exact ⟨rfl, h⟩
  | cons o r ih =>
    obtain ⟨h1, h2⟩ := step_table o s c h
    obtain ⟨h3, h4⟩ := ih (step RacecarClass o s) h2
    exact ⟨by simp only [run]; rw [h3, h1], h4⟩

theorem builtTable_Vehicle :
    builtTable (classOf RacecarClass 0) "Accelerate" = some "Vehicle_Accelerate" ∧
    builtTable (classOf RacecarClass 0) "Brake" = some "Vehicle_Brake" := by
  constructor <;> rfl

theorem resolve_Vehicle :
    resolve RacecarClass "Vehicle_Accelerate" = some Vehicle_Accelerate ∧
    resolve RacecarClass "Vehicle_Brake" = some Vehicle_Brake := by
  constructor <;> rfl

/-- A run in which a standalone Vehicle is created between a Racecar and a Car,
and stays alive: the runs of the example program do reach such states. -/
theorem run_reaches_vehicle :
    (run RacecarClass
      [Op.new 2 [[], [], []], Op.new 0 [[200]], Op.new 1 [[4], [180]],
        Op.call 1 0 "Accelerate" [100]] Sys.init).insts = [(8, 1), (6, 0), (1, 2)] := by
  decide

/-! ## Lemmas: construction and destruction on storage the caller provides -/

theorem runInit_live_lt (a : Nat) (l : List (Nat × Field)) (w : World) (x : Nat)
    (h : x ∈ (runInit a l w).live) (hx : x < w.next) : x ∈ w.live := by
  induction l generalizing w with
  | nil => simpa [runInit] using h
  | cons y r ih =>
    obtain ⟨i, fld⟩ := y
    cases fld with
    | val v =>
      rw [runInit_val] at h
      simpa using ih _ h (by simpa using hx)
    | buf bs =>
      rw [runInit_buf] at h
      have := ih _ h (by simp; omega)
      simp only [setSt_live, setBytes_live, calloc_live, List.mem_cons] at this
      rcases this with e | hm
      · omega
      · exact hm

/-- A constructor adds only fresh blocks to the live blocks. -/
theorem Ctor_live_lt (ch : Chain) (p t : Nat) (cfg : Cfg) (w : World) (x : Nat)
    (h : x ∈ (Ctor ch p t cfg w).live) (hx : x < w.next) : x ∈ w.live := by
  induction ch generalizing w cfg with
  | nil => simpa [Ctor] using h
  | cons d bases ih =>
    have hle := Ctor_next_le bases p t cfg.tail (w.log (Event.call Routine.Ctor bases.length))
    rw [log_next] at hle
    rw [Ctor_cons] at h
    have h1 := runInit_live_lt _ _ _ x h (by rw [stateReady_next]; omega)
    rw [stateReady_live, List.mem_cons] at h1
    rcases h1 with e | hm
    · omega
    · simpa using ih cfg.tail _ hm (by simpa using hx)

theorem free_live_sub (w : World) (a x : Nat) (h : x ∈ (w.free a).live) : x ∈ w.live := by
  unfold World.free at h
  split at h
  · exact List.mem_of_mem_erase h
  · exact h

theorem freeVal_live_sub (w : World) (v : Val) (x : Nat) (h : x ∈ (w.freeVal v).live) :
    x ∈ w.live := by
  cases v with
  | ptr b => exact free_live_sub w b x h
  | int i =>
    simp only [World.freeVal] at h
    split at h
    · exact h
    · simpa using h

theorem freePtr_live_sub (w : World) (o : Option Nat) (x : Nat)
    (h : x ∈ (w.freePtr o).live) : x ∈ w.live := by
  cases o with
  | none => exact h
  | some a => exact free_live_sub w a x h

theorem runDeinit_live_sub (p cls : Nat) (l : List Nat) (w : World) (x : Nat)
    (h : x ∈ (runDeinit p cls l w).live) : x ∈ w.live := by
  induction l generalizing w with
  | nil => simpa [runDeinit] using h
  | cons i r ih =>
    cases hm : w.mb p cls with
    | none =>
      simp only [runDeinit, hm] at h
      simpa using ih _ h
    | some a =>
      simp only [runDeinit, hm] at h
      exact freeVal_live_sub _ _ _ (ih _ h)

/-- A destructor makes no block live. -/
theorem Dtor_live_sub (ch : Chain) (p : Nat) (w : World) (x : Nat)
    (h : x ∈ (Dtor ch p w).live) : x ∈ w.live := by
  induction ch generalizing w with
  | nil => simpa [Dtor] using h
  | cons d bases ih =>
    simp only [Dtor, setMb_live] at h
    have h1 := runDeinit_live_sub _ _ _ _ _ (freePtr_live_sub _ _ _ h)
    have h2 := ih (w.log (Event.call Routine.Dtor bases.length)) (by simpa using h1)
    simpa using h2

theorem freePtr_kinds (w : World) (o : Option Nat) :
    ∃ F, (w.freePtr o).trace = w.trace ++ F ∧
      ∀ e, e ∈ F → e = Event.ub ∨ ∃ a, o = some a ∧ e = Event.free a := by
  cases o with
  | none => exact ⟨[], by simp [World.freePtr], by intro e he; cases he⟩
  | some a =>
    by_cases ha : a ∈ w.live
    · refine ⟨[Event.free a], by simp [World.freePtr, World.free, ha], ?_⟩
      intro e he
      exact Or.inr ⟨a, rfl, List.mem_singleton.mp he⟩
    · refine ⟨[Event.free a, Event.ub], by simp [World.freePtr, World.free, ha], ?_⟩
      intro e he
      simp only [List.mem_cons, List.mem_singleton, List.not_mem_nil, or_false] at he
      rcases he with e1 | e2
      · exact Or.inr ⟨a, rfl, e1⟩
      · exact Or.inl e2

/-- What a destructor appends to the trace: calls of generated and user
routines, releases of `State` blocks of the instance, releases of addresses
stored in a `State` block of the instance (made by a `_Deinit`), and undefined
behaviour; it allocates nothing. -/
theorem Dtor_released (ch : Chain) (p : Nat) (w : World) :
    ∃ E, (Dtor ch p w).trace = w.trace ++ E ∧
      ∀ e, e ∈ E → e = Event.ub ∨ (∃ r c, e = Event.call r c) ∨
        (∃ j a, j < ch.length ∧ w.mb p j = some a ∧ e = Event.free a) ∨
        (∃ j s i b, j < ch.length ∧ w.mb p j = some s ∧ w.st s i = Val.ptr b ∧
          e = Event.free b) := by
  induction ch generalizing w with
  | nil => exact ⟨[], by simp [Dtor], by intro e he; cases he⟩
  | cons d bases ih =>
    have hmbk : (Dtor bases p (w.log (Event.call Routine.Dtor bases.length))).mb p bases.length
        = w.mb p bases.length := by
      rw [Dtor_mb]; simp
    obtain ⟨E0, hE0, h0⟩ := ih (w.log (Event.call Routine.Dtor bases.length))
    obtain ⟨D, hD, hk⟩ := runDeinit_kinds p bases.length d.Deinit
      ((Dtor bases p (w.log (Event.call Routine.Dtor bases.length))).log
        (Event.call Routine.Deinit bases.length))
    obtain ⟨F, hF, hFk⟩ := freePtr_kinds (runDeinit p bases.length d.Deinit
      ((Dtor bases p (w.log (Event.call Routine.Dtor bases.length))).log
        (Event.call Routine.Deinit bases.length))) (w.mb p bases.length)
    refine ⟨Event.call Routine.Dtor bases.length :: E0 ++
      Event.call Routine.Deinit bases.length :: D ++ F, ?_, ?_⟩
    · simp only [Dtor, Deinit, setMb_trace, (runDeinit_frame _ _ _ _).1, log_mb, hmbk]
      rw [hF, hD, log_trace, hE0, log_trace]
      simp
    · intro e he
      simp only [List.mem_append, List.mem_cons] at he
      rcases he with ((he | he) | (he | he)) | he
      · exact Or.inr (Or.inl ⟨_, _, he⟩)
      · rcases h0 e he with h | h | ⟨j, a, hj, ha, h⟩ | ⟨j, s, i, b, hj, hs, hb, h⟩
        · exact Or.inl h
        · exact Or.inr (Or.inl h)
        · exact Or.inr (Or.inr (Or.inl ⟨j, a, by simp; omega, by simpa using ha, h⟩))
        · exact Or.inr (Or.inr (Or.inr ⟨j, s, i, b, by simp; omega, by simpa using hs,
            by simpa using hb, h⟩))
      · exact Or.inr (Or.inl ⟨_, _, he⟩)
      · rcases hk e he with h | ⟨s, i, b, h1, h2, h3⟩
        · exact Or.inl h
        · refine Or.inr (Or.inr (Or.inr ⟨bases.length, s, i, b, by simp, ?_, ?_, h3⟩))
          · rw [log_mb, hmbk] at h1; exact h1
          · rw [log_st, (Dtor_frame _ _ _).1, log_st] at h2; exact h2
      · rcases hFk e he with h | ⟨a, ha, h⟩
        · exact Or.inl h
        · exact Or.inr (Or.inr (Or.inl ⟨bases.length, a, by simp, ha, h⟩))

theorem runInit_alloc_ge (a : Nat) (l : List (Nat × Field)) (w : World) :
    ∃ E, (runInit a l w).trace = w.trace ++ E ∧
      ∀ k b, Event.calloc k b ∈ E → w.next ≤ b := by
  induction l generalizing w with
  | nil => exact ⟨[], by simp [runInit], by intro k b h; cases h⟩
  | cons x r ih =>
    obtain ⟨j, fld⟩ := x
    cases fld with
    | val v =>
      obtain ⟨E, hE, hb⟩ := ih (w.setSt a j (Val.int v))
      exact ⟨E, by rw [runInit_val, hE]; simp, by simpa using hb⟩
    | buf bs =>
      obtain ⟨E, hE, hb⟩ :=
        ih ((((w.calloc Kind.buf).2).setBytes w.next bs).setSt a j (Val.ptr w.next))
      refine ⟨Event.calloc Kind.buf w.next :: E, ?_, ?_⟩
      · rw [runInit_buf, hE]; simp
      · intro k b he
        rcases List.mem_cons.mp he with h | h
        · cases h
          exact Nat.le_refl _
        · have := hb k b h
          simp only [setSt_next, setBytes_next, calloc_next] at this
          omega

/-- Every block a constructor allocates is fresh. -/
theorem Ctor_alloc_ge (ch : Chain) (p t : Nat) (cfg : Cfg) (w : World) :
    ∃ E, (Ctor ch p t cfg w).trace = w.trace ++ E ∧
      ∀ k b, Event.calloc k b ∈ E → w.next ≤ b := by
  induction ch generalizing w cfg with
  | nil => exact ⟨[], by simp [Ctor], by intro k b h; cases h⟩
  | cons d bases ih =>
    have hle := Ctor_next_le bases p t cfg.tail (w.log (Event.call Routine.Ctor bases.length))
    rw [log_next] at hle
    obtain ⟨E1, hE1, h1⟩ := ih cfg.tail (w.log (Event.call Routine.Ctor bases.length))
    obtain ⟨E3, hE3, h3⟩ := runInit_alloc_ge
      (Ctor bases p t cfg.tail (w.log (Event.call Routine.Ctor bases.length))).next
      (d.Init (cfg.headD []))
      (stateReady (Ctor bases p t cfg.tail (w.log (Event.call Routine.Ctor bases.length)))
        p bases.length t)
    refine ⟨Event.call Routine.Ctor bases.length :: E1 ++
      [Event.calloc Kind.state
          (Ctor bases p t cfg.tail (w.log (Event.call Routine.Ctor bases.length))).next,
        Event.call Routine.Init bases.length] ++ E3, ?_, ?_⟩
    · rw [Ctor_cons, hE3, stateReady_trace, hE1]
      simp
    · intro k b he
      simp only [List.mem_append, List.mem_cons, List.mem_singleton, reduceCtorEq, false_or,
        or_false, List.not_mem_nil, Event.calloc.injEq] at he
      rcases he with (h | h) | h
      · have := h1 k b h
        simpa using this
      · rw [h.2]
        exact hle
      · have := h3 k b h
        rw [stateReady_next] at this
        omega

/-- The events of `NewInner`: calls of the table build, the constructors entered
from the class down to the root, then one segment per level from the root up:
the allocation of the level's `State` block, the call of its `_Init`, and the
buffers that `_Init` allocates. -/
theorem NewInner_segments (ch : Chain) (p : Nat) (cfg : Cfg) (w : World) :
    ∃ (pre : List Event) (segs : List (List Event)),
      (NewInner ch p cfg w).trace = w.trace ++ pre ++
        (List.range ch.length).reverse.map (Event.call Routine.Ctor) ++ segs.flatten ∧
      (∀ e, e ∈ pre → ∃ r c, e = Event.call r c) ∧ segs.length = ch.length ∧
      ∀ j, j < ch.length → ∃ a B, (NewInner ch p cfg w).mb p j = some a ∧
        segs[j]? = some (Event.calloc Kind.state a :: Event.call Routine.Init j :: B) ∧
        ∀ e, e ∈ B → ∃ b, e = Event.calloc Kind.buf b := by
  obtain ⟨v, hV, _, _, _, _, pre, hpre, hprek⟩ := NewInner_eq ch p cfg w
  obtain ⟨segs, hlen, htr, hseg⟩ := Ctor_segments ch p (depth ch) cfg v
  rw [hV]
  exact ⟨pre, segs, by rw [htr, hpre], hprek, hlen, hseg⟩

/-- `NewInner` allocates no instance, releases nothing, and every block it
allocates is fresh. -/
theorem NewInner_events (ch : Chain) (p : Nat) (cfg : Cfg) (w : World) :
    ∃ E, (NewInner ch p cfg w).trace = w.trace ++ E ∧
      (∀ a, Event.calloc Kind.state a ∈ E ↔
        ∃ j, j < ch.length ∧ (NewInner ch p cfg w).mb p j = some a) ∧
      (∀ a, Event.calloc Kind.inst a ∉ E) ∧ (∀ a, Event.free a ∉ E) ∧
      ∀ k b, Event.calloc k b ∈ E → w.next ≤ b := by
  obtain ⟨v, hV, hvn, _, _, _, pre, hpre, hprek⟩ := NewInner_eq ch p cfg w
  obtain ⟨E1, hE1, hst, hfr, hin⟩ := Ctor_trace ch p (depth ch) cfg v
  obtain ⟨E2, hE2, hge⟩ := Ctor_alloc_ge ch p (depth ch) cfg v
  have hEq : E1 = E2 := List.append_cancel_left (hE1.symm.trans hE2)
  subst hEq
  have hcall : ∀ e, e ∈ pre → ∀ k a, e ≠ Event.calloc k a := by
    intro e he k a hea
    obtain ⟨r, c, hrc⟩ := hprek e he
    rw [hrc] at hea
    cases hea
  have hcallf : ∀ e, e ∈ pre → ∀ a, e ≠ Event.free a := by
    intro e he a hea
    obtain ⟨r, c, hrc⟩ := hprek e he
    rw [hrc] at hea
    cases hea
  rw [hV]
  refine ⟨pre ++ E1, by rw [hE1, hpre, List.append_assoc], ?_, ?_, ?_, ?_⟩
  · intro a
    rw [← hst a, List.mem_append]
    constructor
    · rintro (h | h)
      · exact absurd rfl (hcall _ h _ _)
      · exact h
    · exact Or.inr
  · intro a h
    rcases List.mem_append.mp h with h | h
    · exact hcall _ h _ _ rfl
    · exact hin a h
  · intro a h
    rcases List.mem_append.mp h with h | h
    · exact hcallf _ h _ rfl
    · exact hfr a h
  · intro k b h
    rcases List.mem_append.mp h with h | h
    · exact absurd rfl (hcall _ h _ _)
    · rw [← hvn]
      exact hge k b h

/-- After `NewInner` the levels of the instance have `State` blocks of their
own, all fresh, and every address stored in one of them is fresh. -/
theorem NewInner_owned (ch : Chain) (p : Nat) (cfg : Cfg) (w : World) :
    Owned ch.length p w.next (NewInner ch p cfg w) ∧
    ∀ j s i b, j < ch.length → (NewInner ch p cfg w).mb p j = some s →
      (NewInner ch p cfg w).st s i = Val.ptr b → w.next ≤ b := by
  obtain ⟨v, hV, hvn, _, _, _, _⟩ := NewInner_eq ch p cfg w
  rw [hV]
  constructor
  · exact Ctor_owned ch p (depth ch) w.next cfg v (by omega)
  · intro j s i b hj hs hb
    rw [← hvn]
    exact Ctor_ptr_lo ch p (depth ch) cfg v j s i b hj hs hb

/-- `NewInner` changes the liveness of no block that existed before. -/
theorem NewInner_live (ch : Chain) (p : Nat) (cfg : Cfg) (w : World) (x : Nat)
    (hx : x < w.next) : x ∈ (NewInner ch p cfg w).live ↔ x ∈ w.live := by
  obtain ⟨v, hV, hvn, _, _, hvl, _⟩ := NewInner_eq ch p cfg w
  rw [hV, ← hvl]
  constructor
  · intro h
    exact Ctor_live_lt ch p (depth ch) cfg v x h (by omega)
  · exact Ctor_live ch p (depth ch) cfg v x

/-- `DeleteInner` on an instance whose levels have `State` blocks of their own:
it appends calls, releases of the `State` blocks, releases (by a `_Deinit`) of
addresses stored in a `State` block, and undefined behaviour; it releases every
`State` block once; it releases no block below `lo` and changes the liveness of
none. -/
theorem DeleteInner_owned (ch : Chain) (p lo : Nat) (v : World)
    (ho : Owned ch.length p lo v)
    (hlo : ∀ j s i b, j < ch.length → v.mb p j = some s → v.st s i = Val.ptr b → lo ≤ b) :
    ∃ E, (DeleteInner ch p v).trace = v.trace ++ E ∧
      (∀ e, e ∈ E → e = Event.ub ∨ (∃ r c, e = Event.call r c) ∨
        (∃ j a, j < ch.length ∧ v.mb p j = some a ∧ e = Event.free a) ∨
        (∃ j s i b, j < ch.length ∧ v.mb p j = some s ∧ v.st s i = Val.ptr b ∧
          e = Event.free b)) ∧
      (∀ j a, j < ch.length → v.mb p j = some a → E.count (Event.free a) = 1) ∧
      (∀ x, x < lo → Event.free x ∉ E) ∧
      (∀ x, x < lo → (x ∈ (DeleteInner ch p v).live ↔ x ∈ v.live)) := by
  obtain ⟨o1, o2, o3⟩ := ho
  have hge : ∀ j a, j < ch.length → v.mb p j = some a → lo ≤ a := by
    intro j a hj ha
    obtain ⟨a2, ha2, hle, _⟩ := o1 j hj
    rw [ha] at ha2
    cases ha2
    exact hle
  obtain ⟨E0, hE0, hk⟩ := Dtor_released ch p (v.log (Event.call Routine.DeleteInner (depth ch)))
  have hkinds : ∀ e, e ∈ Event.call Routine.DeleteInner (depth ch) :: E0 →
      e = Event.ub ∨ (∃ r c, e = Event.call r c) ∨
        (∃ j a, j < ch.length ∧ v.mb p j = some a ∧ e = Event.free a) ∨
        (∃ j s i b, j < ch.length ∧ v.mb p j = some s ∧ v.st s i = Val.ptr b ∧
          e = Event.free b) := by
    intro e he
    rcases List.mem_cons.mp he with h | h
    · exact Or.inr (Or.inl ⟨_, _, h⟩)
    · simpa using hk e h
  refine ⟨Event.call Routine.DeleteInner (depth ch) :: E0, ?_, hkinds, ?_, ?_, ?_⟩
  · simp only [DeleteInner]
    rw [hE0, log_trace]
    simp
  · intro j a hj ha
    obtain ⟨E1, hE1, _, hc⟩ := Dtor_count ch p
      (v.log (Event.call Routine.DeleteInner (depth ch))) a
      (by
        intro j2 hj2 s hs i hsi
        exact (o3 j2 hj2 s (by simpa using hs) i a (by simpa using hsi)).2 j hj ha)
    have hEq : E0 = E1 := List.append_cancel_left (hE0.symm.trans hE1)
    subst hEq
    rw [List.count_cons_of_ne (by simp)]
    apply hc j hj (by simpa using ha)
    intro j2 hj2 hne h2
    exact hne (o2 j2 j a hj2 hj (by simpa using h2) ha)
  · intro x hx hmem
    rcases hkinds _ hmem with h | ⟨r, c, h⟩ | ⟨j, a, hj, ha, h⟩ | ⟨j, s, i, b, hj, hs, hb, h⟩
    · cases h
    · cases h
    · cases h
      have := hge j x hj ha
      omega
    · cases h
      have := hlo j s i x hj hs hb
      omega
  · intro x hx
    simp only [DeleteInner]
    constructor
    · intro h
      simpa using Dtor_live_sub _ _ _ _ h
    · intro h
      apply Dtor_live_of_ne
      · intro j hj hm
        have := hge j x hj (by simpa using hm)
        omega
      · intro j hj s hs i hsi
        have := hlo j s i x hj (by simpa using hs) (by simpa using hsi)
        omega
      · simpa using h

/-- `NewInner` then `DeleteInner` of a Racecar, evaluated for every storage,
config and world. -/
theorem Racecar_inner_pair (p : Nat) (cfg : Cfg) (w : World) :
    allocated (newEvents w (NewInner RacecarClass p cfg w)) =
        [(Kind.state, w.next), (Kind.state, w.next + 1), (Kind.state, w.next + 2),
         (Kind.buf, w.next + 3)] ∧
     released (newEvents (NewInner RacecarClass p cfg w)
        (DeleteInner RacecarClass p (NewInner RacecarClass p cfg w))) =
        [w.next, w.next + 1, w.next + 3, w.next + 2] ∧
     Event.ub ∉ newEvents (NewInner RacecarClass p cfg w)
        (DeleteInner RacecarClass p (NewInner RacecarClass p cfg w)) ∧
     (DeleteInner RacecarClass p (NewInner RacecarClass p cfg w)).live = w.live := by
  by_cases h : w.IsVtableInit 2 = true
  · simp [newEvents, allocated, released, NewInner, depth, RacecarClass, h, Ctor, Init,
      runInit, Racecar, Car, Vehicle, Racecar_Init, Car_Init, Vehicle_Init, Racecar_Deinit,
      Car_Deinit, Vehicle_Deinit, DeleteInner, Dtor, Deinit, runDeinit, World.free,
      World.freePtr, World.freeVal, Nat.add_assoc]
  · simp [newEvents, allocated, released, NewInner, depth, RacecarClass, h, Ctor, Init,
      runInit, Racecar, Car, Vehicle, Racecar_Init, Car_Init, Vehicle_Init, Racecar_Deinit,
      Car_Deinit, Vehicle_Deinit, DeleteInner, Dtor, Deinit, runDeinit, World.free,
      World.freePtr, World.freeVal, VtableInitTree, VtableInit, Nat.add_assoc]

/-- `Car_Accelerate` above the top speed, in any state of the instance: the
call is made and nothing else happens. -/
theorem VCALL_Car_Accelerate_above (leaf : ClassDef) (p k a c : Nat) (x top : Int)
    (u : World) (hname : leaf.methods.lookup "Car_Accelerate" = none)
    (hslot : slotOf u p k "Accelerate" = some "Car_Accelerate")
    (ha : u.mb p 0 = some a) (hc : u.mb p 1 = some c) (htop : u.st a 0 = Val.int top)
    (hx : top < x) :
    VCALL (leaf :: CarClass) p k "Accelerate" [x] u
      = u.log (Event.method "Car_Accelerate") := by
  rw [VCALL_Car_Accelerate leaf p k a c x u hname hslot ha hc, htop]
  have e : (Val.int top).toInt = top := rfl
  rw [e, if_neg (by omega)]

/-- A call of `Accelerate` that runs `Car_Accelerate` keeps the table
reference, the `State` references and `TopSpeed` of the instance. -/
theorem VCALL_Car_Accelerate_keeps (leaf : ClassDef) (p a c : Nat) (x top : Int)
    (u : World) (hname : leaf.methods.lookup "Car_Accelerate" = none)
    (hslot : slotOf u p 0 "Accelerate" = some "Car_Accelerate")
    (ha : u.mb p 0 = some a) (hc : u.mb p 1 = some c) (htop : u.st a 0 = Val.int top) :
    slotOf (VCALL (leaf :: CarClass) p 0 "Accelerate" [x] u) p 0 "Accelerate"
      = some "Car_Accelerate" ∧
    (VCALL (leaf :: CarClass) p 0 "Accelerate" [x] u).mb p 0 = some a ∧
    (VCALL (leaf :: CarClass) p 0 "Accelerate" [x] u).mb p 1 = some c ∧
    (VCALL (leaf :: CarClass) p 0 "Accelerate" [x] u).st a 0 = Val.int top := by
  rw [VCALL_Car_Accelerate leaf p 0 a c x u hname hslot ha hc]
  split
  · refine ⟨?_, by simpa using ha, by simpa using hc, by simpa using htop⟩
    simpa [slotOf] using hslot
  · refine ⟨?_, by simpa using ha, by simpa using hc, by simpa using htop⟩
    simpa [slotOf] using hslot

/-- Calls of `Accelerate` through the Vehicle-typed reference that run
`Car_Accelerate`, one after the other, keep the table reference, the `State`
references and `TopSpeed` of the instance. -/
theorem accelerateAll_keeps (leaf : ClassDef) (p a c : Nat) (top : Int) (speeds : List Int)
    (u : World) (hname : leaf.methods.lookup "Car_Accelerate" = none)
    (hslot : slotOf u p 0 "Accelerate" = some "Car_Accelerate")
    (ha : u.mb p 0 = some a) (hc : u.mb p 1 = some c) (htop : u.st a 0 = Val.int top) :
    slotOf (dispatchAll (leaf :: CarClass) p (speeds.map (MethodCall.accelerate 0)) u) p 0
      "Accelerate" = some "Car_Accelerate" ∧
    (dispatchAll (leaf :: CarClass) p (speeds.map (MethodCall.accelerate 0)) u).mb p 0
      = some a ∧
    (dispatchAll (leaf :: CarClass) p (speeds.map (MethodCall.accelerate 0)) u).mb p 1
      = some c ∧
    (dispatchAll (leaf :: CarClass) p (speeds.map (MethodCall.accelerate 0)) u).st a 0
      = Val.int top := by
  induction speeds generalizing u with
  | nil => exact ⟨hslot, ha, hc, htop⟩
  | cons s r ih =>
    obtain ⟨h1, h2, h3, h4⟩ := VCALL_Car_Accelerate_keeps leaf p a c s top u hname hslot ha hc
      htop
    exact ih (VCALL (leaf :: CarClass) p 0 "Accelerate" [s] u) h1 h2 h3 h4

/-! ## C1 -/

/-- C1: building the table of the class `pre ++ d :: post` (classes `pre` derive
from `d`, `post` are the ancestors of `d`) with its `VtableInitTree` leaves in a
slot the function assigned by `d` when `d` is the most-derived class of the
chain that assigns the slot, and leaves the slot as it was when no class of the
chain assigns it.  Car's table holds Car_Accelerate, Vehicle_Brake and Car_Fuel;
Racecar's holds Racecar_Accelerate, Vehicle_Brake and Car_Fuel. -/
theorem C1_most_derived_assignment_wins (pre post : Chain) (d : ClassDef) (t : Nat)
    (w : World) (x : String) (hpre : ∀ e ∈ pre, assigned e.VtableInit x = none) :
    (∀ f, assigned d.VtableInit x = some f →
        (VtableInitTree (pre ++ d :: post) t w).VtableDefault t x = some f) ∧
    (assigned d.VtableInit x = none → (∀ e ∈ post, assigned e.VtableInit x = none) →
        (VtableInitTree (pre ++ d :: post) t w).VtableDefault t x = w.VtableDefault t x) ∧
    (["Accelerate", "Brake", "Fuel"].map
        ((VtableInitTree CarClass (depth CarClass) World.init).VtableDefault (depth CarClass))
      = [some "Car_Accelerate", some "Vehicle_Brake", some "Car_Fuel"]) ∧
    (["Accelerate", "Brake", "Fuel"].map
        ((VtableInitTree RacecarClass (depth RacecarClass) World.init).VtableDefault
          (depth RacecarClass))
      = [some "Racecar_Accelerate", some "Vehicle_Brake", some "Car_Fuel"]) := by
  refine ⟨fun f hd => VtableInitTree_slot_of_first pre post d t w x f hpre hd, ?_, ?_, ?_⟩
  · intro hd hpost
    apply VtableInitTree_slot_of_none
    intro e he
    rcases List.mem_append.mp he with h | h
    · exact hpre e h
    · rcases List.mem_cons.mp h with h | h
      · rw [h]; exact hd
      · exact hpost e h
  · decide
  · decide

/-- C1 at the slot `Fuel` of Racecar's table: Racecar does not assign it, Car
does. -/
theorem C1_most_derived_assignment_wins_witness :
    (∀ e ∈ [Racecar], assigned e.VtableInit "Fuel" = none) ∧
    assigned Car.VtableInit "Fuel" = some "Car_Fuel" ∧
    (VtableInitTree ([Racecar] ++ Car :: [Vehicle]) 2 World.init).VtableDefault 2 "Fuel"
      = some "Car_Fuel" :=
  ⟨by decide, by decide,
   (C1_most_derived_assignment_wins [Racecar] [Vehicle] Car 2 World.init "Fuel"
      (by decide)).1 "Car_Fuel" (by decide)⟩

/-! ## C2 -/

/-- C2: for a class `B` that derives directly from `A` and overrides `A`'s
function `g` in slot `m` by `f`, and every config: through the up-cast
(`A`-typed) reference to the instance returned by `NEW(B, cfg)`, slot `m` reads
`f` and not `g`, and `VCALL` calls the implementation of `f` on that reference.
On a Car with top speed 250 and 4 seats, `VCALL(&(pC->Base), Accelerate, 230)`
runs Car_Accelerate. -/
theorem C2_upcast_dispatches_to_override (B A : ClassDef) (rest : Chain) (cfg : Cfg)
    (w : World) (P : Nat) (m f g : String)
    (_hA : assigned A.VtableInit m = some g) (hB : assigned B.VtableInit m = some f)
    (hne : f ≠ g) (hw : w.TableOk (B :: A :: rest)) :
    slotOf (NEW (B :: A :: rest) cfg w).2
        (upcast P (depth (B :: A :: rest)) 1 (NEW (B :: A :: rest) cfg w).1)
        (depth (A :: rest)) m = some f ∧
    slotOf (NEW (B :: A :: rest) cfg w).2
        (upcast P (depth (B :: A :: rest)) 1 (NEW (B :: A :: rest) cfg w).1)
        (depth (A :: rest)) m ≠ some g ∧
    (∀ (prog : Chain) (args : List Int) (impl : Method), resolve prog f = some impl →
      VCALL prog (upcast P (depth (B :: A :: rest)) 1 (NEW (B :: A :: rest) cfg w).1)
          (depth (A :: rest)) m args (NEW (B :: A :: rest) cfg w).2
        = impl (upcast P (depth (B :: A :: rest)) 1 (NEW (B :: A :: rest) cfg w).1) args
            ((NEW (B :: A :: rest) cfg w).2.log (Event.method f))) ∧
    newEvents (NEW CarClass (CarCfg 250 4) World.init).2
        (VCALL CarClass (upcast sizeofPtr (depth CarClass) 1
            (NEW CarClass (CarCfg 250 4) World.init).1) (depth VehicleClass) "Accelerate" [230]
          (NEW CarClass (CarCfg 250 4) World.init).2)
      = [Event.method "Car_Accelerate",
         Event.printf "The car with %d seats accelerates to %d km/h.\n" [4, 230]] := by
  have hup : upcast P (depth (B :: A :: rest)) 1 (NEW (B :: A :: rest) cfg w).1
      = (NEW (B :: A :: rest) cfg w).1 :=
    upcast_eq P _ 1 _ (by simp [depth])
  have hslot : slotOf (NEW (B :: A :: rest) cfg w).2 (NEW (B :: A :: rest) cfg w).1
      (depth (A :: rest)) m = some f :=
    NEW_slotOf [] (A :: rest) B cfg w m f (depth (A :: rest))
      (by simp only [depth, List.nil_append, List.length_cons]; omega) hw (by simp) hB
  rw [hup]
  refine ⟨hslot, ?_, ?_, ?_⟩
  · rw [hslot]
    intro h
    exact hne (Option.some.inj h)
  · intro prog args impl himpl
    simp [VCALL, hslot, himpl]
  · decide

/-- C2 at Car over Vehicle, slot `Accelerate`, from the process start. -/
theorem C2_upcast_dispatches_to_override_witness :
    slotOf (NEW (Car :: Vehicle :: []) (CarCfg 250 4) World.init).2
        (upcast 8 (depth (Car :: Vehicle :: [])) 1
          (NEW (Car :: Vehicle :: []) (CarCfg 250 4) World.init).1)
        (depth (Vehicle :: [])) "Accelerate" = some "Car_Accelerate" :=
  (C2_upcast_dispatches_to_override Car Vehicle [] (CarCfg 250 4) World.init 8
    "Accelerate" "Car_Accelerate" "Vehicle_Accelerate" (by decide) (by decide) (by decide)
    (fun h => absurd h (by decide))).1

/-! ## C3 -/

/-- C3: in a chain `root`, `mids`, `leaf` in which slot `m` is assigned by the
root, by no middle class, and by the leaf (function `f`), for an instance created
with `NEW` of the leaf class and a reference typed at any level `k` of the
chain: the table reference of level `k` is the leaf class's singleton, slot `m`
read through it is `f`, and `VCALL` calls the implementation of `f`. -/
theorem C3_every_level_dispatches_to_leaf (leaf root : ClassDef) (mids : Chain) (cfg : Cfg)
    (w : World) (P : Nat) (m f g : String) (k : Nat)
    (_hroot : assigned root.VtableInit m = some g)
    (_hmid : ∀ e ∈ mids, assigned e.VtableInit m = none)
    (hleaf : assigned leaf.VtableInit m = some f)
    (hk : k ≤ depth (leaf :: (mids ++ [root])))
    (hw : w.TableOk (leaf :: (mids ++ [root]))) :
    (NEW (leaf :: (mids ++ [root])) cfg w).2.vt
        (upcast P (depth (leaf :: (mids ++ [root]))) (depth (leaf :: (mids ++ [root])) - k)
          (NEW (leaf :: (mids ++ [root])) cfg w).1) k
      = some (depth (leaf :: (mids ++ [root]))) ∧
    slotOf (NEW (leaf :: (mids ++ [root])) cfg w).2
        (upcast P (depth (leaf :: (mids ++ [root]))) (depth (leaf :: (mids ++ [root])) - k)
          (NEW (leaf :: (mids ++ [root])) cfg w).1) k m = some f ∧
    (∀ (prog : Chain) (args : List Int) (impl : Method), resolve prog f = some impl →
      VCALL prog
          (upcast P (depth (leaf :: (mids ++ [root]))) (depth (leaf :: (mids ++ [root])) - k)
            (NEW (leaf :: (mids ++ [root])) cfg w).1) k m args
          (NEW (leaf :: (mids ++ [root])) cfg w).2
        = impl
            (upcast P (depth (leaf :: (mids ++ [root]))) (depth (leaf :: (mids ++ [root])) - k)
              (NEW (leaf :: (mids ++ [root])) cfg w).1) args
            ((NEW (leaf :: (mids ++ [root])) cfg w).2.log (Event.method f))) := by
  have hlen : k < (leaf :: (mids ++ [root])).length := by
    simp only [depth, List.length_cons] at hk
    simp only [List.length_cons]
    omega
  have hup : upcast P (depth (leaf :: (mids ++ [root])))
      (depth (leaf :: (mids ++ [root])) - k) (NEW (leaf :: (mids ++ [root])) cfg w).1
      = (NEW (leaf :: (mids ++ [root])) cfg w).1 :=
    upcast_eq P _ _ _ (Nat.sub_le _ _)
  have hslot : slotOf (NEW (leaf :: (mids ++ [root])) cfg w).2
      (NEW (leaf :: (mids ++ [root])) cfg w).1 k m = some f :=
    NEW_slotOf [] (mids ++ [root]) leaf cfg w m f k hlen hw (by simp) hleaf
  rw [hup]
  refine ⟨?_, hslot, ?_⟩
  · rw [NEW_fst, NEW_vt, if_pos hlen]
  · intro prog args impl himpl
    simp [VCALL, hslot, himpl]

/-- C3 on the chain Vehicle, a middle class that assigns only `Fuel`, Racecar:
slot `Accelerate` through the middle-typed reference. -/
theorem C3_every_level_dispatches_to_leaf_witness :
    slotOf (NEW (Racecar :: ([{ Car with VtableInit := [("Fuel", "Car_Fuel")] }] ++ [Vehicle]))
          (RacecarCfg 350 1 [65]) World.init).2
        (upcast 8 2 (2 - 1)
          (NEW (Racecar :: ([{ Car with VtableInit := [("Fuel", "Car_Fuel")] }] ++ [Vehicle]))
            (RacecarCfg 350 1 [65]) World.init).1) 1 "Accelerate"
      = some "Racecar_Accelerate" :=
  (C3_every_level_dispatches_to_leaf Racecar Vehicle
    [{ Car with VtableInit := [("Fuel", "Car_Fuel")] }] (RacecarCfg 350 1 [65]) World.init 8
    "Accelerate" "Racecar_Accelerate" "Vehicle_Accelerate" 1 (by decide) (by decide)
    (by decide) (by decide) (fun h => absurd h (by decide))).2.1

/-! ## C4 -/

/-- C4, the code at a Racecar: `NEW` allocates the `State` blocks of Vehicle,
Car and Racecar in this order, and `DELETE` through the generic handle runs the
levels root first: Vehicle's deinit routine and `State` release, then Car's,
then Racecar's (whose deinit routine releases the driver buffer), then
the instance.  The `State` blocks are released in the order of their allocation. -/
theorem C4_racecar_levels_destroyed_root_first (cfg : Cfg) (w : World) :
    (NEW RacecarClass cfg w).2.mb (NEW RacecarClass cfg w).1 0 = some (w.next + 1) ∧
    (NEW RacecarClass cfg w).2.mb (NEW RacecarClass cfg w).1 1 = some (w.next + 2) ∧
    (NEW RacecarClass cfg w).2.mb (NEW RacecarClass cfg w).1 2 = some (w.next + 3) ∧
    newEvents (NEW RacecarClass cfg w).2
        (DELETE RacecarClass (NEW RacecarClass cfg w).1 (NEW RacecarClass cfg w).2) =
      [Event.call Routine.Delete 2, Event.call Routine.DeleteOuter 2,
       Event.call Routine.DeleteInner 2,
       Event.call Routine.Dtor 2, Event.call Routine.Dtor 1, Event.call Routine.Dtor 0,
       Event.call Routine.Deinit 0, Event.free (w.next + 1),
       Event.call Routine.Deinit 1, Event.free (w.next + 2),
       Event.call Routine.Deinit 2, Event.free (w.next + 4), Event.free (w.next + 3),
       Event.free w.next] := by
  by_cases h : w.IsVtableInit 2 = true
  · simp [newEvents, DELETE, NEW, NewOuter, NewInner, depth, RacecarClass, h, Ctor, Init,
      runInit, Racecar, Car, Vehicle, Racecar_Init, Car_Init, Vehicle_Init, Racecar_Deinit,
      Car_Deinit, Vehicle_Deinit, classOf, Delete, DeleteOuter, DeleteInner, Dtor, Deinit,
      runDeinit, World.free, World.freePtr, World.freeVal]
  · simp [newEvents, DELETE, NEW, NewOuter, NewInner, depth, RacecarClass, h, Ctor, Init,
      runInit, Racecar, Car, Vehicle, Racecar_Init, Car_Init, Vehicle_Init, Racecar_Deinit,
      Car_Deinit, Vehicle_Deinit, classOf, Delete, DeleteOuter, DeleteInner, Dtor, Deinit,
      runDeinit, World.free, World.freePtr, World.freeVal, VtableInitTree, VtableInit]

/-! ## C5 -/

/-- C5: for every class `ch` of a program, every config and every level `k` a
reference is typed at: `NEW` allocates one `State` block per level of the
class, no two levels share one, and `DELETE` applied to the reference typed at
level `k` calls `free` exactly once on every `State` block that `NEW`
allocated. -/
theorem C5_each_state_released_once (pre ch : Chain) (cfg : Cfg) (w : World) (P k : Nat)
    (hch : ch ≠ []) (_hk : k ≤ depth ch) :
    (∀ j, j ≤ depth ch → ∃ a, (NEW ch cfg w).2.mb (NEW ch cfg w).1 j = some a ∧
        Event.calloc Kind.state a ∈ newEvents w (NEW ch cfg w).2) ∧
    (∀ i j a, i ≤ depth ch → j ≤ depth ch → (NEW ch cfg w).2.mb (NEW ch cfg w).1 i = some a →
        (NEW ch cfg w).2.mb (NEW ch cfg w).1 j = some a → i = j) ∧
    (∀ a, Event.calloc Kind.state a ∈ newEvents w (NEW ch cfg w).2 →
        (newEvents (NEW ch cfg w).2
          (DELETE (pre ++ ch) (upcast P (depth ch) (depth ch - k) (NEW ch cfg w).1)
            (NEW ch cfg w).2)).count (Event.free a) = 1) := by
  have hl : 0 < ch.length := List.length_pos.mpr hch
  have hd : ∀ j, j ≤ depth ch → j < ch.length := by
    intro j hj
    simp only [depth] at hj
    omega
  obtain ⟨E, hE, hst, _⟩ := NEW_events ch cfg w
  obtain ⟨o1, o2, _⟩ := NEW_owned ch cfg w
  rw [upcast_eq P _ _ _ (Nat.sub_le _ _), NEW_fst, newEvents_of_append _ _ _ hE]
  refine ⟨?_, ?_, ?_⟩
  · intro j hj
    obtain ⟨a, ha, _, _⟩ := o1 j (hd j hj)
    exact ⟨a, ha, (hst a).mpr ⟨j, hd j hj, ha⟩⟩
  · intro i j a hi hj hia hja
    exact o2 i j a (hd i hi) (hd j hj) hia hja
  · intro a ha
    obtain ⟨j, hj, hja⟩ := (hst a).mp ha
    obtain ⟨E2, hE2, hc⟩ := DELETE_releases_state pre ch cfg w hch j a hj hja
    rw [newEvents_of_append _ _ _ hE2]
    exact hc

/-- C5 on a Racecar, deleted through its Vehicle-typed reference. -/
theorem C5_each_state_released_once_witness :
    (newEvents (NEW RacecarClass (RacecarCfg 350 1 [65]) World.init).2
      (DELETE ([] ++ RacecarClass)
        (upcast 8 (depth RacecarClass) (depth RacecarClass - 0)
          (NEW RacecarClass (RacecarCfg 350 1 [65]) World.init).1)
        (NEW RacecarClass (RacecarCfg 350 1 [65]) World.init).2)).count (Event.free 3) = 1 :=
  (C5_each_state_released_once [] RacecarClass (RacecarCfg 350 1 [65]) World.init 8 0
    (List.cons_ne_nil _ _) (by decide)).2.2 3 (by decide)

/-! ## C6 -/

/-- C6: for Vehicle, Car and Racecar, every config and every world, `NEW`
immediately followed by `DELETE` of the returned instance releases each block
that `NEW` allocated (the instance, every level's `State` block, Racecar's
driver buffer) exactly once, without undefined behaviour, and leaves the live
heap blocks as they were before `NEW`. -/
theorem C6_new_then_delete_restores_heap (cfg : Cfg) (w : World) :
    (allocated (newEvents w (NEW VehicleClass cfg w).2) =
        [(Kind.inst, w.next), (Kind.state, w.next + 1)] ∧
     released (newEvents (NEW VehicleClass cfg w).2
        (DELETE RacecarClass (NEW VehicleClass cfg w).1 (NEW VehicleClass cfg w).2)) =
        [w.next + 1, w.next] ∧
     Event.ub ∉ newEvents (NEW VehicleClass cfg w).2
        (DELETE RacecarClass (NEW VehicleClass cfg w).1 (NEW VehicleClass cfg w).2) ∧
     (DELETE RacecarClass (NEW VehicleClass cfg w).1 (NEW VehicleClass cfg w).2).live = w.live) ∧
    (allocated (newEvents w (NEW CarClass cfg w).2) =
        [(Kind.inst, w.next), (Kind.state, w.next + 1), (Kind.state, w.next + 2)] ∧
     released (newEvents (NEW CarClass cfg w).2
        (DELETE RacecarClass (NEW CarClass cfg w).1 (NEW CarClass cfg w).2)) =
        [w.next + 1, w.next + 2, w.next] ∧
     Event.ub ∉ newEvents (NEW CarClass cfg w).2
        (DELETE RacecarClass (NEW CarClass cfg w).1 (NEW CarClass cfg w).2) ∧
     (DELETE RacecarClass (NEW CarClass cfg w).1 (NEW CarClass cfg w).2).live = w.live) ∧
    (allocated (newEvents w (NEW RacecarClass cfg w).2) =
        [(Kind.inst, w.next), (Kind.state, w.next + 1), (Kind.state, w.next + 2),
         (Kind.state, w.next + 3), (Kind.buf, w.next + 4)] ∧
     released (newEvents (NEW RacecarClass cfg w).2
        (DELETE RacecarClass (NEW RacecarClass cfg w).1 (NEW RacecarClass cfg w).2)) =
        [w.next + 1, w.next + 2, w.next + 4, w.next + 3, w.next] ∧
     Event.ub ∉ newEvents (NEW RacecarClass cfg w).2
        (DELETE RacecarClass (NEW RacecarClass cfg w).1 (NEW RacecarClass cfg w).2) ∧
     (DELETE RacecarClass (NEW RacecarClass cfg w).1 (NEW RacecarClass cfg w).2).live = w.live) := by
  refine ⟨?_, ?_, ?_⟩
  · by_cases h : w.IsVtableInit 0 = true
    · simp [newEvents, allocated, released, DELETE, NEW, NewOuter, NewInner, depth, VehicleClass,
        CarClass, RacecarClass, h, Ctor, Init, runInit, Racecar, Car, Vehicle, Racecar_Init,
        Car_Init, Vehicle_Init, Racecar_Deinit, Car_Deinit, Vehicle_Deinit, classOf, Delete,
        DeleteOuter, DeleteInner, Dtor, Deinit, runDeinit, World.free, World.freePtr,
        World.freeVal]
    · simp [newEvents, allocated, released, DELETE, NEW, NewOuter, NewInner, depth, VehicleClass,
        CarClass, RacecarClass, h, Ctor, Init, runInit, Racecar, Car, Vehicle, Racecar_Init,
        Car_Init, Vehicle_Init, Racecar_Deinit, Car_Deinit, Vehicle_Deinit, classOf, Delete,
        DeleteOuter, DeleteInner, Dtor, Deinit, runDeinit, World.free, World.freePtr,
        World.freeVal, VtableInitTree, VtableInit]
  · by_cases h : w.IsVtableInit 1 = true
    · simp [newEvents, allocated, released, DELETE, NEW, NewOuter, NewInner, depth, VehicleClass,
        CarClass, RacecarClass, h, Ctor, Init, runInit, Racecar, Car, Vehicle, Racecar_Init,
        Car_Init, Vehicle_Init, Racecar_Deinit, Car_Deinit, Vehicle_Deinit, classOf, Delete,
        DeleteOuter, DeleteInner, Dtor, Deinit, runDeinit, World.free, World.freePtr,
        World.freeVal]
    · simp [newEvents, allocated, released, DELETE, NEW, NewOuter, NewInner, depth, VehicleClass,
        CarClass, RacecarClass, h, Ctor, Init, runInit, Racecar, Car, Vehicle, Racecar_Init,
        Car_Init, Vehicle_Init, Racecar_Deinit, Car_Deinit, Vehicle_Deinit, classOf, Delete,
        DeleteOuter, DeleteInner, Dtor, Deinit, runDeinit, World.free, World.freePtr,
        World.freeVal, VtableInitTree, VtableInit]
  · by_cases h : w.IsVtableInit 2 = true
    · simp [newEvents, allocated, released, DELETE, NEW, NewOuter, NewInner, depth, VehicleClass,
        CarClass, RacecarClass, h, Ctor, Init, runInit, Racecar, Car, Vehicle, Racecar_Init,
        Car_Init, Vehicle_Init, Racecar_Deinit, Car_Deinit, Vehicle_Deinit, classOf, Delete,
        DeleteOuter, DeleteInner, Dtor, Deinit, runDeinit, World.free, World.freePtr,
        World.freeVal]
    · simp [newEvents, allocated, released, DELETE, NEW, NewOuter, NewInner, depth, VehicleClass,
        CarClass, RacecarClass, h, Ctor, Init, runInit, Racecar, Car, Vehicle, Racecar_Init,
        Car_Init, Vehicle_Init, Racecar_Deinit, Car_Deinit, Vehicle_Deinit, classOf, Delete,
        DeleteOuter, DeleteInner, Dtor, Deinit, runDeinit, World.free, World.freePtr,
        World.freeVal, VtableInitTree, VtableInit]

/-! ## C7 -/

/-- C7: for every class and every sequence of instantiations of it (`NEW` or
`NewInner`), starting where the class has not been instantiated yet: the
class's `VtableInitTree` runs exactly once during the first instantiation and
not at all during the later ones, the singleton table is the same after the
last instantiation as after the first, and every level of every instance
created refers to the class's singleton `VtableDefault`. -/
theorem C7_table_built_once (ch : Chain) (first : Instantiation) (rest : List Instantiation)
    (w : World) (hch : ch ≠ []) (hflag : w.IsVtableInit (depth ch) = false) :
    (newEvents w (instantiate ch first w).2).count
        (Event.call Routine.VtableInitTree (depth ch)) = 1 ∧
    (newEvents (instantiate ch first w).2
        (instantiateAll ch rest (instantiate ch first w).2).2).count
        (Event.call Routine.VtableInitTree (depth ch)) = 0 ∧
    (instantiateAll ch rest (instantiate ch first w).2).2.VtableDefault (depth ch)
      = (instantiate ch first w).2.VtableDefault (depth ch) ∧
    (∀ p, p ∈ (instantiate ch first w).1 :: (instantiateAll ch rest (instantiate ch first w).2).1 →
      ∀ j, j ≤ depth ch →
        (instantiateAll ch rest (instantiate ch first w).2).2.vt p j = some (depth ch)) := by
  have hl : 0 < ch.length := List.length_pos.mpr hch
  obtain ⟨E1, hE1, hc1⟩ := instantiate_count ch first w hch
  obtain ⟨⟨E2, hE2, hc2⟩, ht2, hv2⟩ :=
    instantiateAll_built ch rest (instantiate ch first w).2 hch (instantiate_flag ch first w)
  rw [newEvents_of_append _ _ _ hE1, newEvents_of_append _ _ _ hE2]
  refine ⟨?_, hc2, ht2, ?_⟩
  · rw [hc1, hflag]; simp
  · intro p hp j hj
    apply hv2 p _ j (by simp only [depth] at hj; omega)
    rcases List.mem_cons.mp hp with h | h
    · exact Or.inr (instantiate_vt ch first w p (Or.inl h))
    · exact Or.inl h

/-- C7 on two Cars, the first created with `NEW` and the second with
`NewInner` on caller storage, from the process start. -/
theorem C7_table_built_once_witness :
    (newEvents (instantiate CarClass (Instantiation.outer (CarCfg 250 4)) World.init).2
        (instantiateAll CarClass [Instantiation.inner 100 (CarCfg 200 2)]
          (instantiate CarClass (Instantiation.outer (CarCfg 250 4)) World.init).2).2).count
        (Event.call Routine.VtableInitTree (depth CarClass)) = 0 :=
  (C7_table_built_once CarClass (Instantiation.outer (CarCfg 250 4))
    [Instantiation.inner 100 (CarCfg 200 2)] World.init (List.cons_ne_nil _ _) (by decide)).2.1

/-! ## C8 -/

/-- C8: for every class `ch` of a program, every config and every level `k` a
reference to the instance created by `NEW` is typed at: the zero-offset
reference read through it is the class's own `Delete`, `DELETE` is the call of
that `Delete`, it starts with `Delete`, `DeleteOuter`, `DeleteInner` and `Dtor`
of the class itself, and it runs the `Dtor` and the `Deinit` of every level. -/
theorem C8_delete_starts_at_concrete_class (pre ch : Chain) (cfg : Cfg) (w : World)
    (P k : Nat) (hch : ch ≠ []) (_hk : k ≤ depth ch) :
    (NEW ch cfg w).2.del (upcast P (depth ch) (depth ch - k) (NEW ch cfg w).1)
      = some (depth ch) ∧
    DELETE (pre ++ ch) (upcast P (depth ch) (depth ch - k) (NEW ch cfg w).1) (NEW ch cfg w).2
      = Delete ch (upcast P (depth ch) (depth ch - k) (NEW ch cfg w).1) (NEW ch cfg w).2 ∧
    (∃ T, newEvents (NEW ch cfg w).2
        (DELETE (pre ++ ch) (upcast P (depth ch) (depth ch - k) (NEW ch cfg w).1)
          (NEW ch cfg w).2)
      = [Event.call Routine.Delete (depth ch), Event.call Routine.DeleteOuter (depth ch),
         Event.call Routine.DeleteInner (depth ch), Event.call Routine.Dtor (depth ch)] ++ T) ∧
    (∀ j, j ≤ depth ch →
      Event.call Routine.Dtor j ∈ newEvents (NEW ch cfg w).2
        (DELETE (pre ++ ch) (upcast P (depth ch) (depth ch - k) (NEW ch cfg w).1)
          (NEW ch cfg w).2) ∧
      Event.call Routine.Deinit j ∈ newEvents (NEW ch cfg w).2
        (DELETE (pre ++ ch) (upcast P (depth ch) (depth ch - k) (NEW ch cfg w).1)
          (NEW ch cfg w).2)) := by
  have hl : 0 < ch.length := List.length_pos.mpr hch
  obtain ⟨E1, hE1, hhead, hall⟩ := Dtor_covers ch w.next
    ((((NEW ch cfg w).2.log (Event.call Routine.Delete (depth ch))).log
      (Event.call Routine.DeleteOuter (depth ch))).log
      (Event.call Routine.DeleteInner (depth ch)))
  obtain ⟨E2, hE2, _⟩ := free_events
    (Dtor ch w.next ((((NEW ch cfg w).2.log (Event.call Routine.Delete (depth ch))).log
      (Event.call Routine.DeleteOuter (depth ch))).log
      (Event.call Routine.DeleteInner (depth ch)))) w.next
  obtain ⟨T, hT⟩ := hhead hch
  have hev : (DELETE (pre ++ ch) w.next (NEW ch cfg w).2).trace = (NEW ch cfg w).2.trace ++
      (Event.call Routine.Delete (depth ch) :: Event.call Routine.DeleteOuter (depth ch) ::
        Event.call Routine.DeleteInner (depth ch) :: E1 ++ E2) := by
    rw [DELETE_eq pre ch _ _ hch (NEW_del ch cfg w), hE2, hE1]
    simp
  rw [upcast_eq P _ _ _ (Nat.sub_le _ _), NEW_fst, newEvents_of_append _ _ _ hev]
  refine ⟨NEW_del ch cfg w, ?_, ⟨T ++ E2, by simp [hT]⟩, ?_⟩
  · simp [DELETE, NEW_del, classOf_append pre ch hch]
  · intro j hj
    obtain ⟨h1, h2⟩ := hall j (by simp only [depth] at hj; omega)
    simp [h1, h2]

/-- C8 on a Racecar deleted through its Car-typed reference. -/
theorem C8_delete_starts_at_concrete_class_witness :
    (NEW RacecarClass (RacecarCfg 350 1 [65]) World.init).2.del
        (upcast 8 (depth RacecarClass) (depth RacecarClass - 1)
          (NEW RacecarClass (RacecarCfg 350 1 [65]) World.init).1)
      = some (depth RacecarClass) :=
  (C8_delete_starts_at_concrete_class [] RacecarClass (RacecarCfg 350 1 [65]) World.init 8 1
    (List.cons_ne_nil _ _) (by decide)).1

/-! ## C9 -/

/-- C9 as stated fails: after the first `NEW(Car, cfg)` of a process in which
no Vehicle was created, Vehicle's built-flag is not set and the slots of
Vehicle's own singleton table are null. -/
theorem C9_ancestor_table_not_built_counterexample :
    ¬ ((NEW CarClass (CarCfg 250 4) World.init).2.IsVtableInit (depth VehicleClass) = true ∧
       (NEW CarClass (CarCfg 250 4) World.init).2.VtableDefault (depth VehicleClass) "Accelerate"
          = some "Vehicle_Accelerate" ∧
       (NEW CarClass (CarCfg 250 4) World.init).2.VtableDefault (depth VehicleClass) "Brake"
          = some "Vehicle_Brake") := by
  decide

/-- C9 amended: a class's table is built on the first instantiation of that
class itself.  For a class `d :: bases` and its ancestor at depth `a`:
`NEW` of the descendant leaves the ancestor's built-flag and the ancestor's own
singleton as they were, sets the descendant's flag and, when that was unset,
leaves in the descendant's singleton the tree build of the descendant's chain;
the first `NEW` of the ancestor itself sets the ancestor's flag and builds the
ancestor's singleton; and an instantiation of the ancestor class whose flag is
set does not run the tree build and leaves the singleton as it is. -/
theorem C9_table_built_by_own_class (d : ClassDef) (bases : Chain) (cfg : Cfg) (w : World)
    (a : Nat) (ha : a < bases.length) :
    (NEW (d :: bases) cfg w).2.IsVtableInit a = w.IsVtableInit a ∧
    (NEW (d :: bases) cfg w).2.VtableDefault a = w.VtableDefault a ∧
    (NEW (d :: bases) cfg w).2.IsVtableInit (depth (d :: bases)) = true ∧
    (w.IsVtableInit (depth (d :: bases)) = false →
      (NEW (d :: bases) cfg w).2.VtableDefault (depth (d :: bases))
        = (VtableInitTree (d :: bases) (depth (d :: bases)) w).VtableDefault
            (depth (d :: bases))) ∧
    (∀ (cfgA : Cfg) (v : World), v.IsVtableInit a = false →
      (NEW (classOf (d :: bases) a) cfgA v).2.IsVtableInit a = true ∧
      (NEW (classOf (d :: bases) a) cfgA v).2.VtableDefault a
        = (VtableInitTree (classOf (d :: bases) a) a v).VtableDefault a) ∧
    (∀ (i : Instantiation) (v : World), v.IsVtableInit a = true →
      (newEvents v (instantiate (classOf (d :: bases) a) i v).2).count
          (Event.call Routine.VtableInitTree a) = 0 ∧
      (instantiate (classOf (d :: bases) a) i v).2.VtableDefault a = v.VtableDefault a) := by
  have hne : a ≠ depth (d :: bases) := by simp only [depth, List.length_cons]; omega
  obtain ⟨hdep, hnil⟩ := classOf_depth (d :: bases) a (by simp only [List.length_cons]; omega)
  refine ⟨?_, ?_, ?_, ?_, ?_, ?_⟩
  · simp only [NEW, NewOuter, setDel_IsVtableInit]
    rw [NewInner_flag_other _ _ _ _ _ hne]
    simp
  · simp only [NEW, NewOuter, setDel_VtableDefault]
    rw [NewInner_table_other _ _ _ _ _ hne]
    simp
  · exact NEW_flag _ _ _
  · intro hf
    exact NEW_table_first _ _ _ hf
  · intro cfgA v hv
    have h1 := NEW_flag (classOf (d :: bases) a) cfgA v
    have h2 := NEW_table_first (classOf (d :: bases) a) cfgA v (by rw [hdep]; exact hv)
    rw [hdep] at h1 h2
    exact ⟨h1, h2⟩
  · intro i v hv
    obtain ⟨E, hE, hc⟩ := instantiate_count (classOf (d :: bases) a) i v hnil
    rw [hdep, if_pos hv] at hc
    refine ⟨by rw [newEvents_of_append _ _ _ hE]; exact hc, ?_⟩
    have := instantiate_table (classOf (d :: bases) a) i v (by rw [hdep]; exact hv)
    rw [hdep] at this
    exact this

/-- C9 amended, on Car over Vehicle from the process start: Vehicle's flag
stays unset. -/
theorem C9_table_built_by_own_class_witness :
    (NEW (Car :: [Vehicle]) (CarCfg 250 4) World.init).2.IsVtableInit 0
      = World.init.IsVtableInit 0 :=
  (C9_table_built_by_own_class Car [Vehicle] (CarCfg 250 4) World.init 0 (by decide)).1

/-! ## C10 -/

/-- C10: for an instance `p` of the class at depth `dep` and its ancestor `n`
levels up (`n ≤ dep`), for every pointer size: the `Base` member of every
derived class struct on the way is at offset 0, the offset `GET_CHILDCLASS`
subtracts is 0, the up-cast reference is the address `p` itself, and the
down-cast of the up-cast reference is `p`. -/
theorem C10_downcast_of_upcast (P dep n p : Nat) (hn : n ≤ dep) :
    (∀ e, e < n → offsetof (classStruct P (dep - e)) "Base" = 0) ∧
    offsetofBase P dep n = 0 ∧
    upcast P dep n p = p ∧
    GET_CHILDCLASS P (upcast P dep n p : Nat) dep n = (p : Int) := by
  refine ⟨?_, offsetofBase_zero P dep n hn, upcast_eq P dep n p hn, ?_⟩
  · intro e he
    obtain ⟨m, hm⟩ : ∃ m, dep - e = m + 1 := ⟨dep - e - 1, by omega⟩
    rw [hm]
    simp [classStruct, offsetof]
  · simp [GET_CHILDCLASS, upcast_eq P dep n p hn, offsetofBase_zero P dep n hn]

/-- C10 on a Racecar at address 1000 and its Vehicle view, with 8-byte
pointers: `GET_CHILDCLASS(&p->Base.Base, Racecar, Base.Base)` is `p`. -/
theorem C10_downcast_of_upcast_witness :
    GET_CHILDCLASS 8 (upcast 8 2 2 1000 : Nat) 2 2 = (1000 : Int) :=
  (C10_downcast_of_upcast 8 2 2 1000 (by decide)).2.2.2

/-! ## C11 -/

/-- C11: for every class, every config and every level `j` of the class's
chain, after `NEW` the table reference of level `j` is the class's singleton,
and level `j` has its own live `State` block, which holds what the `_Init` of
the class at depth `j` writes, from the config embedded at that depth, into a
zero-filled block.  `NEW(Car, {Base:{TopSpeed:t}, Seats:s})` yields Vehicle-level
`TopSpeed = t` and `CurrentSpeed = 0`, and Car-level `Seats = s`. -/
theorem C11_instance_well_formed_at_every_level (ch : Chain) (cfg : Cfg) (w : World) (j : Nat)
    (hch : ch ≠ []) (hj : j ≤ depth ch) :
    (NEW ch cfg w).2.vt (NEW ch cfg w).1 j = some (depth ch) ∧
    (∃ a, (NEW ch cfg w).2.mb (NEW ch cfg w).1 j = some a ∧ a ∈ (NEW ch cfg w).2.live ∧
      Populated (NEW ch cfg w).2 a (levelInit ch cfg j)) ∧
    (∀ t s : Int, ∃ a0 a1,
      (NEW CarClass (CarCfg t s) w).2.mb (NEW CarClass (CarCfg t s) w).1 0 = some a0 ∧
      (NEW CarClass (CarCfg t s) w).2.st a0 0 = Val.int t ∧
      (NEW CarClass (CarCfg t s) w).2.st a0 1 = Val.int 0 ∧
      (NEW CarClass (CarCfg t s) w).2.mb (NEW CarClass (CarCfg t s) w).1 1 = some a1 ∧
      (NEW CarClass (CarCfg t s) w).2.st a1 0 = Val.int s) := by
  have hl : 0 < ch.length := List.length_pos.mpr hch
  have hlt : j < ch.length := by simp only [depth] at hj; omega
  refine ⟨by rw [NEW_fst, NEW_vt, if_pos hlt], by rw [NEW_fst]; exact NEW_populated ch cfg w j hlt,
    ?_⟩
  intro t s
  refine ⟨w.next + 1, w.next + 2, ?_⟩
  by_cases h : w.IsVtableInit 1 = true
  · simp [NEW, NewOuter, NewInner, depth, CarClass, CarCfg, h, Ctor, Init, runInit, Car, Vehicle,
      Car_Init, Vehicle_Init]
  · simp [NEW, NewOuter, NewInner, depth, CarClass, CarCfg, h, Ctor, Init, runInit, Car, Vehicle,
      Car_Init, Vehicle_Init, VtableInitTree, VtableInit]

/-- C11 on a Racecar at its Car level, from the process start. -/
theorem C11_instance_well_formed_at_every_level_witness :
    (NEW RacecarClass (RacecarCfg 350 1 [65]) World.init).2.vt
        (NEW RacecarClass (RacecarCfg 350 1 [65]) World.init).1 1
      = some (depth RacecarClass) :=
  (C11_instance_well_formed_at_every_level RacecarClass (RacecarCfg 350 1 [65]) World.init 1
    (List.cons_ne_nil _ _) (by decide)).1

/-! ## C14 -/

/-- C14: for every class chain, the events of `NEW` are: the allocation of
the instance and the table build, the constructors entered from the class down to
the root, and then one segment per level, from the root up to the class, each
made of the allocation of the level's `State` block, the call of the level's
`_Init` and the allocations of that `_Init`; the `State` block of a level holds
what that level's `_Init` writes from the config embedded for the level into a
zero-filled block.  The constructor of a class works on the world in which its
base class's constructor, run on `&pCfg->Base`, has returned: there every
ancestor level has its table reference and its populated `State` block, and the
class's own level has not been touched. -/
theorem C14_levels_constructed_ancestor_first (ch : Chain) (cfg : Cfg) (w : World) :
    (∃ (pre : List Event) (segs : List (List Event)), segs.length = ch.length ∧
      newEvents w (NEW ch cfg w).2 = pre ++
        (List.range ch.length).reverse.map (Event.call Routine.Ctor) ++ segs.flatten ∧
      (∀ e, e ∈ pre → e = Event.calloc Kind.inst w.next ∨
        ∃ c, e = Event.call Routine.NewOuter c ∨ e = Event.call Routine.NewInner c ∨
          e = Event.call Routine.VtableInitTree c ∨ e = Event.call Routine.VtableInit c) ∧
      ∀ j, j < ch.length → ∃ a B, (NEW ch cfg w).2.mb (NEW ch cfg w).1 j = some a ∧
        segs[j]? = some (Event.calloc Kind.state a :: Event.call Routine.Init j :: B) ∧
        (∀ e, e ∈ B → ∃ b, e = Event.calloc Kind.buf b) ∧
        Populated (NEW ch cfg w).2 a (levelInit ch cfg j)) ∧
    (∀ (d : ClassDef) (bases : Chain) (p t : Nat) (v : World),
      Ctor (d :: bases) p t cfg v =
        Init d bases.length p (cfg.headD [])
          ((((((Ctor bases p t cfg.tail (v.log (Event.call Routine.Ctor bases.length))).setVt p
            bases.length (some t)).calloc Kind.state).2).zeroSt
              (Ctor bases p t cfg.tail (v.log (Event.call Routine.Ctor bases.length))).next).setMb
            p bases.length
            (some (Ctor bases p t cfg.tail
              (v.log (Event.call Routine.Ctor bases.length))).next)) ∧
      (Ctor bases p t cfg.tail (v.log (Event.call Routine.Ctor bases.length))).vt p bases.length
        = v.vt p bases.length ∧
      (Ctor bases p t cfg.tail (v.log (Event.call Routine.Ctor bases.length))).mb p bases.length
        = v.mb p bases.length ∧
      ∀ j, j < bases.length →
        (Ctor bases p t cfg.tail (v.log (Event.call Routine.Ctor bases.length))).vt p j
          = some t ∧
        ∃ a, (Ctor bases p t cfg.tail (v.log (Event.call Routine.Ctor bases.length))).mb p j
            = some a ∧
          Populated (Ctor bases p t cfg.tail (v.log (Event.call Routine.Ctor bases.length))) a
            (levelInit bases cfg.tail j)) := by
  constructor
  · obtain ⟨v, pre, hv, _, _, _, hpre, hpre2⟩ := NEW_as_Ctor ch cfg w
    obtain ⟨segs, hlen, htr, hseg⟩ := Ctor_segments ch w.next (depth ch) cfg v
    have hmb : (NEW ch cfg w).2.mb = (Ctor ch w.next (depth ch) cfg v).mb := by
      rw [hv]; simp
    refine ⟨pre, segs, hlen, ?_, hpre2, ?_⟩
    · apply newEvents_of_append
      rw [hv, setDel_trace, htr, hpre]
      simp
    · intro j hj
      obtain ⟨a, B, ha, hs, hB⟩ := hseg j hj
      obtain ⟨a2, ha2, _, hP⟩ := NEW_populated ch cfg w j hj
      rw [hmb, ha] at ha2
      cases ha2
      exact ⟨a, B, by rw [NEW_fst, hmb]; exact ha, hs, hB, hP⟩
  · intro d bases p t v
    refine ⟨rfl, ?_, ?_, ?_⟩
    · rw [Ctor_vt]; simp
    · rw [Ctor_mb_ge _ _ _ _ _ _ (Nat.le_refl _)]; simp
    · intro j hj
      refine ⟨by rw [Ctor_vt, if_pos ⟨rfl, hj⟩], ?_⟩
      exact Ctor_populated bases p t cfg.tail _ j hj

/-! ## C18 -/

/-- C18: on a Vehicle-level state (`State` block `a` of the instance `p`),
`Vehicle_Accelerate` with a requested speed sets `CurrentSpeed` to the speed
and changes nothing else of the state when `CurrentSpeed < speed ≤ TopSpeed`,
and otherwise leaves the world as it is; so it never lowers `CurrentSpeed`, a
request with `speed ≤ CurrentSpeed` is ignored, and `Vehicle_Brake` sets
`CurrentSpeed` to 0. -/
theorem C18_accelerate_guard (p a : Nat) (speed : Int) (w : World) (ha : w.mb p 0 = some a) :
    (((w.st a 1).toInt < speed ∧ speed ≤ (w.st a 0).toInt) →
      (Vehicle_Accelerate p [speed] w).st a 1 = Val.int speed ∧
      (∀ i, i ≠ 1 → (Vehicle_Accelerate p [speed] w).st a i = w.st a i) ∧
      (∀ s, s ≠ a → (Vehicle_Accelerate p [speed] w).st s = w.st s) ∧
      (Vehicle_Accelerate p [speed] w).mb = w.mb ∧
      (Vehicle_Accelerate p [speed] w).live = w.live) ∧
    (¬ ((w.st a 1).toInt < speed ∧ speed ≤ (w.st a 0).toInt) →
      Vehicle_Accelerate p [speed] w = w) ∧
    (speed ≤ (w.st a 1).toInt → Vehicle_Accelerate p [speed] w = w) ∧
    (w.st a 1).toInt ≤ ((Vehicle_Accelerate p [speed] w).st a 1).toInt ∧
    (Vehicle_Brake p [] w).st a 1 = Val.int 0 := by
  rw [Vehicle_Accelerate_eq p a speed w ha]
  refine ⟨?_, ?_, ?_, ?_, ?_⟩
  · intro h
    rw [if_pos h]
    refine ⟨by simp, ?_, ?_, rfl, rfl⟩
    · intro i hi
      simp [Function.update_noteq hi]
    · intro s hs
      simp [Function.update_noteq hs]
  · intro h
    rw [if_neg h]
  · intro h
    rw [if_neg (by omega)]
  · by_cases h : (w.st a 1).toInt < speed ∧ speed ≤ (w.st a 0).toInt
    · rw [if_pos h]
      simp only [setSt_st, Function.update_same]
      have : (Val.int speed).toInt = speed := rfl
      omega
    · rw [if_neg h]
  · simp [Vehicle_Brake, ha]

/-- C18 on the Vehicle of `main`: accelerating the new Vehicle to 200. -/
theorem C18_accelerate_guard_witness :
    (NEW VehicleClass (VehicleCfg 390) World.init).2.mb 1 0 = some 2 ∧
    (Vehicle_Accelerate 1 [200] (NEW VehicleClass (VehicleCfg 390) World.init).2).st 2 1
      = Val.int 200 :=
  ⟨by decide,
   ((C18_accelerate_guard 1 2 200 (NEW VehicleClass (VehicleCfg 390) World.init).2
      (by decide)).1 (by decide)).1⟩

/-! ## C20 -/

/-- C20: on an instance `p` with Vehicle-level `State` block `a`, for every
requested speed: on a Car (a Car-level block exists) `Car_Accelerate`, and on a
Racecar (a Racecar-level block with a driver buffer exists) `Racecar_Accelerate`,
leave the same world as `Vehicle_Accelerate` up to the trace, where each prints
its own message exactly when `Vehicle_Accelerate` prints one; and none of the
three changes a `State` block other than the Vehicle-level one. -/
theorem C20_accelerate_overrides_equivalent (p a : Nat) (speed : Int) (w : World)
    (ha : w.mb p 0 = some a) :
    (∀ c, w.mb p 1 = some c →
      SameState (Car_Accelerate p [speed] w) (Vehicle_Accelerate p [speed] w) ∧
      newEvents w (Car_Accelerate p [speed] w) =
        (newEvents w (Vehicle_Accelerate p [speed] w)).map
          (fun _ => Event.printf "The car with %d seats accelerates to %d km/h.\n"
            [(w.st c 0).toInt, speed])) ∧
    (∀ c b, w.mb p 2 = some c → w.st c 0 = Val.ptr b →
      SameState (Racecar_Accelerate p [speed] w) (Vehicle_Accelerate p [speed] w) ∧
      newEvents w (Racecar_Accelerate p [speed] w) =
        (newEvents w (Vehicle_Accelerate p [speed] w)).map
          (fun _ => Event.printf "The racecar of %s accelerates to %d km/h.\n"
            (cstring (w.bytes b) ++ [speed]))) ∧
    (∀ s, s ≠ a →
      (Vehicle_Accelerate p [speed] w).st s = w.st s ∧
      (Car_Accelerate p [speed] w).st s = w.st s ∧
      (Racecar_Accelerate p [speed] w).st s = w.st s) := by
  refine ⟨?_, ?_, ?_⟩
  · intro c hc
    rw [Car_Accelerate_eq p a c speed w ha hc, Vehicle_Accelerate_eq p a speed w ha]
    by_cases h : (w.st a 1).toInt < speed ∧ speed ≤ (w.st a 0).toInt
    · rw [if_pos h, if_pos h]
      exact ⟨⟨rfl, rfl, rfl, rfl, rfl, rfl, rfl, rfl, rfl⟩, by simp [newEvents]⟩
    · rw [if_neg h, if_neg h]
      exact ⟨⟨rfl, rfl, rfl, rfl, rfl, rfl, rfl, rfl, rfl⟩, by simp [newEvents]⟩
  · intro c b hc hb
    rw [Racecar_Accelerate_eq p a c b speed w ha hc hb, Vehicle_Accelerate_eq p a speed w ha]
    by_cases h : (w.st a 1).toInt < speed ∧ speed ≤ (w.st a 0).toInt
    · rw [if_pos h, if_pos h]
      exact ⟨⟨rfl, rfl, rfl, rfl, rfl, rfl, rfl, rfl, rfl⟩, by simp [newEvents]⟩
    · rw [if_neg h, if_neg h]
      exact ⟨⟨rfl, rfl, rfl, rfl, rfl, rfl, rfl, rfl, rfl⟩, by simp [newEvents]⟩
  · intro s hs
    refine ⟨?_, ?_, ?_⟩
    · rw [Vehicle_Accelerate_eq p a speed w ha]
      split <;> simp [Function.update_noteq hs]
    · simp only [Car_Accelerate, ha]
      split
      · split <;> simp [Function.update_noteq hs]
      · rfl
    · simp only [Racecar_Accelerate, ha]
      split
      · split
        · simp
        · split <;> simp [Function.update_noteq hs]
      · rfl

/-- C20 on the Car of `main`: `Car_Accelerate` and `Vehicle_Accelerate` with
230 leave the same state. -/
theorem C20_accelerate_overrides_equivalent_witness :
    (NEW CarClass (CarCfg 250 4) World.init).2.mb 1 0 = some 2 ∧
    (NEW CarClass (CarCfg 250 4) World.init).2.mb 1 1 = some 3 ∧
    SameState (Car_Accelerate 1 [230] (NEW CarClass (CarCfg 250 4) World.init).2)
      (Vehicle_Accelerate 1 [230] (NEW CarClass (CarCfg 250 4) World.init).2) :=
  ⟨by decide, by decide,
   ((C20_accelerate_overrides_equivalent 1 2 230 (NEW CarClass (CarCfg 250 4) World.init).2
      (by decide)).1 3 (by decide)).1⟩

/-! ## C19 -/

/-- C19: for an instance of Vehicle, Car or Racecar created with `NEW` from any
config, and every sequence of `Accelerate` and `Brake` calls dispatched on it
with `VCALL` through references typed at any level: the Vehicle-level `State`
block has `TopSpeed` equal to the configured value and a `CurrentSpeed` that is
not negative and is 0 or at most `TopSpeed`. -/
theorem C19_vehicle_state_invariant (ch : Chain) (cfg : Cfg) (w : World)
    (calls : List MethodCall)
    (hch : ch = VehicleClass ∨ ch = CarClass ∨ ch = RacecarClass) :
    ∃ a cur,
      (dispatchAll RacecarClass (NEW ch cfg w).1 calls (NEW ch cfg w).2).mb (NEW ch cfg w).1 0
        = some a ∧
      (dispatchAll RacecarClass (NEW ch cfg w).1 calls (NEW ch cfg w).2).st a 0
        = Val.int ((cfg.getD (depth ch) []).getD 0 0) ∧
      (dispatchAll RacecarClass (NEW ch cfg w).1 calls (NEW ch cfg w).2).st a 1 = Val.int cur ∧
      0 ≤ cur ∧ (cur = 0 ∨ cur ≤ (cfg.getD (depth ch) []).getD 0 0) := by
  have key : ∀ pre : Chain, ∃ a cur,
      (dispatchAll RacecarClass (NEW (pre ++ [Vehicle]) cfg w).1 calls
        (NEW (pre ++ [Vehicle]) cfg w).2).mb (NEW (pre ++ [Vehicle]) cfg w).1 0 = some a ∧
      (dispatchAll RacecarClass (NEW (pre ++ [Vehicle]) cfg w).1 calls
        (NEW (pre ++ [Vehicle]) cfg w).2).st a 0
        = Val.int ((cfg.getD pre.length []).getD 0 0) ∧
      (dispatchAll RacecarClass (NEW (pre ++ [Vehicle]) cfg w).1 calls
        (NEW (pre ++ [Vehicle]) cfg w).2).st a 1 = Val.int cur ∧
      0 ≤ cur ∧ (cur = 0 ∨ cur ≤ (cfg.getD pre.length []).getD 0 0) := by
    intro pre
    obtain ⟨a, hinv⟩ := NEW_VehicleInv pre cfg w
    obtain ⟨h1, h2, cur, h3, h4, h5⟩ :=
      dispatchAll_inv (NEW (pre ++ [Vehicle]) cfg w).1 a _ calls _ hinv
    exact ⟨a, cur, h1, h2, h3, h4, h5⟩
  rcases hch with rfl | rfl | rfl
  · exact key []
  · exact key [Car]
  · exact key [Racecar, Car]

/-- C19 on the Car of `main`, accelerated to 230 and braked. -/
theorem C19_vehicle_state_invariant_witness :
    ∃ a cur,
      (dispatchAll RacecarClass (NEW CarClass (CarCfg 250 4) World.init).1
        [MethodCall.accelerate 0 230, MethodCall.brake 0]
        (NEW CarClass (CarCfg 250 4) World.init).2).mb
          (NEW CarClass (CarCfg 250 4) World.init).1 0 = some a ∧
      (dispatchAll RacecarClass (NEW CarClass (CarCfg 250 4) World.init).1
        [MethodCall.accelerate 0 230, MethodCall.brake 0]
        (NEW CarClass (CarCfg 250 4) World.init).2).st a 0
        = Val.int (((CarCfg 250 4).getD (depth CarClass) []).getD 0 0) ∧
      (dispatchAll RacecarClass (NEW CarClass (CarCfg 250 4) World.init).1
        [MethodCall.accelerate 0 230, MethodCall.brake 0]
        (NEW CarClass (CarCfg 250 4) World.init).2).st a 1 = Val.int cur ∧
      0 ≤ cur ∧ (cur = 0 ∨ cur ≤ ((CarCfg 250 4).getD (depth CarClass) []).getD 0 0) :=
  C19_vehicle_state_invariant CarClass (CarCfg 250 4) World.init
    [MethodCall.accelerate 0 230, MethodCall.brake 0] (Or.inr (Or.inl rfl))

/-! ## C12 -/

/-- C12: Vehicle is the root with the guarded `Accelerate`, Car overrides it,
and `leaf` is any class derived from Car that does not assign `Accelerate`.
For an instance of `leaf` created with top speed 200: `Accelerate` with 150
through the Vehicle-typed reference runs `Car_Accelerate` (it prints the car's
message) and `CurrentSpeed` becomes 150; `Accelerate` with 250 next runs
`Car_Accelerate`, which prints and changes nothing, and `CurrentSpeed` remains
150.  In general, in every state of an instance whose `Accelerate` slot holds
`Car_Accelerate` and whose `TopSpeed` is `top`, whatever its `CurrentSpeed`, a
call with `v` above `top` through a reference of any level only records the call
of `Car_Accelerate` and changes nothing else; in particular this holds for
every top speed after `NEW` followed by any sequence of `Accelerate` calls
through the Vehicle-typed reference. -/
theorem C12_middle_override_through_root_reference (leaf : ClassDef) (own : List Int)
    (seats : Int) (w : World) (P : Nat) (r : Nat × World) (w1 w2 : World)
    (hleaf : assigned leaf.VtableInit "Accelerate" = none)
    (hname : leaf.methods.lookup "Car_Accelerate" = none)
    (hw : w.TableOk (leaf :: CarClass))
    (hr : r = NEW (leaf :: CarClass) [own, [seats], [200]] w)
    (h1 : w1 = VCALL (leaf :: CarClass) (upcast P 2 2 r.1) 0 "Accelerate" [150] r.2)
    (h2 : w2 = VCALL (leaf :: CarClass) (upcast P 2 2 r.1) 0 "Accelerate" [250] w1) :
    (∃ a, r.2.mb r.1 0 = some a ∧ r.2.st a 0 = Val.int 200 ∧ r.2.st a 1 = Val.int 0 ∧
      newEvents r.2 w1 = [Event.method "Car_Accelerate",
        Event.printf "The car with %d seats accelerates to %d km/h.\n" [seats, 150]] ∧
      w1.st a 1 = Val.int 150 ∧
      newEvents w1 w2 = [Event.method "Car_Accelerate"] ∧
      w2.st a 1 = Val.int 150 ∧ w2.st = w1.st) ∧
    (∀ (u : World) (p k a c : Nat) (top v : Int),
      slotOf u p k "Accelerate" = some "Car_Accelerate" → u.mb p 0 = some a →
      u.mb p 1 = some c → u.st a 0 = Val.int top → top < v →
      VCALL (leaf :: CarClass) p k "Accelerate" [v] u
        = u.log (Event.method "Car_Accelerate")) ∧
    (∀ (top : Int) (speeds : List Int) (v : Int), top < v →
      VCALL (leaf :: CarClass)
        (upcast P 2 2 (NEW (leaf :: CarClass) [own, [seats], [top]] w).1) 0 "Accelerate" [v]
        (dispatchAll (leaf :: CarClass)
          (upcast P 2 2 (NEW (leaf :: CarClass) [own, [seats], [top]] w).1)
          (speeds.map (MethodCall.accelerate 0))
          (NEW (leaf :: CarClass) [own, [seats], [top]] w).2)
        = (dispatchAll (leaf :: CarClass)
          (upcast P 2 2 (NEW (leaf :: CarClass) [own, [seats], [top]] w).1)
          (speeds.map (MethodCall.accelerate 0))
          (NEW (leaf :: CarClass) [own, [seats], [top]] w).2).log
            (Event.method "Car_Accelerate") ∧
      (VCALL (leaf :: CarClass)
        (upcast P 2 2 (NEW (leaf :: CarClass) [own, [seats], [top]] w).1) 0 "Accelerate" [v]
        (dispatchAll (leaf :: CarClass)
          (upcast P 2 2 (NEW (leaf :: CarClass) [own, [seats], [top]] w).1)
          (speeds.map (MethodCall.accelerate 0))
          (NEW (leaf :: CarClass) [own, [seats], [top]] w).2)).st
        = (dispatchAll (leaf :: CarClass)
          (upcast P 2 2 (NEW (leaf :: CarClass) [own, [seats], [top]] w).1)
          (speeds.map (MethodCall.accelerate 0))
          (NEW (leaf :: CarClass) [own, [seats], [top]] w).2).st) := by
  have hslot : ∀ top : Int,
      slotOf (NEW (leaf :: CarClass) [own, [seats], [top]] w).2 w.next 0 "Accelerate"
        = some "Car_Accelerate" := by
    intro top
    have := NEW_slotOf [leaf] [Vehicle] Car [own, [seats], [top]] w "Accelerate"
      "Car_Accelerate" 0 (by simp) hw
      (by intro e he; rw [List.mem_singleton.mp he]; exact hleaf) (by decide)
    rw [NEW_fst] at this
    exact this
  have hup : ∀ q : Nat, upcast P 2 2 q = q := fun q => upcast_eq P 2 2 q (Nat.le_refl _)
  refine ⟨?_, ?_, ?_⟩
  · subst hr
    obtain ⟨a, c, ha, hc, h200, h0, hs⟩ := NEW_overCar leaf own seats 200 w
    rw [hup, NEW_fst] at h1 h2
    rw [VCALL_Car_Accelerate leaf w.next 0 a c 150 _ hname (hslot 200) ha hc, h200, h0,
      hs] at h1
    have e1 : (Val.int 0).toInt = 0 := rfl
    have e2 : (Val.int 200).toInt = 200 := rfl
    have e3 : (Val.int seats).toInt = seats := rfl
    rw [e1, e2, e3, if_pos (by decide)] at h1
    have hslot1 : slotOf w1 w.next 0 "Accelerate" = some "Car_Accelerate" := by
      rw [h1]; exact hslot 200
    have ha1 : w1.mb w.next 0 = some a := by rw [h1]; exact ha
    have hc1 : w1.mb w.next 1 = some c := by rw [h1]; exact hc
    have hsp : w1.st a 1 = Val.int 150 := by rw [h1]; simp
    have htp : w1.st a 0 = Val.int 200 := by rw [h1]; simp [h200]
    rw [VCALL_Car_Accelerate leaf w.next 0 a c 250 w1 hname hslot1 ha1 hc1, hsp, htp] at h2
    have e4 : (Val.int 150).toInt = 150 := rfl
    rw [e2, e4, if_neg (by decide)] at h2
    refine ⟨a, by rw [NEW_fst]; exact ha, h200, h0, ?_, hsp, ?_, ?_, ?_⟩
    · rw [h1]; simp [newEvents]
    · rw [h2]; simp [newEvents]
    · rw [h2]; exact hsp
    · rw [h2]; rfl
  · intro u p k a c top v hs ha hc htop hv
    exact VCALL_Car_Accelerate_above leaf p k a c v top u hname hs ha hc htop hv
  · intro top speeds v hv
    obtain ⟨a, c, ha, hc, htop, _, _⟩ := NEW_overCar leaf own seats top w
    obtain ⟨k1, k2, k3, k4⟩ := accelerateAll_keeps leaf w.next a c top speeds
      (NEW (leaf :: CarClass) [own, [seats], [top]] w).2 hname (hslot top) ha hc htop
    rw [hup, NEW_fst,
      VCALL_Car_Accelerate_above leaf w.next 0 a c v top _ hname k1 k2 k3 k4 hv]
    exact ⟨rfl, rfl⟩

/-- C12 with Racecar stripped of its override as the leaf, from the process
start: after the two calls `CurrentSpeed` is 150; and after a call with 160
instead, `CurrentSpeed` is 160 and a call with 250 changes no `State`, so that
`CurrentSpeed` is still 160. -/
theorem C12_middle_override_through_root_reference_witness :
    (∃ a, (NEW ({ Racecar with VtableInit := [] } :: CarClass) [[65], [4], [200]]
        World.init).2.mb
        (NEW ({ Racecar with VtableInit := [] } :: CarClass) [[65], [4], [200]] World.init).1 0
        = some a ∧
      (VCALL ({ Racecar with VtableInit := [] } :: CarClass)
        (upcast 8 2 2
          (NEW ({ Racecar with VtableInit := [] } :: CarClass) [[65], [4], [200]]
            World.init).1) 0 "Accelerate" [250]
        (VCALL ({ Racecar with VtableInit := [] } :: CarClass)
          (upcast 8 2 2
            (NEW ({ Racecar with VtableInit := [] } :: CarClass) [[65], [4], [200]]
              World.init).1) 0 "Accelerate" [150]
          (NEW ({ Racecar with VtableInit := [] } :: CarClass) [[65], [4], [200]]
            World.init).2)).st a 1 = Val.int 150) ∧
    (dispatchAll ({ Racecar with VtableInit := [] } :: CarClass)
        (upcast 8 2 2
          (NEW ({ Racecar with VtableInit := [] } :: CarClass) [[65], [4], [200]]
            World.init).1)
        ([160].map (MethodCall.accelerate 0))
        (NEW ({ Racecar with VtableInit := [] } :: CarClass) [[65], [4], [200]]
          World.init).2).st 2 1 = Val.int 160 ∧
    (VCALL ({ Racecar with VtableInit := [] } :: CarClass)
        (upcast 8 2 2
          (NEW ({ Racecar with VtableInit := [] } :: CarClass) [[65], [4], [200]]
            World.init).1) 0 "Accelerate" [250]
        (dispatchAll ({ Racecar with VtableInit := [] } :: CarClass)
          (upcast 8 2 2
            (NEW ({ Racecar with VtableInit := [] } :: CarClass) [[65], [4], [200]]
              World.init).1)
          ([160].map (MethodCall.accelerate 0))
          (NEW ({ Racecar with VtableInit := [] } :: CarClass) [[65], [4], [200]]
            World.init).2)).st
      = (dispatchAll ({ Racecar with VtableInit := [] } :: CarClass)
          (upcast 8 2 2
            (NEW ({ Racecar with VtableInit := [] } :: CarClass) [[65], [4], [200]]
              World.init).1)
          ([160].map (MethodCall.accelerate 0))
          (NEW ({ Racecar with VtableInit := [] } :: CarClass) [[65], [4], [200]]
            World.init).2).st ∧
    (VCALL ({ Racecar with VtableInit := [] } :: CarClass)
        (upcast 8 2 2
          (NEW ({ Racecar with VtableInit := [] } :: CarClass) [[65], [4], [200]]
            World.init).1) 0 "Accelerate" [250]
        (dispatchAll ({ Racecar with VtableInit := [] } :: CarClass)
          (upcast 8 2 2
            (NEW ({ Racecar with VtableInit := [] } :: CarClass) [[65], [4], [200]]
              World.init).1)
          ([160].map (MethodCall.accelerate 0))
          (NEW ({ Racecar with VtableInit := [] } :: CarClass) [[65], [4], [200]]
            World.init).2)).st 2 1 = Val.int 160 := by
  obtain ⟨⟨a, h1, _, _, _, _, _, h7, _⟩, _, h3⟩ :=
    C12_middle_override_through_root_reference { Racecar with VtableInit := [] } [65] 4
      World.init 8 _ _ _ (by decide) (by rfl) (fun h => absurd h (by decide)) rfl rfl rfl
  exact ⟨⟨a, h1, h7⟩, by decide, (h3 200 [160] 250 (by decide)).2, by decide⟩

/-! ## C16 -/

/-- C16: for an instance created by `NEW` and deleted through a reference typed
at any level `k`, at every level `j` of the destruction chain: the level's
`State` block `a` is live when `DELETE` starts and is not released before the
class's `_Deinit` is called nor by the `_Deinit` (between the call of the
`_Deinit` and the release of `a` there are only releases, not of `a`, made by
that `_Deinit`); the block is released right after; and the level's `State`
reference is null after `DELETE`.  On a Racecar, the driver buffer stored in the
Racecar `State` block is released after the call of `Racecar_Deinit` and before
the release of that block. -/
theorem C16_deinit_runs_before_state_release (pre ch : Chain) (cfg : Cfg) (w : World)
    (P k j : Nat) (hch : ch ≠ []) (_hk : k ≤ depth ch) (hj : j ≤ depth ch) :
    (∃ a E1 D E2,
      (NEW ch cfg w).2.mb (NEW ch cfg w).1 j = some a ∧ a ∈ (NEW ch cfg w).2.live ∧
      newEvents (NEW ch cfg w).2
          (DELETE (pre ++ ch) (upcast P (depth ch) (depth ch - k) (NEW ch cfg w).1)
            (NEW ch cfg w).2)
        = E1 ++ Event.call Routine.Deinit j :: D ++ Event.free a :: E2 ∧
      Event.free a ∉ E1 ∧ Event.free a ∉ D ∧
      (∀ e, e ∈ D → e = Event.ub ∨ ∃ b, e = Event.free b) ∧
      (DELETE (pre ++ ch) (upcast P (depth ch) (depth ch - k) (NEW ch cfg w).1)
        (NEW ch cfg w).2).mb (NEW ch cfg w).1 j = none) ∧
    ((NEW RacecarClass cfg w).2.mb (NEW RacecarClass cfg w).1 2 = some (w.next + 3) ∧
     (NEW RacecarClass cfg w).2.st (w.next + 3) 0 = Val.ptr (w.next + 4) ∧
     newEvents (NEW RacecarClass cfg w).2
        (DELETE RacecarClass (NEW RacecarClass cfg w).1 (NEW RacecarClass cfg w).2) =
      [Event.call Routine.Delete 2, Event.call Routine.DeleteOuter 2,
       Event.call Routine.DeleteInner 2,
       Event.call Routine.Dtor 2, Event.call Routine.Dtor 1, Event.call Routine.Dtor 0,
       Event.call Routine.Deinit 0, Event.free (w.next + 1),
       Event.call Routine.Deinit 1, Event.free (w.next + 2),
       Event.call Routine.Deinit 2, Event.free (w.next + 4), Event.free (w.next + 3),
       Event.free w.next]) := by
  have hl : 0 < ch.length := List.length_pos.mpr hch
  have hlt : j < ch.length := by simp only [depth] at hj; omega
  constructor
  · obtain ⟨o1, o2, o3⟩ := NEW_owned ch cfg w
    obtain ⟨a, ha, halive, _⟩ := NEW_populated ch cfg w j hlt
    obtain ⟨E1, D, E2, htr, h1, h2, h3⟩ := Dtor_level ch w.next
      ((((NEW ch cfg w).2.log (Event.call Routine.Delete (depth ch))).log
        (Event.call Routine.DeleteOuter (depth ch))).log
        (Event.call Routine.DeleteInner (depth ch))) j a hlt ha
      (fun m hm hne hma => hne (o2 m j a hm hlt hma ha))
      (fun m hm s hs i hsi => (o3 m hm s hs i a hsi).2 j hlt ha)
    obtain ⟨T, hT⟩ := free_trace_head
      (Dtor ch w.next ((((NEW ch cfg w).2.log (Event.call Routine.Delete (depth ch))).log
        (Event.call Routine.DeleteOuter (depth ch))).log
        (Event.call Routine.DeleteInner (depth ch)))) w.next
    rw [upcast_eq P _ _ _ (Nat.sub_le _ _), NEW_fst]
    refine ⟨a, Event.call Routine.Delete (depth ch) ::
      Event.call Routine.DeleteOuter (depth ch) ::
      Event.call Routine.DeleteInner (depth ch) :: E1, D,
      E2 ++ Event.free w.next :: T, ha, halive, ?_, ?_, h2, h3, ?_⟩
    · apply newEvents_of_append
      rw [DELETE_eq pre ch _ _ hch (NEW_del ch cfg w), hT, htr]
      simp
    · intro hmem
      simp only [List.mem_cons, reduceCtorEq, false_or] at hmem
      exact h1 hmem
    · rw [DELETE_eq pre ch _ _ hch (NEW_del ch cfg w), free_mb, Dtor_mb, if_pos ⟨rfl, hlt⟩]
  · by_cases h : w.IsVtableInit 2 = true
    · simp [newEvents, DELETE, NEW, NewOuter, NewInner, depth, RacecarClass, h, Ctor, Init,
        runInit, Racecar, Car, Vehicle, Racecar_Init, Car_Init, Vehicle_Init, Racecar_Deinit,
        Car_Deinit, Vehicle_Deinit, classOf, Delete, DeleteOuter, DeleteInner, Dtor, Deinit,
        runDeinit, World.free, World.freePtr, World.freeVal]
    · simp [newEvents, DELETE, NEW, NewOuter, NewInner, depth, RacecarClass, h, Ctor, Init,
        runInit, Racecar, Car, Vehicle, Racecar_Init, Car_Init, Vehicle_Init, Racecar_Deinit,
        Car_Deinit, Vehicle_Deinit, classOf, Delete, DeleteOuter, DeleteInner, Dtor, Deinit,
        runDeinit, World.free, World.freePtr, World.freeVal, VtableInitTree, VtableInit]

/-- C16 on a Racecar at its Racecar level, from the process start: the
Racecar `State` reference is null after `DELETE`. -/
theorem C16_deinit_runs_before_state_release_witness :
    (DELETE ([] ++ RacecarClass)
        (upcast 8 (depth RacecarClass) (depth RacecarClass - 0)
          (NEW RacecarClass (RacecarCfg 350 1 [65]) World.init).1)
        (NEW RacecarClass (RacecarCfg 350 1 [65]) World.init).2).mb
      (NEW RacecarClass (RacecarCfg 350 1 [65]) World.init).1 2 = none := by
  obtain ⟨⟨_, _, _, _, _, _, _, _, _, _, h⟩, _⟩ :=
    C16_deinit_runs_before_state_release [] RacecarClass (RacecarCfg 350 1 [65]) World.init 8
      0 2 (List.cons_ne_nil _ _) (by decide) (by decide)
  exact h

/-! ## C17 -/

/-- C17: for every class and every config, `DELETE` of the instance created by
`NEW`, through a reference typed at any level `k`: the release of the instance
is the last event and the only release of the instance (which is live until
then), and before it every level's `_Deinit` has been called and every level's
`State` block has been released. -/
theorem C17_instance_released_last (pre ch : Chain) (cfg : Cfg) (w : World) (P k : Nat)
    (hch : ch ≠ []) (_hk : k ≤ depth ch) :
    ∃ E, newEvents (NEW ch cfg w).2
          (DELETE (pre ++ ch) (upcast P (depth ch) (depth ch - k) (NEW ch cfg w).1)
            (NEW ch cfg w).2)
        = E ++ [Event.free (NEW ch cfg w).1] ∧
      Event.free (NEW ch cfg w).1 ∉ E ∧
      (NEW ch cfg w).1 ∈ (NEW ch cfg w).2.live ∧
      ∀ j, j ≤ depth ch → Event.call Routine.Deinit j ∈ E ∧
        ∃ a, (NEW ch cfg w).2.mb (NEW ch cfg w).1 j = some a ∧ Event.free a ∈ E := by
  have hl : 0 < ch.length := List.length_pos.mpr hch
  obtain ⟨E, hE, hnot, hlive, hall⟩ := Dtor_of_NEW ch cfg w
    ((((NEW ch cfg w).2.log (Event.call Routine.Delete (depth ch))).log
      (Event.call Routine.DeleteOuter (depth ch))).log
      (Event.call Routine.DeleteInner (depth ch))) rfl rfl rfl
  rw [upcast_eq P _ _ _ (Nat.sub_le _ _), NEW_fst]
  refine ⟨Event.call Routine.Delete (depth ch) :: Event.call Routine.DeleteOuter (depth ch) ::
    Event.call Routine.DeleteInner (depth ch) :: E, ?_, ?_, NEW_inst_live ch cfg w, ?_⟩
  · apply newEvents_of_append
    rw [DELETE_eq pre ch _ _ hch (NEW_del ch cfg w), free_trace_of_live _ _ hlive, hE]
    simp
  · intro hmem
    simp only [List.mem_cons, reduceCtorEq, false_or] at hmem
    exact hnot hmem
  · intro j hj
    obtain ⟨h1, a, ha, h2⟩ := hall j (by simp only [depth] at hj; omega)
    exact ⟨List.mem_cons_of_mem _ (List.mem_cons_of_mem _ (List.mem_cons_of_mem _ h1)), a, ha,
      List.mem_cons_of_mem _ (List.mem_cons_of_mem _ (List.mem_cons_of_mem _ h2))⟩

/-- C17 on a Car deleted through its Vehicle-typed reference, from the process
start. -/
theorem C17_instance_released_last_witness :
    ∃ E, newEvents (NEW CarClass (CarCfg 250 4) World.init).2
          (DELETE ([] ++ CarClass)
            (upcast 8 (depth CarClass) (depth CarClass - 0)
              (NEW CarClass (CarCfg 250 4) World.init).1)
            (NEW CarClass (CarCfg 250 4) World.init).2)
        = E ++ [Event.free (NEW CarClass (CarCfg 250 4) World.init).1] := by
  obtain ⟨E, h, _⟩ := C17_instance_released_last [] CarClass (CarCfg 250 4) World.init 8 0
    (List.cons_ne_nil _ _) (by decide)
  exact ⟨E, h⟩

/-! ## C13 -/

/-- C13: in every state the example program reaches from the process start by
`NEW`, `DELETE` of live instances and `VCALL` on live instances: every level of
every live instance has a live `State` block, no two levels of live instances
(of one instance or of two) share a `State` block, and a `VCALL` of any slot on
a live instance leaves the `State` blocks of every other live instance as they
are. -/
theorem C13_state_blocks_not_shared (ops : List Op) :
    (∀ p c j, (p, c) ∈ (run RacecarClass ops Sys.init).insts → j ≤ c →
      ∃ a, (run RacecarClass ops Sys.init).world.mb p j = some a ∧
        a ∈ (run RacecarClass ops Sys.init).world.live) ∧
    (∀ p c q d j k a, (p, c) ∈ (run RacecarClass ops Sys.init).insts →
      (q, d) ∈ (run RacecarClass ops Sys.init).insts → j ≤ c → k ≤ d →
      (run RacecarClass ops Sys.init).world.mb p j = some a →
      (run RacecarClass ops Sys.init).world.mb q k = some a → p = q ∧ j = k) ∧
    (∀ p c k func args q d j b, (p, c) ∈ (run RacecarClass ops Sys.init).insts →
      (q, d) ∈ (run RacecarClass ops Sys.init).insts → q ≠ p → j ≤ d →
      (run RacecarClass ops Sys.init).world.mb q j = some b →
      (VCALL RacecarClass p k func args (run RacecarClass ops Sys.init).world).st b
        = (run RacecarClass ops Sys.init).world.st b) := by
  obtain ⟨_, i2, i3, _, _, _⟩ := Inv_run ops Sys.init (Inv_init RacecarClass)
  refine ⟨?_, i3, ?_⟩
  · intro p c j hp hj
    obtain ⟨_, a, ha, _, halive⟩ := i2 p c j hp hj
    exact ⟨a, ha, halive⟩
  · intro p c k func args q d j b hp hq hne hj hb
    obtain ⟨_, _, _, _, _, _, _, _, f9, _, _⟩ :=
      VCALL_frame p k func args (run RacecarClass ops Sys.init).world
    apply f9 b
    intro hpb
    exact hne (i3 p c q d 0 j b hp hq (Nat.zero_le _) hj hpb hb).1.symm

/-! ## C15 -/

/-- C15: a class's singleton table never changes once built. From any world,
`NEW` of any class leaves every built table as it is and writes no table other
than that of the class it instantiates; `DELETE` and every `VCALL` of
the example program leave all tables as they are. Along every run of the example
program, a table whose flag is set stays the same under all later operations,
and every live standalone Vehicle, whatever was created before it or after it,
has `Vehicle_Accelerate` in its `Accelerate` slot and `Vehicle_Brake` in its
`Brake` slot, and `VCALL` runs exactly these functions. -/
theorem C15_built_table_never_changes (ch prog : Chain) (cfg : Cfg) (w : World)
    (p k c : Nat) (func : String) (args : List Int) (ops later : List Op) :
    (w.IsVtableInit c = true → (NEW ch cfg w).2.VtableDefault c = w.VtableDefault c) ∧
    (c ≠ depth ch → (NEW ch cfg w).2.VtableDefault c = w.VtableDefault c) ∧
    (DELETE prog p w).VtableDefault c = w.VtableDefault c ∧
    (VCALL RacecarClass p k func args w).VtableDefault c = w.VtableDefault c ∧
    ((run RacecarClass ops Sys.init).world.IsVtableInit c = true →
      (run RacecarClass later (run RacecarClass ops Sys.init)).world.VtableDefault c
        = (run RacecarClass ops Sys.init).world.VtableDefault c) ∧
    (∀ q, (q, 0) ∈ (run RacecarClass ops Sys.init).insts →
      slotOf (run RacecarClass ops Sys.init).world q 0 "Accelerate"
        = some "Vehicle_Accelerate" ∧
      slotOf (run RacecarClass ops Sys.init).world q 0 "Brake" = some "Vehicle_Brake" ∧
      VCALL RacecarClass q 0 "Accelerate" args (run RacecarClass ops Sys.init).world
        = Vehicle_Accelerate q args
            ((run RacecarClass ops Sys.init).world.log (Event.method "Vehicle_Accelerate")) ∧
      VCALL RacecarClass q 0 "Brake" args (run RacecarClass ops Sys.init).world
        = Vehicle_Brake q args
            ((run RacecarClass ops Sys.init).world.log (Event.method "Vehicle_Brake"))) := by
  refine ⟨?_, ?_, ?_, ?_, ?_, ?_⟩
  · intro h
    by_cases hcd : c = depth ch
    · subst hcd
      exact NEW_table_built _ _ _ h
    · exact NEW_table_other _ _ _ _ hcd
  · exact NEW_table_other _ _ _ _
  · rw [(DELETE_statics _ _ _).1]
  · obtain ⟨_, _, _, _, _, _, _, f8, _⟩ := VCALL_frame p k func args w
    rw [f8]
  · intro h
    exact (run_table later _ c h).1
  · intro q hq
    obtain ⟨i1, i2, _, _, _, i6⟩ := Inv_run ops Sys.init (Inv_init RacecarClass)
    obtain ⟨_, _, _, hflag⟩ := i1 q 0 hq
    obtain ⟨hvt, _⟩ := i2 q 0 0 hq (Nat.le_refl _)
    have htab := (i6 0 (by decide)).1 hflag
    have hA : slotOf (run RacecarClass ops Sys.init).world q 0 "Accelerate"
        = some "Vehicle_Accelerate" := by
      simp only [slotOf, hvt, htab]
      exact builtTable_Vehicle.1
    have hB : slotOf (run RacecarClass ops Sys.init).world q 0 "Brake"
        = some "Vehicle_Brake" := by
      simp only [slotOf, hvt, htab]
      exact builtTable_Vehicle.2
    refine ⟨hA, hB, ?_, ?_⟩
    · simp only [VCALL, hA, resolve_Vehicle.1]
    · simp only [VCALL, hB, resolve_Vehicle.2]

/-! ## C21 -/

/-- C21: for every class, every config and every instance storage `p` that the
caller provides (an address that exists before the call), `NewInner` followed
by `DeleteInner`:
* `NewInner` appends calls of the table build and of the constructors, then per
  level the allocation of that level's `State` block, the call of its `_Init`
  and the buffers the `_Init` allocates; it allocates no instance, allocates
  nothing at `p`, and releases nothing;
* `DeleteInner` allocates nothing; apart from calls and undefined behaviour it
  appends only releases of the `State` blocks and releases of addresses stored
  in a `State` block; every level's `State` block is released exactly once, and
  `p` is never released;
* the liveness of every block that existed before, `p` included, is as before;
* the generic delete references are as before, after `NewInner` and after
  `DeleteInner`; `NEW` is `NewInner` on a fresh zero-filled instance followed
  by the one store of the delete reference, which is null until then;
* every level's `State` reference is null at the end.
On a Racecar, for every config, storage and world: the blocks allocated are the
three `State` blocks and the driver buffer, each is released once, without
undefined behaviour, and the live blocks are as before. -/
theorem C21_inner_pair_touches_only_state_blocks (ch : Chain) (p : Nat) (cfg : Cfg)
    (w : World) (hp : p < w.next) :
    (∃ (pre : List Event) (segs : List (List Event)),
      newEvents w (NewInner ch p cfg w) = pre ++
        (List.range ch.length).reverse.map (Event.call Routine.Ctor) ++ segs.flatten ∧
      (∀ e, e ∈ pre → ∃ r c, e = Event.call r c) ∧ segs.length = ch.length ∧
      ∀ j, j < ch.length → ∃ a B, (NewInner ch p cfg w).mb p j = some a ∧
        segs[j]? = some (Event.calloc Kind.state a :: Event.call Routine.Init j :: B) ∧
        ∀ e, e ∈ B → ∃ b, e = Event.calloc Kind.buf b) ∧
    (∀ a, Event.calloc Kind.inst a ∉ newEvents w (NewInner ch p cfg w)) ∧
    (∀ k, Event.calloc k p ∉ newEvents w (NewInner ch p cfg w)) ∧
    (∀ a, Event.free a ∉ newEvents w (NewInner ch p cfg w)) ∧
    (∀ e, e ∈ newEvents (NewInner ch p cfg w) (DeleteInner ch p (NewInner ch p cfg w)) →
      e = Event.ub ∨ (∃ r c, e = Event.call r c) ∨
      (∃ j a, j < ch.length ∧ (NewInner ch p cfg w).mb p j = some a ∧ e = Event.free a) ∨
      (∃ j s i b, j < ch.length ∧ (NewInner ch p cfg w).mb p j = some s ∧
        (NewInner ch p cfg w).st s i = Val.ptr b ∧ e = Event.free b)) ∧
    (∀ j a, j < ch.length → (NewInner ch p cfg w).mb p j = some a →
      (newEvents (NewInner ch p cfg w) (DeleteInner ch p (NewInner ch p cfg w))).count
        (Event.free a) = 1) ∧
    Event.free p ∉ newEvents (NewInner ch p cfg w) (DeleteInner ch p (NewInner ch p cfg w)) ∧
    (∀ x, x < w.next →
      (x ∈ (DeleteInner ch p (NewInner ch p cfg w)).live ↔ x ∈ w.live)) ∧
    (NewInner ch p cfg w).del = w.del ∧
    (DeleteInner ch p (NewInner ch p cfg w)).del = w.del ∧
    ((NEW ch cfg w).2 = (NewInner ch w.next cfg
        ((((w.log (Event.call Routine.NewOuter (depth ch))).calloc Kind.inst).2).zeroInst
          w.next)).setDel w.next (some (depth ch)) ∧
      (NewInner ch w.next cfg
        ((((w.log (Event.call Routine.NewOuter (depth ch))).calloc Kind.inst).2).zeroInst
          w.next)).del w.next = none) ∧
    (∀ j, j < ch.length → (DeleteInner ch p (NewInner ch p cfg w)).mb p j = none) ∧
    (allocated (newEvents w (NewInner RacecarClass p cfg w)) =
        [(Kind.state, w.next), (Kind.state, w.next + 1), (Kind.state, w.next + 2),
         (Kind.buf, w.next + 3)] ∧
     released (newEvents (NewInner RacecarClass p cfg w)
        (DeleteInner RacecarClass p (NewInner RacecarClass p cfg w))) =
        [w.next, w.next + 1, w.next + 3, w.next + 2] ∧
     Event.ub ∉ newEvents (NewInner RacecarClass p cfg w)
        (DeleteInner RacecarClass p (NewInner RacecarClass p cfg w)) ∧
     (DeleteInner RacecarClass p (NewInner RacecarClass p cfg w)).live = w.live) := by
  obtain ⟨pre, segs, hseg, hprek, hlen, hlev⟩ := NewInner_segments ch p cfg w
  obtain ⟨EN, hEN, _, hinst, hfree, hge⟩ := NewInner_events ch p cfg w
  obtain ⟨hown, hptr⟩ := NewInner_owned ch p cfg w
  obtain ⟨ED, hED, hkinds, hcount, hlow, hlive⟩ :=
    DeleteInner_owned ch p w.next (NewInner ch p cfg w) hown hptr
  rw [newEvents_of_append _ _ _ hED]
  refine ⟨⟨pre, segs, ?_, hprek, hlen, hlev⟩, ?_, ?_, ?_, hkinds, hcount, hlow p hp, ?_,
    NewInner_del ch p cfg w, ?_, ⟨rfl, ?_⟩, ?_, ?_⟩
  · apply newEvents_of_append
    rw [hseg]
    simp
  · rw [newEvents_of_append _ _ _ hEN]
    exact hinst
  · rw [newEvents_of_append _ _ _ hEN]
    intro k h
    have := hge k p h
    omega
  · rw [newEvents_of_append _ _ _ hEN]
    exact hfree
  · intro x hx
    rw [hlive x hx]
    exact NewInner_live ch p cfg w x hx
  · simp only [DeleteInner]
    rw [(Dtor_frame _ _ _).2.1, log_del, NewInner_del]
  · rw [NewInner_del]
    simp
  · intro j hj
    simp only [DeleteInner]
    rw [Dtor_mb, if_pos ⟨rfl, hj⟩]
  · exact Racecar_inner_pair p cfg w

/-- C21 on a Racecar built in storage at address 0, from the process start:
the storage is not released and every level's `State` reference is null
afterwards. -/
theorem C21_inner_pair_touches_only_state_blocks_witness :
    0 < World.init.next ∧
    Event.free 0 ∉ newEvents (NewInner RacecarClass 0 (RacecarCfg 350 1 [65]) World.init)
      (DeleteInner RacecarClass 0
        (NewInner RacecarClass 0 (RacecarCfg 350 1 [65]) World.init)) ∧
    ∀ j, j < RacecarClass.length →
      (DeleteInner RacecarClass 0
        (NewInner RacecarClass 0 (RacecarCfg 350 1 [65]) World.init)).mb 0 j = none := by
  obtain ⟨_, _, _, _, _, _, h7, _, _, _, _, h12, _⟩ :=
    C21_inner_pair_touches_only_state_blocks RacecarClass 0 (RacecarCfg 350 1 [65])
      World.init (by decide)
  exact ⟨by decide, h7, h12⟩

end ClassesForC
